import Mathlib

/-!
Shallow embedding of the go-cache library (package cache): the FIFO, LIFO,
LRU, Random and TTL eviction engines.  Each Go struct becomes a Lean
structure; the pointer-linked list nodes live in an arena (`store`, a list of
nodes addressed by their index), so in-place pointer mutation, node zeroing
and aliasing behave exactly as in the Go source.  A Go `map[K]...` is an
association list without duplicate keys; `panic` is modelled by returning
`none`; `time.Time` and `time.Duration` are modelled by `Int` with `Before`
as `<` and `After` as `>`.
-/

set_option linter.unusedSectionVars false
set_option linter.unreachableTactic false

namespace GoCache

/-! Association-list model of a Go map. -/

def mapGet {K A : Type} [DecidableEq K] : List (K × A) → K → Option A
  | [], _ => none
  | (k', a) :: rest, k => if k' = k then some a else mapGet rest k

def mapInsert {K A : Type} [DecidableEq K] : List (K × A) → K → A → List (K × A)
  | [], k, a => [(k, a)]
  | (k', a') :: rest, k, a =>
      if k' = k then (k, a) :: rest else (k', a') :: mapInsert rest k a

def mapDelete {K A : Type} [DecidableEq K] : List (K × A) → K → List (K × A)
  | [], _ => []
  | (k', a') :: rest, k =>
      if k' = k then mapDelete rest k else (k', a') :: mapDelete rest k

/-! Generic machinery for pointer chains inside an arena.  `chainUpto nxt len
cur ids fin` says: starting from the pointer `cur` and repeatedly following
`nxt`, we visit exactly the node indices `ids` (all below `len`) and end with
the pointer `fin`. -/

def chainUpto (nxt : Nat → Option Nat) (len : Nat) :
    Option Nat → List Nat → Option Nat → Prop
  | cur, [], fin => fin = cur
  | cur, i :: rest, fin => cur = some i ∧ i < len ∧ chainUpto nxt len (nxt i) rest fin

def chain (nxt : Nat → Option Nat) (len : Nat) (cur : Option Nat) (ids : List Nat) : Prop :=
  chainUpto nxt len cur ids none

/-- Pointer to the last node of the segment `ids`, or `p` when the segment is
empty (used both as the expected `prev` of a following node and to name the
last element of a chain). -/
def endPtr (p : Option Nat) : List Nat → Option Nat
  | [] => p
  | i :: rest => endPtr (some i) rest

/-- `prevFrom prv p ids`: walking the indices `ids`, every node's `prev`
pointer designates the node just before it, the first one having `prev = p`. -/
def prevFrom (prv : Nat → Option Nat) : Option Nat → List Nat → Prop
  | _, [] => True
  | p, i :: rest => prv i = p ∧ prevFrom prv (some i) rest

/-! ## FIFO engine (fifo.go)

A node of the singly linked list: `next`, a possibly nil key pointer `key`,
and the cached `value`.  The zero node (all pointers nil, zero value) is what
eviction and Stop write back into a node. -/

structure FifoListItem (K V : Type) where
  next : Option Nat
  key : Option K
  value : V
deriving DecidableEq

variable {K V E : Type} [DecidableEq K] [DecidableEq V] [Inhabited V]

def fifoZero : FifoListItem K V := ⟨none, none, default⟩

/-- Dereference a node pointer in the arena. -/
def fnodeAt (store : List (FifoListItem K V)) (i : Nat) : FifoListItem K V :=
  store.getD i fifoZero

structure FIFOCache (K V : Type) where
  store : List (FifoListItem K V)
  cache : List (K × Nat)
  head : Option Nat
  tail : Option Nat
  capacity : Int
  stopped : Bool
deriving DecidableEq

/-- NewFIFO; a non-positive capacity panics (modelled as `none`). -/
def newFIFO (capacity : Int) : Option (FIFOCache K V) :=
  if capacity ≤ 0 then none else some ⟨[], [], none, none, capacity, false⟩

/-- The internal `get`, together with the receiver state after the call (the
method performs no writes, so the state is returned unchanged); `none` models
the panic on a stopped cache, and the inner option is the `(V, bool)` pair. -/
def fifoGetS (s : FIFOCache K V) (key : K) : Option (Option V × FIFOCache K V) :=
  if s.stopped then none
  else
    match mapGet s.cache key with
    | none => some (none, s)
    | some i => some (some (fnodeAt s.store i).value, s)

def fifoGet (s : FIFOCache K V) (key : K) : Option (Option V) :=
  (fifoGetS s key).map Prod.fst

/-- The eviction block at the top of `set`: delete the head key from the map,
zero out the head node and advance the head pointer.  `none` models the nil
pointer dereferences Go would hit if `head` or `head.key` were nil. -/
def fifoEvict (s : FIFOCache K V) : Option (FIFOCache K V) :=
  match s.head with
  | none => none
  | some h =>
    let next := (fnodeAt s.store h).next
    match (fnodeAt s.store h).key with
    | none => none
    | some hk =>
      some { s with cache := mapDelete s.cache hk,
                    store := s.store.set h fifoZero,
                    head := next }

/-- The internal `set`: evict when `len(cache) >= capacity` (note: this runs
before the key-existence check, exactly as in the source), then insert a new
node at the tail if the key is absent, and finally write the value. -/
def fifoSet (s : FIFOCache K V) (key : K) (val : V) : Option (FIFOCache K V) :=
  if s.stopped then none
  else
    (if (s.cache.length : Int) ≥ s.capacity then fifoEvict s else some s).bind fun s1 =>
    let (s2, i) :=
      match mapGet s1.cache key with
      | some i => (s1, i)
      | none =>
        let i := s1.store.length
        let sa := { s1 with store := s1.store ++ [(⟨none, some key, default⟩ : FifoListItem K V)],
                            cache := mapInsert s1.cache key i }
        let sb :=
          match sa.tail with
          | some t => { sa with store := sa.store.set t { fnodeAt sa.store t with next := some i } }
          | none => sa
        let sc := { sb with tail := some i }
        (if sc.head = none then { sc with head := some i } else sc, i)
    some { s2 with store := s2.store.set i { fnodeAt s2.store i with value := val } }

/-- Fetch: the single invocation of the compute function is modelled by its
result `fr`.  Returns the `(V, error)` pair and the state after the call. -/
def fifoFetch (s : FIFOCache K V) (key : K) (fr : Except E V) :
    Option (Except E V × FIFOCache K V) :=
  if s.stopped then none
  else
    (fifoGetS s key).bind fun rs =>
    match rs.1 with
    | some v => some (.ok v, rs.2)
    | none =>
      match fr with
      | .error e => some (.error e, rs.2)
      | .ok v => (fifoSet rs.2 key v).bind fun s2 => some (.ok v, s2)

/-- The node-zeroing walk in Stop.  Fuel makes the recursion structural; Go's
loop always terminates because each iteration nils the `next` pointer it just
followed, so `store.length + 1` steps always suffice. -/
def fifoStopWalk (store : List (FifoListItem K V)) : Option Nat → Nat → List (FifoListItem K V)
  | none, _ => store
  | some _, 0 => store
  | some i, fuel+1 => fifoStopWalk (store.set i fifoZero) (fnodeAt store i).next fuel

/-- Stop: the compare-and-swap on the stopped flag makes a second call a
no-op; the first call clears the map, zeroes every list node and nils the
head and tail pointers. -/
def fifoStop (s : FIFOCache K V) : FIFOCache K V :=
  if s.stopped then s
  else
    { s with stopped := true, cache := [],
             store := fifoStopWalk s.store s.head (s.store.length + 1),
             head := none, tail := none }

def fifoApply (s : FIFOCache K V) : List (K × V) → Option (FIFOCache K V)
  | [] => some s
  | (k, v) :: ops => (fifoSet s k v).bind (fun s' => fifoApply s' ops)

def runFIFO (capacity : Int) (ops : List (K × V)) : Option (FIFOCache K V) :=
  (newFIFO capacity).bind (fun s => fifoApply s ops)

/-! ## LIFO engine (lifo.go)

Same node shape as FIFO; the list has no tail pointer and new entries are
inserted at the head. -/

structure LifoListItem (K V : Type) where
  next : Option Nat
  key : Option K
  value : V
deriving DecidableEq

def lifoZero : LifoListItem K V := ⟨none, none, default⟩

def gnodeAt (store : List (LifoListItem K V)) (i : Nat) : LifoListItem K V :=
  store.getD i lifoZero

structure LIFOCache (K V : Type) where
  store : List (LifoListItem K V)
  cache : List (K × Nat)
  head : Option Nat
  capacity : Int
  stopped : Bool
deriving DecidableEq

def newLIFO (capacity : Int) : Option (LIFOCache K V) :=
  if capacity ≤ 0 then none else some ⟨[], [], none, capacity, false⟩

def lifoGetS (s : LIFOCache K V) (key : K) : Option (Option V × LIFOCache K V) :=
  if s.stopped then none
  else
    match mapGet s.cache key with
    | none => some (none, s)
    | some i => some (some (gnodeAt s.store i).value, s)

def lifoGet (s : LIFOCache K V) (key : K) : Option (Option V) :=
  (lifoGetS s key).map Prod.fst

def lifoEvict (s : LIFOCache K V) : Option (LIFOCache K V) :=
  match s.head with
  | none => none
  | some h =>
    let next := (gnodeAt s.store h).next
    match (gnodeAt s.store h).key with
    | none => none
    | some hk =>
      some { s with cache := mapDelete s.cache hk,
                    store := s.store.set h lifoZero,
                    head := next }

/-- The internal `set` of LIFO: same unconditional capacity check, but a new
node is pushed at the head of the list. -/
def lifoSet (s : LIFOCache K V) (key : K) (val : V) : Option (LIFOCache K V) :=
  if s.stopped then none
  else
    (if (s.cache.length : Int) ≥ s.capacity then lifoEvict s else some s).bind fun s1 =>
    let (s2, i) :=
      match mapGet s1.cache key with
      | some i => (s1, i)
      | none =>
        let i := s1.store.length
        ({ s1 with store := s1.store ++ [(⟨s1.head, some key, default⟩ : LifoListItem K V)],
                   cache := mapInsert s1.cache key i,
                   head := some i }, i)
    some { s2 with store := s2.store.set i { gnodeAt s2.store i with value := val } }

def lifoFetch (s : LIFOCache K V) (key : K) (fr : Except E V) :
    Option (Except E V × LIFOCache K V) :=
  if s.stopped then none
  else
    (lifoGetS s key).bind fun rs =>
    match rs.1 with
    | some v => some (.ok v, rs.2)
    | none =>
      match fr with
      | .error e => some (.error e, rs.2)
      | .ok v => (lifoSet rs.2 key v).bind fun s2 => some (.ok v, s2)

def lifoStopWalk (store : List (LifoListItem K V)) : Option Nat → Nat → List (LifoListItem K V)
  | none, _ => store
  | some _, 0 => store
  | some i, fuel+1 => lifoStopWalk (store.set i lifoZero) (gnodeAt store i).next fuel

def lifoStop (s : LIFOCache K V) : LIFOCache K V :=
  if s.stopped then s
  else
    { s with stopped := true, cache := [],
             store := lifoStopWalk s.store s.head (s.store.length + 1),
             head := none }

def lifoApply (s : LIFOCache K V) : List (K × V) → Option (LIFOCache K V)
  | [] => some s
  | (k, v) :: ops => (lifoSet s k v).bind (fun s' => lifoApply s' ops)

def runLIFO (capacity : Int) (ops : List (K × V)) : Option (LIFOCache K V) :=
  (newLIFO capacity).bind (fun s => lifoApply s ops)

/-! ## LRU engine (lru.go)

Doubly linked list: `head` is the least recently used entry, `tail` the most
recently used one. -/

structure LruListItem (K V : Type) where
  prev : Option Nat
  next : Option Nat
  key : Option K
  value : V
deriving DecidableEq

def lruZero : LruListItem K V := ⟨none, none, none, default⟩

def lnodeAt (store : List (LruListItem K V)) (i : Nat) : LruListItem K V :=
  store.getD i lruZero

structure LRUCache (K V : Type) where
  store : List (LruListItem K V)
  cache : List (K × Nat)
  head : Option Nat
  tail : Option Nat
  capacity : Int
  stopped : Bool
deriving DecidableEq

def newLRU (capacity : Int) : Option (LRUCache K V) :=
  if capacity ≤ 0 then none else some ⟨[], [], none, none, capacity, false⟩

/-- moveToTail: unlink the node from its current position and relink it at
the tail, following the source statement by statement (each pointer is read
from the current store at the moment the corresponding Go statement reads
it). -/
def lruMoveToTail (s : LRUCache K V) (nid : Nat) : LRUCache K V :=
  if s.tail = some nid then s
  else
    let s1 := if s.head = some nid then { s with head := (lnodeAt s.store nid).next } else s
    let s2 :=
      match (lnodeAt s1.store nid).prev with
      | some p =>
          let pn := { lnodeAt s1.store p with next := (lnodeAt s1.store nid).next }
          { s1 with store := s1.store.set p pn }
      | none => s1
    let s3 :=
      match (lnodeAt s2.store nid).next with
      | some n =>
          let nn := { lnodeAt s2.store n with prev := (lnodeAt s2.store nid).prev }
          { s2 with store := s2.store.set n nn }
      | none => s2
    let s4 :=
      match s3.tail with
      | some t => { s3 with store := s3.store.set t { lnodeAt s3.store t with next := some nid } }
      | none => s3
    let relinked := { lnodeAt s4.store nid with next := none, prev := s4.tail }
    let s5 := { s4 with store := s4.store.set nid relinked }
    let s6 := { s5 with tail := some nid }
    match s6.head with
    | none => { s6 with head := some nid }
    | some _ => s6

/-- The store transformation performed by `lruMoveToTail` when the node is
not already the tail, written as one explicit update sequence (proved equal
to the translation in `lruMoveToTail_spec`): bypass the node from its
neighbours, point the old tail at it, and relink it as the new last node. -/
def lruUnlinkRelink (s : LRUCache K V) (nid : Nat) : List (LruListItem K V) :=
  let np := (lnodeAt s.store nid).prev
  let nn := (lnodeAt s.store nid).next
  let st2 :=
    match np with
    | some p => s.store.set p { lnodeAt s.store p with next := nn }
    | none => s.store
  let st3 :=
    match nn with
    | some n => st2.set n { lnodeAt st2 n with prev := np }
    | none => st2
  let st4 :=
    match s.tail with
    | some t => st3.set t { lnodeAt st3 t with next := some nid }
    | none => st3
  st4.set nid { lnodeAt st4 nid with next := none, prev := s.tail }

/-- The head pointer after `lruMoveToTail` when the node is not already the
tail. -/
def lruMoveHead (s : LRUCache K V) (nid : Nat) : Option Nat :=
  let h1 := if s.head = some nid then (lnodeAt s.store nid).next else s.head
  match h1 with
  | none => some nid
  | some x => some x

/-- The internal `get` of LRU: a hit also promotes the entry to the tail, so
the state after the call differs from the receiver. -/
def lruGetS (s : LRUCache K V) (key : K) : Option (Option V × LRUCache K V) :=
  if s.stopped then none
  else
    match mapGet s.cache key with
    | none => some (none, s)
    | some i =>
      let s' := lruMoveToTail s i
      some (some (lnodeAt s'.store i).value, s')

def lruGet (s : LRUCache K V) (key : K) : Option (Option V) :=
  (lruGetS s key).map Prod.fst

def lruEvict (s : LRUCache K V) : Option (LRUCache K V) :=
  match s.head with
  | none => none
  | some h =>
    let next := (lnodeAt s.store h).next
    match (lnodeAt s.store h).key with
    | none => none
    | some hk =>
      let s1 := { s with cache := mapDelete s.cache hk, store := s.store.set h lruZero }
      let s2 :=
        match next with
        | some n => { s1 with store := s1.store.set n { lnodeAt s1.store n with prev := none } }
        | none => s1
      some { s2 with head := next }

def lruSet (s : LRUCache K V) (key : K) (val : V) : Option (LRUCache K V) :=
  if s.stopped then none
  else
    (if (s.cache.length : Int) ≥ s.capacity then lruEvict s else some s).bind fun s1 =>
    let (s2, i) :=
      match mapGet s1.cache key with
      | some i => (s1, i)
      | none =>
        let i := s1.store.length
        ({ s1 with store := s1.store ++ [(⟨none, none, some key, default⟩ : LruListItem K V)],
                   cache := mapInsert s1.cache key i }, i)
    let s3 := { s2 with store := s2.store.set i { lnodeAt s2.store i with value := val } }
    some (lruMoveToTail s3 i)

def lruFetch (s : LRUCache K V) (key : K) (fr : Except E V) :
    Option (Except E V × LRUCache K V) :=
  if s.stopped then none
  else
    (lruGetS s key).bind fun rs =>
    match rs.1 with
    | some v => some (.ok v, rs.2)
    | none =>
      match fr with
      | .error e => some (.error e, rs.2)
      | .ok v => (lruSet rs.2 key v).bind fun s2 => some (.ok v, s2)

def lruStopWalk (store : List (LruListItem K V)) : Option Nat → Nat → List (LruListItem K V)
  | none, _ => store
  | some _, 0 => store
  | some i, fuel+1 => lruStopWalk (store.set i lruZero) (lnodeAt store i).next fuel

def lruStop (s : LRUCache K V) : LRUCache K V :=
  if s.stopped then s
  else
    { s with stopped := true, cache := [],
             store := lruStopWalk s.store s.head (s.store.length + 1),
             head := none, tail := none }

def lruApply (s : LRUCache K V) : List (K × V) → Option (LRUCache K V)
  | [] => some s
  | (k, v) :: ops => (lruSet s k v).bind (fun s' => lruApply s' ops)

def runLRU (capacity : Int) (ops : List (K × V)) : Option (LRUCache K V) :=
  (newLRU capacity).bind (fun s => lruApply s ops)

/-! ## Random engine (random.go, first part)

A flat key-to-value map, no order structure.  Go's map iteration order is
unspecified; the eviction loop deletes the first key the iteration yields,
modelled here by the first entry of the association list. -/

structure RandomCache (K V : Type) where
  cache : List (K × V)
  capacity : Int
  stopped : Bool
deriving DecidableEq

def newRandom (capacity : Int) : Option (RandomCache K V) :=
  if capacity ≤ 0 then none else some ⟨[], capacity, false⟩

def randomGetS (s : RandomCache K V) (key : K) : Option (Option V × RandomCache K V) :=
  if s.stopped then none else some (mapGet s.cache key, s)

def randomGet (s : RandomCache K V) (key : K) : Option (Option V) :=
  (randomGetS s key).map Prod.fst

def randomSet (s : RandomCache K V) (key : K) (val : V) : Option (RandomCache K V) :=
  if s.stopped then none
  else
    let s1 :=
      if (s.cache.length : Int) ≥ s.capacity then
        match s.cache with
        | [] => s
        | (k0, _) :: _ => { s with cache := mapDelete s.cache k0 }
      else s
    some { s1 with cache := mapInsert s1.cache key val }

def randomFetch (s : RandomCache K V) (key : K) (fr : Except E V) :
    Option (Except E V × RandomCache K V) :=
  if s.stopped then none
  else
    (randomGetS s key).bind fun rs =>
    match rs.1 with
    | some v => some (.ok v, rs.2)
    | none =>
      match fr with
      | .error e => some (.error e, rs.2)
      | .ok v => (randomSet rs.2 key v).bind fun s2 => some (.ok v, s2)

def randomStop (s : RandomCache K V) : RandomCache K V :=
  if s.stopped then s else { s with stopped := true, cache := [] }

def randomApply (s : RandomCache K V) : List (K × V) → Option (RandomCache K V)
  | [] => some s
  | (k, v) :: ops => (randomSet s k v).bind (fun s' => randomApply s' ops)

def runRandom (capacity : Int) (ops : List (K × V)) : Option (RandomCache K V) :=
  (newRandom capacity).bind (fun s => randomApply s ops)

/-! ## TTL engine (ttl.go, the list-ordered variant)

Expiry timestamps are `Option Int` (a possibly nil `*time.Time`); every call
takes the current instant `now` as a parameter, as the Go methods capture
`time.Now()` on entry.  The background sweeper is a concurrent task and is
not part of the sequential model; `expiriesFrom` exposes the traversal it
would perform. -/

structure TtlListItem (K V : Type) where
  next : Option Nat
  key : Option K
  value : V
  expiresAt : Option Int
deriving DecidableEq

def ttlZero : TtlListItem K V := ⟨none, none, default, none⟩

def tnodeAt (store : List (TtlListItem K V)) (i : Nat) : TtlListItem K V :=
  store.getD i ttlZero

structure TTLCache (K V : Type) where
  store : List (TtlListItem K V)
  cache : List (K × Nat)
  head : Option Nat
  tail : Option Nat
  ttl : Int
  stopped : Bool
deriving DecidableEq

def newTTL (ttl : Int) : Option (TTLCache K V) :=
  if ttl ≤ 0 then none else some ⟨[], [], none, none, ttl, false⟩

/-- The internal `get`: found only when the key is present and
`expiresAt.Before(now)` is false.  A nil `expiresAt` pointer would make Go
panic on the dereference, modelled as `none`. -/
def ttlGetS (s : TTLCache K V) (key : K) (now : Int) :
    Option (Option V × TTLCache K V) :=
  if s.stopped then none
  else
    match mapGet s.cache key with
    | none => some (none, s)
    | some i =>
      match (tnodeAt s.store i).expiresAt with
      | none => none
      | some e => if e < now then some (none, s) else some (some (tnodeAt s.store i).value, s)

def ttlGet (s : TTLCache K V) (key : K) (now : Int) : Option (Option V) :=
  (ttlGetS s key now).map Prod.fst

/-- The internal `set`: reuse the existing node (or allocate a fresh one),
write value and fresh expiry, then unconditionally append the node at the
tail, exactly as the source does. -/
def ttlSet (s : TTLCache K V) (key : K) (val : V) (now : Int) : Option (TTLCache K V) :=
  if s.stopped then none
  else
    let (s1, i) :=
      match mapGet s.cache key with
      | some i => (s, i)
      | none =>
        let i := s.store.length
        ({ s with store := s.store ++ [(⟨none, some key, default, none⟩ : TtlListItem K V)],
                  cache := mapInsert s.cache key i }, i)
    let fresh := { tnodeAt s1.store i with value := val, expiresAt := some (now + s1.ttl) }
    let s2 := { s1 with store := s1.store.set i fresh }
    let s3 := if s2.head = none then { s2 with head := some i } else s2
    let s4 :=
      match s3.tail with
      | some t => { s3 with store := s3.store.set t { tnodeAt s3.store t with next := some i } }
      | none => s3
    some { s4 with tail := some i }

def ttlFetch (s : TTLCache K V) (key : K) (fr : Except E V) (now : Int) :
    Option (Except E V × TTLCache K V) :=
  if s.stopped then none
  else
    (ttlGetS s key now).bind fun rs =>
    match rs.1 with
    | some v => some (.ok v, rs.2)
    | none =>
      match fr with
      | .error e => some (.error e, rs.2)
      | .ok v => (ttlSet rs.2 key v now).bind fun s2 => some (.ok v, s2)

def ttlStopWalk (store : List (TtlListItem K V)) : Option Nat → Nat → List (TtlListItem K V)
  | none, _ => store
  | some _, 0 => store
  | some i, fuel+1 =>
      ttlStopWalk (store.set i ⟨none, none, default, (tnodeAt store i).expiresAt⟩)
        (tnodeAt store i).next fuel

def ttlStop (s : TTLCache K V) : TTLCache K V :=
  if s.stopped then s
  else
    { s with stopped := true, cache := [],
             store := ttlStopWalk s.store s.head (s.store.length + 1),
             head := none, tail := none }

/-- Timed operation sequence for the TTL cache. -/
def ttlApply (s : TTLCache K V) : List (K × V × Int) → Option (TTLCache K V)
  | [] => some s
  | (k, v, now) :: ops => (ttlSet s k v now).bind (fun s' => ttlApply s' ops)

def runTTL (ttl : Int) (ops : List (K × V × Int)) : Option (TTLCache K V) :=
  (newTTL ttl).bind (fun s => ttlApply s ops)

/-- The expiry timestamps seen when walking the order list from `cur` (the
order the sweeper relies on being non-decreasing); bounded by fuel because
the walk need not terminate on a corrupted list. -/
def expiriesFrom (store : List (TtlListItem K V)) : Option Nat → Nat → List (Option Int)
  | _, 0 => []
  | none, _ => []
  | some i, fuel+1 => (tnodeAt store i).expiresAt :: expiriesFrom store (tnodeAt store i).next fuel

/-! ## Well-formedness invariants

The lock-step invariant between the index map and the order structure, used
to prove the capacity bound.  `ids` is the sequence of node indices on the
linked list from head to tail. -/

def fifoNxt (s : FIFOCache K V) : Nat → Option Nat := fun i => (fnodeAt s.store i).next

structure FifoInv (s : FIFOCache K V) (ids : List Nat) : Prop where
  chain_ids : chain (fifoNxt s) s.store.length s.head ids
  cache_ids : ∀ p ∈ s.cache, p.2 ∈ ids ∧ (fnodeAt s.store p.2).key = some p.1
  ids_cache : ∀ i ∈ ids, ∃ k, (fnodeAt s.store i).key = some k ∧ (k, i) ∈ s.cache
  nodup_ids : ids.Nodup
  nodup_keys : (s.cache.map Prod.fst).Nodup
  len_eq : s.cache.length = ids.length
  tail_last : ∀ j, endPtr none ids = some j → s.tail = some j
  tail_lt : ∀ t, s.tail = some t → t < s.store.length
  size_le : (s.cache.length : Int) ≤ s.capacity
  cap_pos : 0 < s.capacity

def FifoWF (s : FIFOCache K V) : Prop :=
  s.stopped = false ∧ ∃ ids, FifoInv s ids

def lifoNxt (s : LIFOCache K V) : Nat → Option Nat := fun i => (gnodeAt s.store i).next

structure LifoInv (s : LIFOCache K V) (ids : List Nat) : Prop where
  chain_ids : chain (lifoNxt s) s.store.length s.head ids
  cache_ids : ∀ p ∈ s.cache, p.2 ∈ ids ∧ (gnodeAt s.store p.2).key = some p.1
  ids_cache : ∀ i ∈ ids, ∃ k, (gnodeAt s.store i).key = some k ∧ (k, i) ∈ s.cache
  nodup_ids : ids.Nodup
  nodup_keys : (s.cache.map Prod.fst).Nodup
  len_eq : s.cache.length = ids.length
  size_le : (s.cache.length : Int) ≤ s.capacity
  cap_pos : 0 < s.capacity

def LifoWF (s : LIFOCache K V) : Prop :=
  s.stopped = false ∧ ∃ ids, LifoInv s ids

def lruNxt (s : LRUCache K V) : Nat → Option Nat := fun i => (lnodeAt s.store i).next

def lruPrv (s : LRUCache K V) : Nat → Option Nat := fun i => (lnodeAt s.store i).prev

/-- The shape of the LRU doubly linked list alone (no index correspondence):
a next-chain, interior prev-links consistent, and a head prev pointer that is
either nil or a dangling reference to a node outside the list (the latter
arises after evicting the last entry, when the stale tail pointer is used to
relink a fresh node). -/
structure LruShape (s : LRUCache K V) (ids : List Nat) : Prop where
  chain_ids : chain (lruNxt s) s.store.length s.head ids
  prev_ids : ∃ hp, prevFrom (lruPrv s) hp ids ∧
    (∀ q, hp = some q → q ∉ ids ∧ q < s.store.length)
  nodup_ids : ids.Nodup
  tail_last : ∀ j, endPtr none ids = some j → s.tail = some j
  tail_lt : ∀ t, s.tail = some t → t < s.store.length

structure LruInv (s : LRUCache K V) (ids : List Nat) : Prop where
  shape : LruShape s ids
  cache_ids : ∀ p ∈ s.cache, p.2 ∈ ids ∧ (lnodeAt s.store p.2).key = some p.1
  ids_cache : ∀ i ∈ ids, ∃ k, (lnodeAt s.store i).key = some k ∧ (k, i) ∈ s.cache
  nodup_keys : (s.cache.map Prod.fst).Nodup
  len_eq : s.cache.length = ids.length
  size_le : (s.cache.length : Int) ≤ s.capacity
  cap_pos : 0 < s.capacity

def LruWF (s : LRUCache K V) : Prop :=
  s.stopped = false ∧ ∃ ids, LruInv s ids

def RandomWF (s : RandomCache K V) : Prop :=
  s.stopped = false ∧ (s.cache.map Prod.fst).Nodup ∧
    (s.cache.length : Int) ≤ s.capacity ∧ 0 < s.capacity

/-- Every node index stored in the map points into the arena (used as a
lightweight hypothesis where the full invariant is not needed). -/
def fifoIdsValid (s : FIFOCache K V) : Prop := ∀ p ∈ s.cache, p.2 < s.store.length

def lifoIdsValid (s : LIFOCache K V) : Prop := ∀ p ∈ s.cache, p.2 < s.store.length

def lruIdsValid (s : LRUCache K V) : Prop := ∀ p ∈ s.cache, p.2 < s.store.length

def ttlIdsValid (s : TTLCache K V) : Prop := ∀ p ∈ s.cache, p.2 < s.store.length

/-! ## Arena access lemmas -/

theorem getD_set_self {α : Type} (l : List α) (i : Nat) (a d : α) (h : i < l.length) :
    (l.set i a).getD i d = a := by
  simp [List.getD_eq_getD_get?, List.get?_eq_getElem?, List.getElem?_set_self, h]

theorem getD_set_ne {α : Type} (l : List α) (i j : Nat) (a d : α) (h : j ≠ i) :
    (l.set i a).getD j d = l.getD j d := by
  simp [List.getD_eq_getD_get?, List.get?_eq_getElem?,
    List.getElem?_set_ne (fun hh => h hh.symm)]

theorem getD_append_lt {α : Type} (l m : List α) (j : Nat) (d : α) (h : j < l.length) :
    (l ++ m).getD j d = l.getD j d := by
  simp [List.getD_eq_getD_get?, List.get?_eq_getElem?, List.getElem?_append_left h]

theorem getD_append_len {α : Type} (l : List α) (a d : α) :
    (l ++ [a]).getD l.length d = a := by
  simp [List.getD_eq_getD_get?, List.get?_eq_getElem?]

theorem getD_of_len_le {α : Type} (l : List α) (i : Nat) (d : α) (h : l.length ≤ i) :
    l.getD i d = d := by
  simp [List.getD_eq_getD_get?, List.get?_eq_getElem?, List.getElem?_eq_none h]

/-! ## Association-list map lemmas -/

section MapLemmas

variable {K A : Type} [DecidableEq K]

theorem mapGet_mem {m : List (K × A)} {k : K} {a : A} (h : mapGet m k = some a) :
    (k, a) ∈ m := by
  induction m with
  | nil => simp [mapGet] at h
  | cons p rest ih =>
    obtain ⟨k', a'⟩ := p
    by_cases hk : k' = k
    · subst hk
      simp [mapGet] at h
      simp [h]
    · simp [mapGet, hk] at h
      exact List.mem_cons_of_mem _ (ih h)

theorem mem_keys_of_mapGet {m : List (K × A)} {k : K} {a : A} (h : mapGet m k = some a) :
    k ∈ m.map Prod.fst := by
  exact List.mem_map.mpr ⟨(k, a), mapGet_mem h, rfl⟩

theorem mapGet_eq_none_of_not_mem {m : List (K × A)} {k : K}
    (h : k ∉ m.map Prod.fst) : mapGet m k = none := by
  induction m with
  | nil => rfl
  | cons p rest ih =>
    obtain ⟨k', a'⟩ := p
    simp at h
    have hk : k' ≠ k := fun hh => h.1 hh.symm
    simp [mapGet, hk]
    exact ih (by simp; exact h.2)

theorem mapGet_of_mem {m : List (K × A)} {k : K} {a : A}
    (hn : (m.map Prod.fst).Nodup) (h : (k, a) ∈ m) : mapGet m k = some a := by
  induction m with
  | nil => simp at h
  | cons p rest ih =>
    obtain ⟨k', a'⟩ := p
    rw [List.map_cons, List.nodup_cons] at hn
    rcases List.mem_cons.mp h with h1 | h1
    · injection h1 with h2 h3
      subst h2; subst h3
      simp [mapGet]
    · have hk : k' ≠ k := by
        intro hh
        subst hh
        exact hn.1 (List.mem_map.mpr ⟨(k', a), h1, rfl⟩)
      simp [mapGet, hk]
      exact ih hn.2 h1

theorem mapGet_unique {m : List (K × A)} {k : K} {a b : A}
    (hn : (m.map Prod.fst).Nodup) (ha : (k, a) ∈ m) (hb : (k, b) ∈ m) : a = b := by
  have h1 := mapGet_of_mem hn ha
  have h2 := mapGet_of_mem hn hb
  rw [h1] at h2
  exact Option.some.inj h2

theorem mem_mapDelete {m : List (K × A)} {k k' : K} {a : A} :
    (k', a) ∈ mapDelete m k ↔ (k', a) ∈ m ∧ k' ≠ k := by
  induction m with
  | nil => simp [mapDelete]
  | cons p rest ih =>
    obtain ⟨k0, a0⟩ := p
    by_cases hk : k0 = k
    · subst hk
      have he : mapDelete ((k0, a0) :: rest) k0 = mapDelete rest k0 := by
        simp [mapDelete]
      rw [he, ih]
      constructor
      · rintro ⟨h1, h2⟩
        exact ⟨List.mem_cons_of_mem _ h1, h2⟩
      · rintro ⟨h1, h2⟩
        rcases List.mem_cons.mp h1 with h3 | h3
        · injection h3 with h4 h5
          exact absurd h4 h2
        · exact ⟨h3, h2⟩
    · simp only [mapDelete, if_neg hk]
      constructor
      · intro h1
        rcases List.mem_cons.mp h1 with h3 | h3
        · injection h3 with h4 h5
          subst h4; subst h5
          exact ⟨List.mem_cons_self _ _, hk⟩
        · obtain ⟨h5, h6⟩ := ih.mp h3
          exact ⟨List.mem_cons_of_mem _ h5, h6⟩
      · rintro ⟨h1, h2⟩
        rcases List.mem_cons.mp h1 with h3 | h3
        · exact h3 ▸ List.mem_cons_self _ _
        · exact List.mem_cons_of_mem _ (ih.mpr ⟨h3, h2⟩)

theorem keys_mapDelete_sublist (m : List (K × A)) (k : K) :
    List.Sublist ((mapDelete m k).map Prod.fst) (m.map Prod.fst) := by
  induction m with
  | nil => simp [mapDelete]
  | cons p rest ih =>
    obtain ⟨k0, a0⟩ := p
    by_cases hk : k0 = k
    · subst hk
      simp only [mapDelete, if_pos rfl, List.map_cons]
      exact ih.cons _
    · simp only [mapDelete, if_neg hk, List.map_cons]
      exact ih.cons₂ _

theorem nodup_keys_mapDelete {m : List (K × A)} (k : K)
    (hn : (m.map Prod.fst).Nodup) : ((mapDelete m k).map Prod.fst).Nodup :=
  (keys_mapDelete_sublist m k).nodup hn

theorem mapDelete_eq_of_not_mem {m : List (K × A)} {k : K}
    (h : k ∉ m.map Prod.fst) : mapDelete m k = m := by
  induction m with
  | nil => rfl
  | cons p rest ih =>
    obtain ⟨k0, a0⟩ := p
    rw [List.map_cons, List.mem_cons] at h
    push_neg at h
    have hk : k0 ≠ k := fun hh => h.1 hh.symm
    simp [mapDelete, hk, ih h.2]

theorem length_mapDelete {m : List (K × A)} {k : K} {a : A}
    (hn : (m.map Prod.fst).Nodup) (h : (k, a) ∈ m) :
    (mapDelete m k).length + 1 = m.length := by
  induction m with
  | nil => simp at h
  | cons p rest ih =>
    obtain ⟨k0, a0⟩ := p
    rw [List.map_cons, List.nodup_cons] at hn
    by_cases hk : k0 = k
    · subst hk
      simp [mapDelete, mapDelete_eq_of_not_mem hn.1]
    · have h1 : (k, a) ∈ rest := by
        rcases List.mem_cons.mp h with h1 | h1
        · exact absurd (congrArg Prod.fst h1).symm hk
        · exact h1
      simp [mapDelete, hk]
      exact ih hn.2 h1

theorem mapGet_mapDelete_ne {m : List (K × A)} {k k' : K} (h : k' ≠ k) :
    mapGet (mapDelete m k) k' = mapGet m k' := by
  induction m with
  | nil => rfl
  | cons p rest ih =>
    obtain ⟨k0, a0⟩ := p
    by_cases hk : k0 = k
    · subst hk
      have : k0 ≠ k' := fun hh => h (hh.symm ▸ rfl)
      simp [mapDelete, mapGet, this, ih]
    · by_cases hk' : k0 = k'
      · subst hk'
        simp [mapDelete, hk, mapGet]
      · simp [mapDelete, hk, mapGet, hk', ih]

theorem mem_mapInsert_elim {m : List (K × A)} {k k' : K} {a a' : A}
    (hn : (m.map Prod.fst).Nodup) (h : (k', a') ∈ mapInsert m k a) :
    (k' = k ∧ a' = a) ∨ ((k', a') ∈ m ∧ k' ≠ k) := by
  induction m with
  | nil =>
    simp [mapInsert] at h
    exact Or.inl ⟨h.1, h.2⟩
  | cons p rest ih =>
    obtain ⟨k0, a0⟩ := p
    rw [List.map_cons, List.nodup_cons] at hn
    by_cases hk : k0 = k
    · subst hk
      simp only [mapInsert, if_pos rfl] at h
      rcases List.mem_cons.mp h with h1 | h1
      · injection h1 with h2 h3
        exact Or.inl ⟨h2, h3⟩
      · have hne : k' ≠ k0 := by
          intro hh
          subst hh
          exact hn.1 (List.mem_map.mpr ⟨(k', a'), h1, rfl⟩)
        exact Or.inr ⟨List.mem_cons_of_mem _ h1, hne⟩
    · simp only [mapInsert, if_neg hk] at h
      rcases List.mem_cons.mp h with h1 | h1
      · injection h1 with h2 h3
        subst h2; subst h3
        exact Or.inr ⟨List.mem_cons_self _ _, hk⟩
      · rcases ih hn.2 h1 with h2 | ⟨h2, h3⟩
        · exact Or.inl h2
        · exact Or.inr ⟨List.mem_cons_of_mem _ h2, h3⟩

theorem mem_mapInsert_of_mem {m : List (K × A)} {k k' : K} {a a' : A}
    (h : (k', a') ∈ m) (hne : k' ≠ k) : (k', a') ∈ mapInsert m k a := by
  induction m with
  | nil => simp at h
  | cons p rest ih =>
    obtain ⟨k0, a0⟩ := p
    by_cases hk : k0 = k
    · subst hk
      simp only [mapInsert, if_pos rfl]
      rcases List.mem_cons.mp h with h1 | h1
      · exact absurd (congrArg Prod.fst h1) hne
      · exact List.mem_cons_of_mem _ h1
    · simp only [mapInsert, if_neg hk]
      rcases List.mem_cons.mp h with h1 | h1
      · exact h1 ▸ List.mem_cons_self _ _
      · exact List.mem_cons_of_mem _ (ih h1)

theorem mem_mapInsert_self (m : List (K × A)) (k : K) (a : A) :
    (k, a) ∈ mapInsert m k a := by
  induction m with
  | nil => simp [mapInsert]
  | cons p rest ih =>
    obtain ⟨k0, a0⟩ := p
    by_cases hk : k0 = k
    · subst hk
      simp [mapInsert]
    · simp only [mapInsert, if_neg hk]
      exact List.mem_cons_of_mem _ ih

theorem mapGet_mapInsert_self (m : List (K × A)) (k : K) (a : A) :
    mapGet (mapInsert m k a) k = some a := by
  induction m with
  | nil => simp [mapInsert, mapGet]
  | cons p rest ih =>
    obtain ⟨k0, a0⟩ := p
    by_cases hk : k0 = k
    · subst hk
      simp [mapInsert, mapGet]
    · simp [mapInsert, hk, mapGet, ih]

theorem mapGet_mapInsert_ne (m : List (K × A)) {k k' : K} (a : A) (h : k' ≠ k) :
    mapGet (mapInsert m k a) k' = mapGet m k' := by
  induction m with
  | nil => simp [mapInsert, mapGet, Ne.symm h]
  | cons p rest ih =>
    obtain ⟨k0, a0⟩ := p
    by_cases hk : k0 = k
    · subst hk
      have : k0 ≠ k' := fun hh => h hh.symm
      simp [mapInsert, mapGet, this]
    · by_cases hk' : k0 = k'
      · subst hk'
        simp [mapInsert, hk, mapGet]
      · simp [mapInsert, hk, mapGet, hk', ih]

theorem mem_mapInsert_weak {m : List (K × A)} {k : K} {a : A} {p : K × A}
    (h : p ∈ mapInsert m k a) : p = (k, a) ∨ p ∈ m := by
  induction m with
  | nil =>
    simp [mapInsert] at h
    exact Or.inl h
  | cons q rest ih =>
    obtain ⟨k0, a0⟩ := q
    by_cases hk : k0 = k
    · subst hk
      have he : mapInsert ((k0, a0) :: rest) k0 a = (k0, a) :: rest := by
        simp [mapInsert]
      rw [he] at h
      rcases List.mem_cons.mp h with h1 | h1
      · exact Or.inl h1
      · exact Or.inr (List.mem_cons_of_mem _ h1)
    · simp only [mapInsert, if_neg hk] at h
      rcases List.mem_cons.mp h with h1 | h1
      · exact Or.inr (h1 ▸ List.mem_cons_self _ _)
      · rcases ih h1 with h2 | h2
        · exact Or.inl h2
        · exact Or.inr (List.mem_cons_of_mem _ h2)

theorem mem_keys_mapInsert {m : List (K × A)} {k k1 : K} {a : A}
    (h : k1 ∈ (mapInsert m k a).map Prod.fst) : k1 = k ∨ k1 ∈ m.map Prod.fst := by
  obtain ⟨p, hp, hkey⟩ := List.mem_map.mp h
  rcases mem_mapInsert_weak hp with h1 | h1
  · exact Or.inl (by rw [← hkey, h1])
  · exact Or.inr (hkey ▸ List.mem_map.mpr ⟨p, h1, rfl⟩)

theorem nodup_keys_mapInsert {m : List (K × A)} (k : K) (a : A)
    (hn : (m.map Prod.fst).Nodup) : ((mapInsert m k a).map Prod.fst).Nodup := by
  induction m with
  | nil => simp [mapInsert]
  | cons p rest ih =>
    obtain ⟨k0, a0⟩ := p
    rw [List.map_cons, List.nodup_cons] at hn
    by_cases hk : k0 = k
    · subst hk
      have he : mapInsert ((k0, a0) :: rest) k0 a = (k0, a) :: rest := by
        simp [mapInsert]
      rw [he, List.map_cons, List.nodup_cons]
      exact ⟨hn.1, hn.2⟩
    · simp only [mapInsert, if_neg hk, List.map_cons, List.nodup_cons]
      refine ⟨fun hh => ?_, ih hn.2⟩
      rcases mem_keys_mapInsert hh with h1 | h1
      · exact hk h1
      · exact hn.1 h1

theorem length_mapInsert_of_get_none {m : List (K × A)} {k : K} (a : A)
    (h : mapGet m k = none) : (mapInsert m k a).length = m.length + 1 := by
  induction m with
  | nil => simp [mapInsert]
  | cons p rest ih =>
    obtain ⟨k0, a0⟩ := p
    by_cases hk : k0 = k
    · subst hk
      simp [mapGet] at h
    · simp only [mapGet, if_neg hk] at h
      simp [mapInsert, hk, ih h]

theorem length_mapInsert_of_get_some {m : List (K × A)} {k : K} {a0 : A} (a : A)
    (h : mapGet m k = some a0) : (mapInsert m k a).length = m.length := by
  induction m with
  | nil => simp [mapGet] at h
  | cons p rest ih =>
    obtain ⟨k0, a1⟩ := p
    by_cases hk : k0 = k
    · subst hk
      simp [mapInsert]
    · simp only [mapGet, if_neg hk] at h
      simp [mapInsert, hk, ih h]

end MapLemmas

/-! ## Chain lemmas -/

section ChainLemmas

variable {nxt nxt' prv prv' : Nat → Option Nat} {len len' : Nat}

theorem chainUpto_nil {cur fin : Option Nat} :
    chainUpto nxt len cur [] fin ↔ fin = cur := Iff.rfl

theorem chainUpto_cons {cur fin : Option Nat} {i : Nat} {rest : List Nat} :
    chainUpto nxt len cur (i :: rest) fin ↔
      cur = some i ∧ i < len ∧ chainUpto nxt len (nxt i) rest fin := Iff.rfl

theorem chainUpto_append {cur fin : Option Nat} {xs ys : List Nat} :
    chainUpto nxt len cur (xs ++ ys) fin ↔
      ∃ mid, chainUpto nxt len cur xs mid ∧ chainUpto nxt len mid ys fin := by
  induction xs generalizing cur with
  | nil =>
    rw [List.nil_append]
    constructor
    · intro h
      exact ⟨cur, rfl, h⟩
    · rintro ⟨mid, h1, h2⟩
      have h1' : mid = cur := h1
      exact h1' ▸ h2
  | cons i rest ih =>
    rw [List.cons_append]
    simp only [chainUpto_cons]
    constructor
    · rintro ⟨h1, h2, h3⟩
      obtain ⟨mid, h4, h5⟩ := ih.mp h3
      exact ⟨mid, ⟨h1, h2, h4⟩, h5⟩
    · rintro ⟨mid, ⟨h1, h2, h3⟩, h4⟩
      exact ⟨h1, h2, ih.mpr ⟨mid, h3, h4⟩⟩

theorem chainUpto_frame {cur fin : Option Nat} {xs : List Nat}
    (hagree : ∀ i ∈ xs, nxt' i = nxt i) (hlen : len ≤ len')
    (h : chainUpto nxt len cur xs fin) : chainUpto nxt' len' cur xs fin := by
  induction xs generalizing cur with
  | nil => exact h
  | cons i rest ih =>
    obtain ⟨h1, h2, h3⟩ := h
    refine ⟨h1, lt_of_lt_of_le h2 hlen, ?_⟩
    rw [hagree i (List.mem_cons_self _ _)]
    exact ih (fun j hj => hagree j (List.mem_cons_of_mem _ hj)) h3

theorem chainUpto_bound {cur fin : Option Nat} {xs : List Nat}
    (h : chainUpto nxt len cur xs fin) : ∀ i ∈ xs, i < len := by
  induction xs generalizing cur with
  | nil => intro i hi; simp at hi
  | cons j rest ih =>
    obtain ⟨h1, h2, h3⟩ := h
    intro i hi
    rcases List.mem_cons.mp hi with h4 | h4
    · exact h4 ▸ h2
    · exact ih h3 i h4

theorem endPtr_cons (p : Option Nat) (i : Nat) (rest : List Nat) :
    endPtr p (i :: rest) = endPtr (some i) rest := rfl

theorem endPtr_append (p : Option Nat) (xs ys : List Nat) :
    endPtr p (xs ++ ys) = endPtr (endPtr p xs) ys := by
  induction xs generalizing p with
  | nil => rfl
  | cons i rest ih => rw [List.cons_append, endPtr_cons, endPtr_cons, ih]

theorem endPtr_concat (p : Option Nat) (xs : List Nat) (j : Nat) :
    endPtr p (xs ++ [j]) = some j := by
  rw [endPtr_append]
  rfl

theorem endPtr_cons_some (p : Option Nat) (i : Nat) (rest : List Nat) :
    ∃ j, endPtr p (i :: rest) = some j ∧ j ∈ i :: rest := by
  induction rest generalizing p i with
  | nil => exact ⟨i, rfl, List.mem_cons_self _ _⟩
  | cons j t ih =>
    obtain ⟨x, hx1, hx2⟩ := ih (some i) j
    exact ⟨x, hx1, List.mem_cons_of_mem _ hx2⟩

theorem endPtr_indep {p q : Option Nat} {xs : List Nat} (h : xs ≠ []) :
    endPtr p xs = endPtr q xs := by
  cases xs with
  | nil => exact absurd rfl h
  | cons i rest => rfl

theorem prevFrom_nil {p : Option Nat} : prevFrom prv p [] := trivial

theorem prevFrom_cons {p : Option Nat} {i : Nat} {rest : List Nat} :
    prevFrom prv p (i :: rest) ↔ prv i = p ∧ prevFrom prv (some i) rest := Iff.rfl

theorem prevFrom_append {p : Option Nat} {xs ys : List Nat} :
    prevFrom prv p (xs ++ ys) ↔ prevFrom prv p xs ∧ prevFrom prv (endPtr p xs) ys := by
  induction xs generalizing p with
  | nil =>
    rw [List.nil_append]
    simp [prevFrom_nil, endPtr]
  | cons i rest ih =>
    rw [List.cons_append]
    simp only [prevFrom_cons, endPtr_cons, ih]
    tauto

theorem prevFrom_frame {p : Option Nat} {xs : List Nat}
    (hagree : ∀ i ∈ xs, prv' i = prv i) (h : prevFrom prv p xs) :
    prevFrom prv' p xs := by
  induction xs generalizing p with
  | nil => trivial
  | cons i rest ih =>
    obtain ⟨h1, h2⟩ := h
    refine ⟨?_, ih (fun j hj => hagree j (List.mem_cons_of_mem _ hj)) h2⟩
    rw [hagree i (List.mem_cons_self _ _)]
    exact h1

end ChainLemmas

/-! ## FIFO invariant preservation -/

section FifoWFSection

variable {K V : Type} [DecidableEq K] [DecidableEq V] [Inhabited V]

theorem fnodeAt_set (store : List (FifoListItem K V)) (i j : Nat) (n : FifoListItem K V) :
    fnodeAt (store.set i n) j =
      if i = j ∧ i < store.length then n else fnodeAt store j := by
  by_cases h1 : i = j
  · subst h1
    by_cases h2 : i < store.length
    · rw [if_pos ⟨rfl, h2⟩]
      exact getD_set_self store i n fifoZero h2
    · rw [List.set_eq_of_length_le (by omega), if_neg (fun hh => h2 hh.2)]
  · rw [if_neg (fun hh => h1 hh.1)]
    exact getD_set_ne store i j n fifoZero (fun hh => h1 hh.symm)

theorem fnodeAt_append_lt (store l : List (FifoListItem K V)) (j : Nat)
    (h : j < store.length) : fnodeAt (store ++ l) j = fnodeAt store j :=
  getD_append_lt store l j fifoZero h

theorem fnodeAt_append_len (store : List (FifoListItem K V)) (n : FifoListItem K V) :
    fnodeAt (store ++ [n]) store.length = n :=
  getD_append_len store n fifoZero

theorem newFIFO_WF {cap : Int} {s : FIFOCache K V} (h : newFIFO cap = some s) :
    FifoWF s ∧ s.capacity = cap := by
  rw [newFIFO] at h
  by_cases hc : cap ≤ 0
  · rw [if_pos hc] at h
    exact absurd h (by simp)
  · rw [if_neg hc] at h
    obtain rfl := Option.some.inj h
    refine ⟨⟨rfl, [], ?_⟩, rfl⟩
    exact { chain_ids := rfl
            cache_ids := by intro p hp; simp at hp
            ids_cache := by intro i hi; simp at hi
            nodup_ids := List.nodup_nil
            nodup_keys := by simp
            len_eq := rfl
            tail_last := by intro j hj; simp [endPtr] at hj
            tail_lt := by intro t ht; simp at ht
            size_le := by
              show ((([] : List (K × Nat)).length : Int)) ≤ cap
              simp only [List.length_nil, Int.natCast_zero]
              omega
            cap_pos := by show (0 : Int) < cap; omega }

theorem fifoEvict_inv {s : FIFOCache K V} {i0 : Nat} {rest : List Nat}
    (hInv : FifoInv s (i0 :: rest)) :
    ∃ hk0, (fnodeAt s.store i0).key = some hk0 ∧
      fifoEvict s = some
        { s with cache := mapDelete s.cache hk0,
                 store := s.store.set i0 fifoZero,
                 head := (fnodeAt s.store i0).next } ∧
      FifoInv { s with cache := mapDelete s.cache hk0,
                       store := s.store.set i0 fifoZero,
                       head := (fnodeAt s.store i0).next } rest ∧
      (mapDelete s.cache hk0).length + 1 = s.cache.length := by
  obtain ⟨hhead, hi0lt, hrest⟩ := hInv.chain_ids
  obtain ⟨hk0, hkey0, hmem0⟩ := hInv.ids_cache i0 (List.mem_cons_self _ _)
  have hi0nin : i0 ∉ rest := by
    have := hInv.nodup_ids
    rw [List.nodup_cons] at this
    exact this.1
  refine ⟨hk0, hkey0, ?_, ?_, length_mapDelete hInv.nodup_keys hmem0⟩
  · simp only [fifoEvict, hhead, hkey0]
  · set s1 : FIFOCache K V :=
      { s with cache := mapDelete s.cache hk0,
               store := s.store.set i0 fifoZero,
               head := (fnodeAt s.store i0).next } with hs1
    have hstore_frame : ∀ j, j ≠ i0 → fnodeAt s1.store j = fnodeAt s.store j := by
      intro j hj
      show fnodeAt (s.store.set i0 fifoZero) j = fnodeAt s.store j
      rw [fnodeAt_set, if_neg (fun hh => hj hh.1.symm)]
    have hlen_store : s1.store.length = s.store.length := by
      show (s.store.set i0 fifoZero).length = s.store.length
      simp
    refine { chain_ids := ?_, cache_ids := ?_, ids_cache := ?_, nodup_ids := ?_,
             nodup_keys := ?_, len_eq := ?_, tail_last := ?_, tail_lt := ?_,
             size_le := ?_, cap_pos := ?_ }
    · show chainUpto (fifoNxt s1) s1.store.length s1.head rest none
      rw [hlen_store]
      have hagree : ∀ i ∈ rest, fifoNxt s1 i = fifoNxt s i := by
        intro i hi
        show (fnodeAt s1.store i).next = (fnodeAt s.store i).next
        rw [hstore_frame i (fun hh => hi0nin (hh ▸ hi))]
      exact chainUpto_frame hagree le_rfl hrest
    · intro p hp
      obtain ⟨hp1, hp2⟩ := mem_mapDelete.mp hp
      obtain ⟨hin, hkey⟩ := hInv.cache_ids p hp1
      have hne : p.2 ≠ i0 := by
        intro hh
        rw [hh, hkey0] at hkey
        exact hp2 (Option.some.inj hkey).symm
      refine ⟨?_, ?_⟩
      · rcases List.mem_cons.mp hin with h1 | h1
        · exact absurd h1 hne
        · exact h1
      · rw [hstore_frame p.2 hne]
        exact hkey
    · intro i hi
      have hiin : i ∈ i0 :: rest := List.mem_cons_of_mem _ hi
      obtain ⟨kk, hkk, hmm⟩ := hInv.ids_cache i hiin
      have hine : i ≠ i0 := fun hh => hi0nin (hh ▸ hi)
      have hkne : kk ≠ hk0 := by
        intro hh
        subst hh
        exact hine (mapGet_unique hInv.nodup_keys hmm hmem0 ▸ rfl)
      refine ⟨kk, ?_, mem_mapDelete.mpr ⟨hmm, hkne⟩⟩
      rw [hstore_frame i hine]
      exact hkk
    · exact hInv.nodup_ids.of_cons
    · exact nodup_keys_mapDelete hk0 hInv.nodup_keys
    · have h1 := length_mapDelete hInv.nodup_keys hmem0
      have h2 := hInv.len_eq
      simp only [List.length_cons] at h2
      show (mapDelete s.cache hk0).length = rest.length
      omega
    · intro j hj
      cases rest with
      | nil => simp [endPtr] at hj
      | cons r t =>
        have : endPtr none (i0 :: r :: t) = some j := by
          rw [endPtr_cons]
          rw [endPtr_indep (by simp : (r :: t : List Nat) ≠ [])]
          exact hj
        exact hInv.tail_last j this
    · intro t ht
      rw [hlen_store]
      exact hInv.tail_lt t ht
    · have h1 := length_mapDelete hInv.nodup_keys hmem0
      have h2 := hInv.size_le
      show ((mapDelete s.cache hk0).length : Int) ≤ s.capacity
      have : ((mapDelete s.cache hk0).length : Int) + 1 = (s.cache.length : Int) := by
        exact_mod_cast congrArg (Nat.cast : Nat → Int) h1
      omega
    · exact hInv.cap_pos

theorem fifoSet_WF {s : FIFOCache K V} {k : K} {v : V} (h : FifoWF s) :
    ∃ s', fifoSet s k v = some s' ∧ FifoWF s' ∧ s'.capacity = s.capacity := by
  obtain ⟨hstop, ids, hInv⟩ := h
  have phase1 : ∃ s1 ids1,
      (if (s.cache.length : Int) ≥ s.capacity then fifoEvict s else some s) = some s1 ∧
      FifoInv s1 ids1 ∧ (s1.cache.length : Int) < s1.capacity ∧
      s1.stopped = s.stopped ∧ s1.capacity = s.capacity := by
    by_cases hcap : (s.cache.length : Int) ≥ s.capacity
    · have hle := hInv.len_eq
      have hcp := hInv.cap_pos
      have hsz := hInv.size_le
      have hids : ids ≠ [] := by
        intro hh
        rw [hh] at hle
        simp at hle
        rw [hle] at hcap
        simp at hcap
        omega
      obtain ⟨i0, rest, hcons⟩ := List.exists_cons_of_ne_nil hids
      subst hcons
      obtain ⟨hk0, hkey0, hevict, hinv1, hlen1⟩ := fifoEvict_inv hInv
      rw [if_pos hcap]
      refine ⟨_, rest, hevict, hinv1, ?_, rfl, rfl⟩
      have hcast : ((mapDelete s.cache hk0).length : Int) + 1 = (s.cache.length : Int) := by
        exact_mod_cast congrArg (Nat.cast : Nat → Int) hlen1
      show ((mapDelete s.cache hk0).length : Int) < s.capacity
      omega
    · rw [if_neg hcap]
      exact ⟨s, ids, rfl, hInv, by omega, rfl, rfl⟩
  obtain ⟨s1, ids1, hcond, hInv1, hlt, hstop1, hcap1⟩ := phase1
  have hstop1' : s1.stopped = false := hstop1.trans hstop
  rw [fifoSet, if_neg (by rw [hstop]; simp)]
  rw [hcond, Option.some_bind]
  cases hget : mapGet s1.cache k with
  | some i =>
    -- Overwrite in place: only the value field of node i changes.
    simp only [hget]
    refine ⟨_, rfl, ⟨hstop1', ids1, ?_⟩, hcap1⟩
    set s' : FIFOCache K V :=
      { s1 with store := s1.store.set i { fnodeAt s1.store i with value := v } } with hs'
    have hlen' : s'.store.length = s1.store.length := by
      show (s1.store.set i _).length = s1.store.length
      simp
    have hpt : ∀ j, (fnodeAt s'.store j).next = (fnodeAt s1.store j).next ∧
        (fnodeAt s'.store j).key = (fnodeAt s1.store j).key := by
      intro j
      show (fnodeAt (s1.store.set i _) j).next = _ ∧ (fnodeAt (s1.store.set i _) j).key = _
      rw [fnodeAt_set]
      by_cases hj : i = j ∧ i < s1.store.length
      · rw [if_pos hj]
        rw [hj.1]
        exact ⟨rfl, rfl⟩
      · rw [if_neg hj]
        exact ⟨rfl, rfl⟩
    refine { chain_ids := ?_, cache_ids := ?_, ids_cache := ?_,
             nodup_ids := hInv1.nodup_ids, nodup_keys := hInv1.nodup_keys,
             len_eq := hInv1.len_eq, tail_last := hInv1.tail_last, tail_lt := ?_,
             size_le := le_of_lt hlt, cap_pos := hInv1.cap_pos }
    · show chainUpto (fifoNxt s') s'.store.length s'.head ids1 none
      rw [hlen']
      exact chainUpto_frame (fun j _ => (hpt j).1) le_rfl hInv1.chain_ids
    · intro p hp
      obtain ⟨h1, h2⟩ := hInv1.cache_ids p hp
      exact ⟨h1, ((hpt p.2).2).trans h2⟩
    · intro j hj
      obtain ⟨kk, h1, h2⟩ := hInv1.ids_cache j hj
      exact ⟨kk, ((hpt j).2).trans h1, h2⟩
    · intro t ht
      rw [hlen']
      exact hInv1.tail_lt t ht
  | none =>
    -- Brand-new key: allocate a node and append it at the tail.
    simp only [hget]
    have hcache1 : ∀ p ∈ s1.cache, p.2 ∈ ids1 := fun p hp => (hInv1.cache_ids p hp).1
    have hbound : ∀ j ∈ ids1, j < s1.store.length :=
      chainUpto_bound hInv1.chain_ids
    have hknotin : k ∉ s1.cache.map Prod.fst := by
      intro hh
      obtain ⟨p, hp1, hp2⟩ := List.mem_map.mp hh
      obtain ⟨k2, i2⟩ := p
      obtain rfl : k2 = k := hp2
      rw [mapGet_of_mem hInv1.nodup_keys hp1] at hget
      exact absurd hget (by simp)
    -- the freshly allocated node index
    set i : Nat := s1.store.length with hi
    have hinotin : i ∉ ids1 := fun hh => absurd (hbound i hh) (by omega)
    set newNode : FifoListItem K V := ⟨none, some k, default⟩ with hnew
    set sa : FIFOCache K V :=
      { s1 with store := s1.store ++ [newNode], cache := mapInsert s1.cache k i } with hsa
    -- the state after the tail-link step, the tail update and the head update
    cases hids1 : ids1 with
    | nil =>
      -- empty list: the head pointer is nil and receives the fresh node
      have hhead1 : s1.head = none := by
        have hc := hInv1.chain_ids
        rw [hids1] at hc
        exact hc.symm
      have hcache_nil : s1.cache = [] := by
        have := hInv1.len_eq
        rw [hids1] at this
        simp at this
        exact this
      cases htail : s1.tail with
      | some t =>
        -- stale tail left behind by an eviction that emptied the list
        have htlt : t < s1.store.length := hInv1.tail_lt t htail
        have htne : t ≠ i := by omega
        simp only [htail, hhead1, if_true]
        refine ⟨_, rfl, ⟨hstop1', [i], ?_⟩, hcap1⟩
        have hstore_i : ∀ st2, fnodeAt ((sa.store.set t st2).set i
            { fnodeAt (sa.store.set t st2) i with value := v }) i =
            ⟨none, some k, v⟩ := by
          intro st2
          have h1 : fnodeAt (sa.store.set t st2) i = newNode := by
            rw [fnodeAt_set, if_neg (fun hh => htne hh.1)]
            show fnodeAt (s1.store ++ [newNode]) i = newNode
            exact fnodeAt_append_len s1.store newNode
          rw [fnodeAt_set, if_pos ⟨rfl, by simp [hsa]⟩, h1]
        refine { chain_ids := ?_, cache_ids := ?_, ids_cache := ?_,
                 nodup_ids := by simp, nodup_keys := ?_, len_eq := ?_,
                 tail_last := ?_, tail_lt := ?_, size_le := ?_,
                 cap_pos := hcap1 ▸ hInv1.cap_pos }
        · refine ⟨rfl, ?_, ?_⟩
          · show i < (List.set _ _ _).length
            simp [hsa]
          · show (none : Option Nat) = (fnodeAt _ i).next
            rw [hstore_i]
        · intro p hp
          rcases mem_mapInsert_elim hInv1.nodup_keys hp with ⟨h1, h2⟩ | ⟨h1, _⟩
          · refine ⟨by simp [h2, h1], ?_⟩
            show (fnodeAt _ p.2).key = some p.1
            have : p.2 = i := by rw [h2]
            rw [this, hstore_i, h1]
          · rw [hcache_nil] at h1
            simp at h1
        · intro j hj
          simp at hj
          subst hj
          refine ⟨k, ?_, ?_⟩
          · show (fnodeAt _ i).key = some k
            rw [hstore_i]
          · exact mem_mapInsert_self s1.cache k i
        · exact nodup_keys_mapInsert k i hInv1.nodup_keys
        · show (mapInsert s1.cache k i).length = [i].length
          rw [length_mapInsert_of_get_none i hget, hcache_nil]
          simp
        · intro j hj
          obtain rfl : i = j := Option.some.inj hj
          rfl
        · intro t2 ht2
          obtain rfl : i = t2 := Option.some.inj ht2
          show i < (List.set _ _ _).length
          simp [hsa]
        · show (((mapInsert s1.cache k i).length : Int)) ≤ s1.capacity
          rw [length_mapInsert_of_get_none i hget]
          have : ((s1.cache.length + 1 : Nat) : Int) = (s1.cache.length : Int) + 1 := by
            push_cast
            ring
          rw [this]
          omega
      | none =>
        simp only [htail, hhead1, if_true]
        refine ⟨_, rfl, ⟨hstop1', [i], ?_⟩, hcap1⟩
        have hstore_i : fnodeAt (sa.store.set i
            { fnodeAt sa.store i with value := v }) i = ⟨none, some k, v⟩ := by
          have h1 : fnodeAt sa.store i = newNode := fnodeAt_append_len s1.store newNode
          rw [fnodeAt_set, if_pos ⟨rfl, by simp [hsa]⟩, h1]
        refine { chain_ids := ?_, cache_ids := ?_, ids_cache := ?_,
                 nodup_ids := by simp, nodup_keys := ?_, len_eq := ?_,
                 tail_last := ?_, tail_lt := ?_, size_le := ?_,
                 cap_pos := hcap1 ▸ hInv1.cap_pos }
        · refine ⟨rfl, ?_, ?_⟩
          · show i < (List.set _ _ _).length
            simp [hsa]
          · show (none : Option Nat) = (fnodeAt _ i).next
            rw [hstore_i]
        · intro p hp
          rcases mem_mapInsert_elim hInv1.nodup_keys hp with ⟨h1, h2⟩ | ⟨h1, _⟩
          · refine ⟨by simp [h2, h1], ?_⟩
            show (fnodeAt _ p.2).key = some p.1
            have : p.2 = i := by rw [h2]
            rw [this, hstore_i, h1]
          · rw [hcache_nil] at h1
            simp at h1
        · intro j hj
          simp at hj
          subst hj
          refine ⟨k, ?_, ?_⟩
          · show (fnodeAt _ i).key = some k
            rw [hstore_i]
          · exact mem_mapInsert_self s1.cache k i
        · exact nodup_keys_mapInsert k i hInv1.nodup_keys
        · show (mapInsert s1.cache k i).length = [i].length
          rw [length_mapInsert_of_get_none i hget, hcache_nil]
          simp
        · intro j hj
          obtain rfl : i = j := Option.some.inj hj
          rfl
        · intro t2 ht2
          obtain rfl : i = t2 := Option.some.inj ht2
          show i < (List.set _ _ _).length
          simp [hsa]
        · show (((mapInsert s1.cache k i).length : Int)) ≤ s1.capacity
          rw [length_mapInsert_of_get_none i hget]
          have : ((s1.cache.length + 1 : Nat) : Int) = (s1.cache.length : Int) + 1 := by
            push_cast
            ring
          rw [this]
          omega
    | cons i1 rest1 =>
      -- non-empty list: the tail points at the last node of the chain
      have hids_ne : ids1 ≠ [] := by rw [hids1]; simp
      obtain ⟨pre, tl, hdecomp⟩ := ids1.eq_nil_or_concat'.resolve_left hids_ne
      have htail1 : s1.tail = some tl := by
        apply hInv1.tail_last
        rw [hdecomp]
        exact endPtr_concat none pre tl
      have htl_mem : tl ∈ ids1 := by rw [hdecomp]; simp
      have htllt : tl < s1.store.length := hbound tl htl_mem
      have htlne : tl ≠ i := by omega
      have hhead1 : s1.head = some i1 := by
        have hc := hInv1.chain_ids
        rw [hids1] at hc
        exact hc.1
      simp only [htail1, hhead1]
      rw [if_neg (by simp : ¬ ((some i1 : Option Nat) = none))]
      refine ⟨_, rfl, ⟨hstop1', ids1 ++ [i], ?_⟩, hcap1⟩
      -- final store characterization
      set st2 : FifoListItem K V := { fnodeAt sa.store tl with next := some i } with hst2
      set sb : List (FifoListItem K V) := sa.store.set tl st2 with hsb
      set stF : List (FifoListItem K V) :=
        sb.set i { fnodeAt sb i with value := v } with hstF
      have hlenF : stF.length = s1.store.length + 1 := by
        simp [hstF, hsb, hsa]
      have hF_i : fnodeAt stF i = ⟨none, some k, v⟩ := by
        have h1 : fnodeAt sb i = newNode := by
          rw [hsb, fnodeAt_set, if_neg (fun hh => htlne hh.1)]
          exact fnodeAt_append_len s1.store newNode
        rw [hstF, fnodeAt_set, if_pos ⟨rfl, by simp [hsb, hsa]⟩, h1]
      have hF_tl : fnodeAt stF tl = { fnodeAt s1.store tl with next := some i } := by
        have h0 : fnodeAt sa.store tl = fnodeAt s1.store tl :=
          fnodeAt_append_lt s1.store [newNode] tl htllt
        have h1 : fnodeAt sb tl = st2 := by
          rw [hsb, fnodeAt_set, if_pos ⟨rfl, by simp [hsa]; omega⟩]
        rw [hstF, fnodeAt_set, if_neg (fun hh => htlne hh.1.symm), h1, hst2, h0]
      have hF_old : ∀ j, j ≠ i → j ≠ tl → fnodeAt stF j = fnodeAt s1.store j ∨
          s1.store.length ≤ j := by
        intro j hj1 hj2
        by_cases hjl : j < s1.store.length
        · left
          rw [hstF, fnodeAt_set, if_neg (fun hh => hj1 hh.1.symm),
              hsb, fnodeAt_set, if_neg (fun hh => hj2 hh.1.symm)]
          exact fnodeAt_append_lt s1.store [newNode] j hjl
        · right
          omega
      have hF_mem : ∀ j ∈ ids1, j ≠ tl → fnodeAt stF j = fnodeAt s1.store j := by
        intro j hj hj2
        rcases hF_old j (fun hh => hinotin (hh ▸ hj)) hj2 with h1 | h1
        · exact h1
        · exact absurd (hbound j hj) (by omega)
      refine { chain_ids := ?_, cache_ids := ?_, ids_cache := ?_,
               nodup_ids := ?_, nodup_keys := nodup_keys_mapInsert k i hInv1.nodup_keys,
               len_eq := ?_, tail_last := ?_, tail_lt := ?_, size_le := ?_,
               cap_pos := hcap1 ▸ hInv1.cap_pos }
      · show chainUpto (fun j => (fnodeAt stF j).next) stF.length (some i1) (ids1 ++ [i]) none
        have hchain := hInv1.chain_ids
        rw [hhead1] at hchain
        rw [hdecomp] at hchain
        obtain ⟨mid, hpre, htlstep⟩ := chainUpto_append.mp hchain
        obtain ⟨hmid, htllt2, _⟩ := htlstep
        rw [hdecomp]
        rw [List.append_assoc]
        apply chainUpto_append.mpr
        refine ⟨some tl, ?_, ?_⟩
        · -- the pre part is untouched
          have hagree : ∀ j ∈ pre, (fnodeAt stF j).next = (fnodeAt s1.store j).next := by
            intro j hjp
            have hjids : j ∈ ids1 := by rw [hdecomp]; simp [hjp]
            have hjtl : j ≠ tl := by
              intro hh
              have hnd := hInv1.nodup_ids
              rw [hdecomp] at hnd
              rw [List.nodup_append] at hnd
              exact hnd.2.2 hjp (by simp [hh])
            rw [hF_mem j hjids hjtl]
          exact chainUpto_frame hagree (by rw [hlenF]; omega) (hmid ▸ hpre)
        · refine ⟨rfl, by rw [hlenF]; omega, ?_, by rw [hlenF]; omega, ?_⟩
          · show (fnodeAt stF tl).next = some i
            rw [hF_tl]
          · show (none : Option Nat) = (fnodeAt stF i).next
            rw [hF_i]
      · intro p hp
        rcases mem_mapInsert_elim hInv1.nodup_keys hp with ⟨h1, h2⟩ | ⟨h1, h2⟩
        · refine ⟨by simp [h2], ?_⟩
          rw [h2, hF_i, h1]
        · obtain ⟨h3, h4⟩ := hInv1.cache_ids p h1
          refine ⟨by simp [h3], ?_⟩
          by_cases htlp : p.2 = tl
          · rw [htlp, hF_tl]
            rw [htlp] at h4
            exact h4
          · rw [hF_mem p.2 h3 htlp]
            exact h4
      · intro j hj
        rcases List.mem_append.mp hj with h1 | h1
        · obtain ⟨kk, h2, h3⟩ := hInv1.ids_cache j h1
          have hkkne : kk ≠ k := by
            intro hh
            exact hknotin (hh ▸ List.mem_map.mpr ⟨(kk, j), h3, rfl⟩)
          refine ⟨kk, ?_, mem_mapInsert_of_mem h3 hkkne⟩
          by_cases htlp : j = tl
          · rw [htlp, hF_tl]
            rw [htlp] at h2
            exact h2
          · rw [hF_mem j h1 htlp]
            exact h2
        · obtain rfl : j = i := by simpa using h1
          exact ⟨k, by rw [hF_i], mem_mapInsert_self s1.cache k i⟩
      · rw [List.nodup_append]
        exact ⟨hInv1.nodup_ids, by simp, by
          intro a ha hb
          simp at hb
          exact hinotin (hb ▸ ha)⟩
      · rw [length_mapInsert_of_get_none i hget]
        simp [hInv1.len_eq]
      · intro j hj
        rw [endPtr_concat] at hj
        obtain rfl : i = j := Option.some.inj hj
        rfl
      · intro t2 ht2
        obtain rfl : i = t2 := Option.some.inj ht2
        rw [hlenF]
        omega
      · show (((mapInsert s1.cache k i).length : Int)) ≤ s1.capacity
        rw [length_mapInsert_of_get_none i hget]
        have : ((s1.cache.length + 1 : Nat) : Int) = (s1.cache.length : Int) + 1 := by
          push_cast
          ring
        rw [this]
        omega

theorem fifoApply_WF {s : FIFOCache K V} {ops : List (K × V)} (h : FifoWF s) :
    ∃ s', fifoApply s ops = some s' ∧ FifoWF s' ∧ s'.capacity = s.capacity := by
  induction ops generalizing s with
  | nil => exact ⟨s, rfl, h, rfl⟩
  | cons op rest ih =>
    obtain ⟨k, v⟩ := op
    obtain ⟨s1, h1, h2, h3⟩ := @fifoSet_WF K V _ _ _ s k v h
    obtain ⟨s', h4, h5, h6⟩ := ih h2
    refine ⟨s', ?_, h5, h6.trans h3⟩
    show (fifoSet s k v).bind (fun s2 => fifoApply s2 rest) = some s'
    rw [h1, Option.some_bind]
    exact h4

theorem runFIFO_capacity {cap : Int} {ops : List (K × V)} {s : FIFOCache K V}
    (h : runFIFO cap ops = some s) : (s.cache.length : Int) ≤ cap := by
  rw [runFIFO] at h
  cases hnew : (newFIFO cap : Option (FIFOCache K V)) with
  | none =>
    rw [hnew] at h
    simp at h
  | some s0 =>
    rw [hnew, Option.some_bind] at h
    obtain ⟨hwf, hcap⟩ := newFIFO_WF hnew
    obtain ⟨s', h1, h2, h3⟩ := @fifoApply_WF K V _ _ _ s0 ops hwf
    rw [h1] at h
    obtain rfl := Option.some.inj h
    obtain ⟨_, ids, hInv⟩ := h2
    rw [← hcap, ← h3]
    exact hInv.size_le

end FifoWFSection

/-! ## LIFO invariant preservation -/

section LifoWFSection

variable {K V : Type} [DecidableEq K] [DecidableEq V] [Inhabited V]

theorem gnodeAt_set (store : List (LifoListItem K V)) (i j : Nat) (n : LifoListItem K V) :
    gnodeAt (store.set i n) j =
      if i = j ∧ i < store.length then n else gnodeAt store j := by
  by_cases h1 : i = j
  · subst h1
    by_cases h2 : i < store.length
    · rw [if_pos ⟨rfl, h2⟩]
      exact getD_set_self store i n lifoZero h2
    · rw [List.set_eq_of_length_le (by omega), if_neg (fun hh => h2 hh.2)]
  · rw [if_neg (fun hh => h1 hh.1)]
    exact getD_set_ne store i j n lifoZero (fun hh => h1 hh.symm)

theorem gnodeAt_append_lt (store l : List (LifoListItem K V)) (j : Nat)
    (h : j < store.length) : gnodeAt (store ++ l) j = gnodeAt store j :=
  getD_append_lt store l j lifoZero h

theorem gnodeAt_append_len (store : List (LifoListItem K V)) (n : LifoListItem K V) :
    gnodeAt (store ++ [n]) store.length = n :=
  getD_append_len store n lifoZero

theorem newLIFO_WF {cap : Int} {s : LIFOCache K V} (h : newLIFO cap = some s) :
    LifoWF s ∧ s.capacity = cap := by
  rw [newLIFO] at h
  by_cases hc : cap ≤ 0
  · rw [if_pos hc] at h
    exact absurd h (by simp)
  · rw [if_neg hc] at h
    obtain rfl := Option.some.inj h
    refine ⟨⟨rfl, [], ?_⟩, rfl⟩
    exact { chain_ids := rfl
            cache_ids := by intro p hp; simp at hp
            ids_cache := by intro i hi; simp at hi
            nodup_ids := List.nodup_nil
            nodup_keys := by simp
            len_eq := rfl
            size_le := by
              show ((([] : List (K × Nat)).length : Int)) ≤ cap
              simp only [List.length_nil, Int.natCast_zero]
              omega
            cap_pos := by show (0 : Int) < cap; omega }

theorem lifoEvict_inv {s : LIFOCache K V} {i0 : Nat} {rest : List Nat}
    (hInv : LifoInv s (i0 :: rest)) :
    ∃ hk0, (gnodeAt s.store i0).key = some hk0 ∧
      lifoEvict s = some
        { s with cache := mapDelete s.cache hk0,
                 store := s.store.set i0 lifoZero,
                 head := (gnodeAt s.store i0).next } ∧
      LifoInv { s with cache := mapDelete s.cache hk0,
                       store := s.store.set i0 lifoZero,
                       head := (gnodeAt s.store i0).next } rest ∧
      (mapDelete s.cache hk0).length + 1 = s.cache.length := by
  obtain ⟨hhead, hi0lt, hrest⟩ := hInv.chain_ids
  obtain ⟨hk0, hkey0, hmem0⟩ := hInv.ids_cache i0 (List.mem_cons_self _ _)
  have hi0nin : i0 ∉ rest := by
    have := hInv.nodup_ids
    rw [List.nodup_cons] at this
    exact this.1
  refine ⟨hk0, hkey0, ?_, ?_, length_mapDelete hInv.nodup_keys hmem0⟩
  · simp only [lifoEvict, hhead, hkey0]
  · set s1 : LIFOCache K V :=
      { s with cache := mapDelete s.cache hk0,
               store := s.store.set i0 lifoZero,
               head := (gnodeAt s.store i0).next } with hs1
    have hstore_frame : ∀ j, j ≠ i0 → gnodeAt s1.store j = gnodeAt s.store j := by
      intro j hj
      show gnodeAt (s.store.set i0 lifoZero) j = gnodeAt s.store j
      rw [gnodeAt_set, if_neg (fun hh => hj hh.1.symm)]
    have hlen_store : s1.store.length = s.store.length := by
      show (s.store.set i0 lifoZero).length = s.store.length
      simp
    refine { chain_ids := ?_, cache_ids := ?_, ids_cache := ?_, nodup_ids := ?_,
             nodup_keys := ?_, len_eq := ?_, size_le := ?_, cap_pos := ?_ }
    · show chainUpto (lifoNxt s1) s1.store.length s1.head rest none
      rw [hlen_store]
      have hagree : ∀ i ∈ rest, lifoNxt s1 i = lifoNxt s i := by
        intro i hi
        show (gnodeAt s1.store i).next = (gnodeAt s.store i).next
        rw [hstore_frame i (fun hh => hi0nin (hh ▸ hi))]
      exact chainUpto_frame hagree le_rfl hrest
    · intro p hp
      obtain ⟨hp1, hp2⟩ := mem_mapDelete.mp hp
      obtain ⟨hin, hkey⟩ := hInv.cache_ids p hp1
      have hne : p.2 ≠ i0 := by
        intro hh
        rw [hh, hkey0] at hkey
        exact hp2 (Option.some.inj hkey).symm
      refine ⟨?_, ?_⟩
      · rcases List.mem_cons.mp hin with h1 | h1
        · exact absurd h1 hne
        · exact h1
      · rw [hstore_frame p.2 hne]
        exact hkey
    · intro i hi
      have hiin : i ∈ i0 :: rest := List.mem_cons_of_mem _ hi
      obtain ⟨kk, hkk, hmm⟩ := hInv.ids_cache i hiin
      have hine : i ≠ i0 := fun hh => hi0nin (hh ▸ hi)
      have hkne : kk ≠ hk0 := by
        intro hh
        subst hh
        exact hine (mapGet_unique hInv.nodup_keys hmm hmem0)
      refine ⟨kk, ?_, mem_mapDelete.mpr ⟨hmm, hkne⟩⟩
      rw [hstore_frame i hine]
      exact hkk
    · exact hInv.nodup_ids.of_cons
    · exact nodup_keys_mapDelete hk0 hInv.nodup_keys
    · have h1 := length_mapDelete hInv.nodup_keys hmem0
      have h2 := hInv.len_eq
      simp only [List.length_cons] at h2
      show (mapDelete s.cache hk0).length = rest.length
      omega
    · have h1 := length_mapDelete hInv.nodup_keys hmem0
      have h2 := hInv.size_le
      show ((mapDelete s.cache hk0).length : Int) ≤ s.capacity
      have : ((mapDelete s.cache hk0).length : Int) + 1 = (s.cache.length : Int) := by
        exact_mod_cast congrArg (Nat.cast : Nat → Int) h1
      omega
    · exact hInv.cap_pos

theorem lifoSet_WF {s : LIFOCache K V} {k : K} {v : V} (h : LifoWF s) :
    ∃ s', lifoSet s k v = some s' ∧ LifoWF s' ∧ s'.capacity = s.capacity := by
  obtain ⟨hstop, ids, hInv⟩ := h
  have phase1 : ∃ s1 ids1,
      (if (s.cache.length : Int) ≥ s.capacity then lifoEvict s else some s) = some s1 ∧
      LifoInv s1 ids1 ∧ (s1.cache.length : Int) < s1.capacity ∧
      s1.stopped = s.stopped ∧ s1.capacity = s.capacity := by
    by_cases hcap : (s.cache.length : Int) ≥ s.capacity
    · have hle := hInv.len_eq
      have hcp := hInv.cap_pos
      have hsz := hInv.size_le
      have hids : ids ≠ [] := by
        intro hh
        rw [hh] at hle
        simp at hle
        rw [hle] at hcap
        simp at hcap
        omega
      obtain ⟨i0, rest, hcons⟩ := List.exists_cons_of_ne_nil hids
      subst hcons
      obtain ⟨hk0, hkey0, hevict, hinv1, hlen1⟩ := lifoEvict_inv hInv
      rw [if_pos hcap]
      refine ⟨_, rest, hevict, hinv1, ?_, rfl, rfl⟩
      have hcast : ((mapDelete s.cache hk0).length : Int) + 1 = (s.cache.length : Int) := by
        exact_mod_cast congrArg (Nat.cast : Nat → Int) hlen1
      show ((mapDelete s.cache hk0).length : Int) < s.capacity
      omega
    · rw [if_neg hcap]
      exact ⟨s, ids, rfl, hInv, by omega, rfl, rfl⟩
  obtain ⟨s1, ids1, hcond, hInv1, hlt, hstop1, hcap1⟩ := phase1
  have hstop1' : s1.stopped = false := hstop1.trans hstop
  rw [lifoSet, if_neg (by rw [hstop]; simp)]
  rw [hcond, Option.some_bind]
  cases hget : mapGet s1.cache k with
  | some i =>
    simp only [hget]
    refine ⟨_, rfl, ⟨hstop1', ids1, ?_⟩, hcap1⟩
    set s' : LIFOCache K V :=
      { s1 with store := s1.store.set i { gnodeAt s1.store i with value := v } } with hs'
    have hlen' : s'.store.length = s1.store.length := by
      show (s1.store.set i _).length = s1.store.length
      simp
    have hpt : ∀ j, (gnodeAt s'.store j).next = (gnodeAt s1.store j).next ∧
        (gnodeAt s'.store j).key = (gnodeAt s1.store j).key := by
      intro j
      show (gnodeAt (s1.store.set i _) j).next = _ ∧ (gnodeAt (s1.store.set i _) j).key = _
      rw [gnodeAt_set]
      by_cases hj : i = j ∧ i < s1.store.length
      · rw [if_pos hj]
        rw [hj.1]
        exact ⟨rfl, rfl⟩
      · rw [if_neg hj]
        exact ⟨rfl, rfl⟩
    refine { chain_ids := ?_, cache_ids := ?_, ids_cache := ?_,
             nodup_ids := hInv1.nodup_ids, nodup_keys := hInv1.nodup_keys,
             len_eq := hInv1.len_eq, size_le := le_of_lt hlt, cap_pos := hInv1.cap_pos }
    · show chainUpto (lifoNxt s') s'.store.length s'.head ids1 none
      rw [hlen']
      exact chainUpto_frame (fun j _ => (hpt j).1) le_rfl hInv1.chain_ids
    · intro p hp
      obtain ⟨h1, h2⟩ := hInv1.cache_ids p hp
      exact ⟨h1, ((hpt p.2).2).trans h2⟩
    · intro j hj
      obtain ⟨kk, h1, h2⟩ := hInv1.ids_cache j hj
      exact ⟨kk, ((hpt j).2).trans h1, h2⟩
  | none =>
    simp only [hget]
    have hbound : ∀ j ∈ ids1, j < s1.store.length :=
      chainUpto_bound hInv1.chain_ids
    have hknotin : k ∉ s1.cache.map Prod.fst := by
      intro hh
      obtain ⟨p, hp1, hp2⟩ := List.mem_map.mp hh
      obtain ⟨k2, i2⟩ := p
      obtain rfl : k2 = k := hp2
      rw [mapGet_of_mem hInv1.nodup_keys hp1] at hget
      exact absurd hget (by simp)
    set i : Nat := s1.store.length with hi
    have hinotin : i ∉ ids1 := fun hh => absurd (hbound i hh) (by omega)
    set newNode : LifoListItem K V := ⟨s1.head, some k, default⟩ with hnew
    refine ⟨_, rfl, ⟨hstop1', i :: ids1, ?_⟩, hcap1⟩
    set sa : List (LifoListItem K V) := s1.store ++ [newNode] with hsa
    set stF : List (LifoListItem K V) :=
      sa.set i { gnodeAt sa i with value := v } with hstF
    have hlenF : stF.length = s1.store.length + 1 := by
      simp [hstF, hsa]
    have hF_i : gnodeAt stF i = ⟨s1.head, some k, v⟩ := by
      have h1 : gnodeAt sa i = newNode := gnodeAt_append_len s1.store newNode
      rw [hstF, gnodeAt_set, if_pos ⟨rfl, by simp [hsa]⟩, h1]
    have hF_mem : ∀ j ∈ ids1, gnodeAt stF j = gnodeAt s1.store j := by
      intro j hj
      have hjlt : j < s1.store.length := hbound j hj
      have hne : ¬(i = j ∧ i < sa.length) := by
        intro hh
        exact hinotin (hh.1 ▸ hj)
      rw [hstF, gnodeAt_set, if_neg hne]
      exact gnodeAt_append_lt s1.store [newNode] j hjlt
    refine { chain_ids := ?_, cache_ids := ?_, ids_cache := ?_,
             nodup_ids := ?_, nodup_keys := nodup_keys_mapInsert k i hInv1.nodup_keys,
             len_eq := ?_, size_le := ?_, cap_pos := hcap1 ▸ hInv1.cap_pos }
    · refine ⟨rfl, by rw [hlenF]; omega, ?_⟩
      show chainUpto (fun j => (gnodeAt stF j).next) stF.length ((gnodeAt stF i).next) ids1 none
      rw [hF_i]
      refine chainUpto_frame ?_ (by rw [hlenF]; omega) hInv1.chain_ids
      intro j hj
      show (gnodeAt stF j).next = (gnodeAt s1.store j).next
      rw [hF_mem j hj]
    · intro p hp
      rcases mem_mapInsert_elim hInv1.nodup_keys hp with ⟨h1, h2⟩ | ⟨h1, h2⟩
      · refine ⟨by simp [h2], ?_⟩
        rw [h2, hF_i, h1]
      · obtain ⟨h3, h4⟩ := hInv1.cache_ids p h1
        refine ⟨List.mem_cons_of_mem _ h3, ?_⟩
        rw [hF_mem p.2 h3]
        exact h4
    · intro j hj
      rcases List.mem_cons.mp hj with h1 | h1
      · subst h1
        exact ⟨k, by rw [hF_i], mem_mapInsert_self s1.cache k i⟩
      · obtain ⟨kk, h2, h3⟩ := hInv1.ids_cache j h1
        have hkkne : kk ≠ k := by
          intro hh
          exact hknotin (hh ▸ List.mem_map.mpr ⟨(kk, j), h3, rfl⟩)
        refine ⟨kk, ?_, mem_mapInsert_of_mem h3 hkkne⟩
        rw [hF_mem j h1]
        exact h2
    · rw [List.nodup_cons]
      exact ⟨hinotin, hInv1.nodup_ids⟩
    · rw [length_mapInsert_of_get_none i hget]
      simp [hInv1.len_eq]
    · show (((mapInsert s1.cache k i).length : Int)) ≤ s1.capacity
      rw [length_mapInsert_of_get_none i hget]
      have : ((s1.cache.length + 1 : Nat) : Int) = (s1.cache.length : Int) + 1 := by
        push_cast
        ring
      rw [this]
      omega

theorem lifoApply_WF {s : LIFOCache K V} {ops : List (K × V)} (h : LifoWF s) :
    ∃ s', lifoApply s ops = some s' ∧ LifoWF s' ∧ s'.capacity = s.capacity := by
  induction ops generalizing s with
  | nil => exact ⟨s, rfl, h, rfl⟩
  | cons op rest ih =>
    obtain ⟨k, v⟩ := op
    obtain ⟨s1, h1, h2, h3⟩ := @lifoSet_WF K V _ _ _ s k v h
    obtain ⟨s', h4, h5, h6⟩ := ih h2
    refine ⟨s', ?_, h5, h6.trans h3⟩
    show (lifoSet s k v).bind (fun s2 => lifoApply s2 rest) = some s'
    rw [h1, Option.some_bind]
    exact h4

theorem runLIFO_capacity {cap : Int} {ops : List (K × V)} {s : LIFOCache K V}
    (h : runLIFO cap ops = some s) : (s.cache.length : Int) ≤ cap := by
  rw [runLIFO] at h
  cases hnew : (newLIFO cap : Option (LIFOCache K V)) with
  | none =>
    rw [hnew] at h
    simp at h
  | some s0 =>
    rw [hnew, Option.some_bind] at h
    obtain ⟨hwf, hcap⟩ := newLIFO_WF hnew
    obtain ⟨s', h1, h2, h3⟩ := @lifoApply_WF K V _ _ _ s0 ops hwf
    rw [h1] at h
    obtain rfl := Option.some.inj h
    obtain ⟨_, ids, hInv⟩ := h2
    rw [← hcap, ← h3]
    exact hInv.size_le

end LifoWFSection

/-! ## Random invariant preservation -/

section RandomWFSection

variable {K V : Type} [DecidableEq K] [DecidableEq V] [Inhabited V]

theorem newRandom_WF {cap : Int} {s : RandomCache K V} (h : newRandom cap = some s) :
    RandomWF s ∧ s.capacity = cap := by
  rw [newRandom] at h
  by_cases hc : cap ≤ 0
  · rw [if_pos hc] at h
    exact absurd h (by simp)
  · rw [if_neg hc] at h
    obtain rfl := Option.some.inj h
    refine ⟨⟨rfl, by simp, ?_, by show (0 : Int) < cap; omega⟩, rfl⟩
    show ((([] : List (K × V)).length : Int)) ≤ cap
    simp only [List.length_nil, Int.natCast_zero]
    omega

theorem randomSet_WF {s : RandomCache K V} {k : K} {v : V} (h : RandomWF s) :
    ∃ s', randomSet s k v = some s' ∧ RandomWF s' ∧ s'.capacity = s.capacity := by
  obtain ⟨hstop, hnodup, hsize, hcap⟩ := h
  rw [randomSet, if_neg (by rw [hstop]; simp)]
  have key_step : ∀ (m : List (K × V)), (m.map Prod.fst).Nodup →
      ((m.length : Int) < s.capacity) →
      ((mapInsert m k v).map Prod.fst).Nodup ∧
        ((mapInsert m k v).length : Int) ≤ s.capacity := by
    intro m hm hlt
    refine ⟨nodup_keys_mapInsert k v hm, ?_⟩
    cases hg : mapGet m k with
    | none =>
      rw [length_mapInsert_of_get_none v hg]
      push_cast
      omega
    | some a =>
      rw [length_mapInsert_of_get_some v hg]
      omega
  by_cases hcapped : (s.cache.length : Int) ≥ s.capacity
  · rw [if_pos hcapped]
    cases hc : s.cache with
    | nil =>
      exfalso
      rw [hc] at hcapped
      simp at hcapped
      omega
    | cons p rest =>
      obtain ⟨k0, v0⟩ := p
      simp only [hc]
      have hnodup' : ((((k0, v0) :: rest).map Prod.fst)).Nodup := hc ▸ hnodup
      rw [List.map_cons, List.nodup_cons] at hnodup'
      have hdel : mapDelete ((k0, v0) :: rest) k0 = rest := by
        have he : mapDelete ((k0, v0) :: rest) k0 = mapDelete rest k0 := by
          simp [mapDelete]
        rw [he]
        exact mapDelete_eq_of_not_mem hnodup'.1
      rw [hdel]
      have hlen : ((rest.length : Int)) < s.capacity := by
        have : s.cache.length = rest.length + 1 := by rw [hc]; simp
        rw [this] at hsize
        push_cast at hsize
        omega
      obtain ⟨hn2, hs2⟩ := key_step rest hnodup'.2 hlen
      exact ⟨_, rfl, ⟨hstop, hn2, hs2, hcap⟩, rfl⟩
  · rw [if_neg hcapped]
    obtain ⟨hn2, hs2⟩ := key_step s.cache hnodup (by omega)
    exact ⟨_, rfl, ⟨hstop, hn2, hs2, hcap⟩, rfl⟩

theorem randomApply_WF {s : RandomCache K V} {ops : List (K × V)} (h : RandomWF s) :
    ∃ s', randomApply s ops = some s' ∧ RandomWF s' ∧ s'.capacity = s.capacity := by
  induction ops generalizing s with
  | nil => exact ⟨s, rfl, h, rfl⟩
  | cons op rest ih =>
    obtain ⟨k, v⟩ := op
    obtain ⟨s1, h1, h2, h3⟩ := @randomSet_WF K V _ _ _ s k v h
    obtain ⟨s', h4, h5, h6⟩ := ih h2
    refine ⟨s', ?_, h5, h6.trans h3⟩
    show (randomSet s k v).bind (fun s2 => randomApply s2 rest) = some s'
    rw [h1, Option.some_bind]
    exact h4

theorem runRandom_capacity {cap : Int} {ops : List (K × V)} {s : RandomCache K V}
    (h : runRandom cap ops = some s) : (s.cache.length : Int) ≤ cap := by
  rw [runRandom] at h
  cases hnew : (newRandom cap : Option (RandomCache K V)) with
  | none =>
    rw [hnew] at h
    simp at h
  | some s0 =>
    rw [hnew, Option.some_bind] at h
    obtain ⟨hwf, hcap⟩ := newRandom_WF hnew
    obtain ⟨s', h1, h2, h3⟩ := @randomApply_WF K V _ _ _ s0 ops hwf
    rw [h1] at h
    obtain rfl := Option.some.inj h
    rw [← hcap, ← h3]
    exact h2.2.2.1

end RandomWFSection

/-! ## LRU invariant preservation -/

section LruWFSection

variable {K V : Type} [DecidableEq K] [DecidableEq V] [Inhabited V]

theorem lnodeAt_set (store : List (LruListItem K V)) (i j : Nat) (n : LruListItem K V) :
    lnodeAt (store.set i n) j =
      if i = j ∧ i < store.length then n else lnodeAt store j := by
  by_cases h1 : i = j
  · subst h1
    by_cases h2 : i < store.length
    · rw [if_pos ⟨rfl, h2⟩]
      exact getD_set_self store i n lruZero h2
    · rw [List.set_eq_of_length_le (by omega), if_neg (fun hh => h2 hh.2)]
  · rw [if_neg (fun hh => h1 hh.1)]
    exact getD_set_ne store i j n lruZero (fun hh => h1 hh.symm)

theorem lnodeAt_append_lt (store l : List (LruListItem K V)) (j : Nat)
    (h : j < store.length) : lnodeAt (store ++ l) j = lnodeAt store j :=
  getD_append_lt store l j lruZero h

theorem lnodeAt_append_len (store : List (LruListItem K V)) (n : LruListItem K V) :
    lnodeAt (store ++ [n]) store.length = n :=
  getD_append_len store n lruZero

theorem lruMoveToTail_spec {s : LRUCache K V} {nid : Nat} (htail : s.tail ≠ some nid) :
    lruMoveToTail s nid =
      { s with store := lruUnlinkRelink s nid,
               head := lruMoveHead s nid,
               tail := some nid } := by
  rw [lruMoveToTail, if_neg htail, lruUnlinkRelink, lruMoveHead]
  by_cases hhead : s.head = some nid
  · rw [if_pos hhead, if_pos hhead]
    cases hnp : (lnodeAt s.store nid).prev with
    | some p =>
      simp only [hnp]
      have hnext2 : (lnodeAt (s.store.set p
          { lnodeAt s.store p with next := (lnodeAt s.store nid).next }) nid).next =
          (lnodeAt s.store nid).next := by
        rw [lnodeAt_set]
        by_cases hpn : p = nid ∧ p < s.store.length
        · rw [if_pos hpn]
        · rw [if_neg hpn]
      have hprev2 : (lnodeAt (s.store.set p
          { lnodeAt s.store p with next := (lnodeAt s.store nid).next }) nid).prev =
          (lnodeAt s.store nid).prev := by
        rw [lnodeAt_set]
        by_cases hpn : p = nid ∧ p < s.store.length
        · obtain ⟨hp1, hp2⟩ := hpn
          subst hp1
          rw [if_pos ⟨rfl, hp2⟩]
        · rw [if_neg hpn]
      rw [hnext2, hprev2, hnp]
      cases hnn : (lnodeAt s.store nid).next with
      | some n =>
        simp only [hnn]
        cases htl : s.tail with
        | some t => simp only [htl] <;> rfl
        | none => simp only [htl] <;> rfl
      | none =>
        simp only [hnn]
        cases htl : s.tail with
        | some t => simp only [htl] <;> rfl
        | none => simp only [htl] <;> rfl
    | none =>
      simp only [hnp]
      cases hnn : (lnodeAt s.store nid).next with
      | some n =>
        simp only [hnn]
        cases htl : s.tail with
        | some t => simp only [htl] <;> rfl
        | none => simp only [htl] <;> rfl
      | none =>
        simp only [hnn]
        cases htl : s.tail with
        | some t => simp only [htl] <;> rfl
        | none => simp only [htl] <;> rfl
  · rw [if_neg hhead, if_neg hhead]
    cases hnp : (lnodeAt s.store nid).prev with
    | some p =>
      simp only [hnp]
      have hnext2 : (lnodeAt (s.store.set p
          { lnodeAt s.store p with next := (lnodeAt s.store nid).next }) nid).next =
          (lnodeAt s.store nid).next := by
        rw [lnodeAt_set]
        by_cases hpn : p = nid ∧ p < s.store.length
        · rw [if_pos hpn]
        · rw [if_neg hpn]
      have hprev2 : (lnodeAt (s.store.set p
          { lnodeAt s.store p with next := (lnodeAt s.store nid).next }) nid).prev =
          (lnodeAt s.store nid).prev := by
        rw [lnodeAt_set]
        by_cases hpn : p = nid ∧ p < s.store.length
        · obtain ⟨hp1, hp2⟩ := hpn
          subst hp1
          rw [if_pos ⟨rfl, hp2⟩]
        · rw [if_neg hpn]
      rw [hnext2, hprev2, hnp]
      cases hnn : (lnodeAt s.store nid).next with
      | some n =>
        simp only [hnn]
        cases htl : s.tail with
        | some t =>
          simp only [htl]
          cases hhd : s.head <;> simp only [hhd] <;> rfl
        | none =>
          simp only [htl]
          cases hhd : s.head <;> simp only [hhd] <;> rfl
      | none =>
        simp only [hnn]
        cases htl : s.tail with
        | some t =>
          simp only [htl]
          cases hhd : s.head <;> simp only [hhd] <;> rfl
        | none =>
          simp only [htl]
          cases hhd : s.head <;> simp only [hhd] <;> rfl
    | none =>
      simp only [hnp]
      cases hnn : (lnodeAt s.store nid).next with
      | some n =>
        simp only [hnn]
        cases htl : s.tail with
        | some t =>
          simp only [htl]
          cases hhd : s.head <;> simp only [hhd] <;> rfl
        | none =>
          simp only [htl]
          cases hhd : s.head <;> simp only [hhd] <;> rfl
      | none =>
        simp only [hnn]
        cases htl : s.tail with
        | some t =>
          simp only [htl]
          cases hhd : s.head <;> simp only [hhd] <;> rfl
        | none =>
          simp only [htl]
          cases hhd : s.head <;> simp only [hhd] <;> rfl

theorem lnodeAt_setU_key (store : List (LruListItem K V)) (i j : Nat)
    (pv nx : Option Nat) :
    (lnodeAt (store.set i ⟨pv, nx, (lnodeAt store i).key, (lnodeAt store i).value⟩) j).key
      = (lnodeAt store j).key := by
  rw [lnodeAt_set]
  split
  · next h => exact congrArg (fun z => (lnodeAt store z).key) h.1
  · rfl

theorem lnodeAt_setU_value (store : List (LruListItem K V)) (i j : Nat)
    (pv nx : Option Nat) :
    (lnodeAt (store.set i ⟨pv, nx, (lnodeAt store i).key, (lnodeAt store i).value⟩) j).value
      = (lnodeAt store j).value := by
  rw [lnodeAt_set]
  split
  · next h => exact congrArg (fun z => (lnodeAt store z).value) h.1
  · rfl

theorem lnodeAt_setU_next (store : List (LruListItem K V)) (i j : Nat)
    (pv : Option Nat) :
    (lnodeAt (store.set i
      ⟨pv, (lnodeAt store i).next, (lnodeAt store i).key, (lnodeAt store i).value⟩) j).next
      = (lnodeAt store j).next := by
  rw [lnodeAt_set]
  split
  · next h => exact congrArg (fun z => (lnodeAt store z).next) h.1
  · rfl

theorem lnodeAt_setU_prev (store : List (LruListItem K V)) (i j : Nat)
    (nx : Option Nat) :
    (lnodeAt (store.set i
      ⟨(lnodeAt store i).prev, nx, (lnodeAt store i).key, (lnodeAt store i).value⟩) j).prev
      = (lnodeAt store j).prev := by
  rw [lnodeAt_set]
  split
  · next h => exact congrArg (fun z => (lnodeAt store z).prev) h.1
  · rfl

theorem lruUnlinkRelink_length (s : LRUCache K V) (nid : Nat) :
    (lruUnlinkRelink s nid).length = s.store.length := by
  rw [lruUnlinkRelink]
  cases (lnodeAt s.store nid).prev <;> cases (lnodeAt s.store nid).next <;>
    cases s.tail <;> simp

theorem lruUnlinkRelink_keyval (s : LRUCache K V) (nid : Nat) (j : Nat) :
    (lnodeAt (lruUnlinkRelink s nid) j).key = (lnodeAt s.store j).key ∧
    (lnodeAt (lruUnlinkRelink s nid) j).value = (lnodeAt s.store j).value := by
  rw [lruUnlinkRelink]
  cases (lnodeAt s.store nid).prev <;> cases (lnodeAt s.store nid).next <;>
    cases s.tail <;>
    exact ⟨by dsimp only; repeat rw [lnodeAt_setU_key],
           by dsimp only; repeat rw [lnodeAt_setU_value]⟩

theorem lruUnlinkRelink_next_A {s : LRUCache K V} {nid n1 tl : Nat}
    (hnn : (lnodeAt s.store nid).next = some n1)
    (htl : s.tail = some tl)
    (hnidlt : nid < s.store.length) (htllt : tl < s.store.length) (htlnid : tl ≠ nid) :
    ∀ j, j < s.store.length →
      (lnodeAt (lruUnlinkRelink s nid) j).next =
        if j = nid then none
        else if j = tl then some nid
        else if (lnodeAt s.store nid).prev = some j then some n1
        else (lnodeAt s.store j).next := by
  intro j hj
  rw [lruUnlinkRelink]
  cases hnp : (lnodeAt s.store nid).prev with
  | some p =>
    simp only [hnp, hnn, htl]
    by_cases hjn : j = nid
    · subst hjn
      rw [lnodeAt_set, if_pos ⟨rfl, by simpa using hnidlt⟩, if_pos rfl]
    · rw [lnodeAt_set, if_neg (fun hh => hjn hh.1.symm), if_neg hjn]
      by_cases hjt : j = tl
      · subst hjt
        rw [lnodeAt_set, if_pos ⟨rfl, by simpa using htllt⟩, if_pos rfl]
      · rw [lnodeAt_set, if_neg (fun hh => hjt hh.1.symm), if_neg hjt]
        rw [lnodeAt_setU_next]
        by_cases hjp : j = p
        · subst hjp
          rw [lnodeAt_set, if_pos ⟨rfl, hj⟩, if_pos rfl]
        · rw [lnodeAt_set, if_neg (fun hh => hjp hh.1.symm),
              if_neg (fun hh => hjp (Option.some.inj hh).symm)]
  | none =>
    simp only [hnp, hnn, htl]
    by_cases hjn : j = nid
    · subst hjn
      rw [lnodeAt_set, if_pos ⟨rfl, by simpa using hnidlt⟩, if_pos rfl]
    · rw [lnodeAt_set, if_neg (fun hh => hjn hh.1.symm), if_neg hjn]
      by_cases hjt : j = tl
      · subst hjt
        rw [lnodeAt_set, if_pos ⟨rfl, by simpa using htllt⟩, if_pos rfl]
      · rw [lnodeAt_set, if_neg (fun hh => hjt hh.1.symm), if_neg hjt]
        rw [lnodeAt_setU_next]
        rw [if_neg (by simp : ¬ ((none : Option Nat) = some j))]

theorem lruUnlinkRelink_prev_A {s : LRUCache K V} {nid n1 tl : Nat}
    (hnn : (lnodeAt s.store nid).next = some n1)
    (htl : s.tail = some tl)
    (hnidlt : nid < s.store.length) (htllt : tl < s.store.length) (htlnid : tl ≠ nid) :
    ∀ j, j < s.store.length →
      (lnodeAt (lruUnlinkRelink s nid) j).prev =
        if j = nid then some tl
        else if j = n1 then (lnodeAt s.store nid).prev
        else (lnodeAt s.store j).prev := by
  intro j hj
  rw [lruUnlinkRelink]
  cases hnp : (lnodeAt s.store nid).prev with
  | some p =>
    simp only [hnp, hnn, htl]
    by_cases hjn : j = nid
    · subst hjn
      rw [lnodeAt_set, if_pos ⟨rfl, by simpa using hnidlt⟩, if_pos rfl]
    · rw [lnodeAt_set, if_neg (fun hh => hjn hh.1.symm), if_neg hjn]
      rw [lnodeAt_setU_prev]
      by_cases hjm : j = n1
      · subst hjm
        rw [lnodeAt_set, if_pos ⟨rfl, by simpa using hj⟩, if_pos rfl]
      · rw [lnodeAt_set, if_neg (fun hh => hjm hh.1.symm), if_neg hjm]
        rw [lnodeAt_setU_prev]
  | none =>
    simp only [hnp, hnn, htl]
    by_cases hjn : j = nid
    · subst hjn
      rw [lnodeAt_set, if_pos ⟨rfl, by simpa using hnidlt⟩, if_pos rfl]
    · rw [lnodeAt_set, if_neg (fun hh => hjn hh.1.symm), if_neg hjn]
      rw [lnodeAt_setU_prev]
      by_cases hjm : j = n1
      · subst hjm
        rw [lnodeAt_set, if_pos ⟨rfl, by simpa using hj⟩, if_pos rfl]
      · rw [lnodeAt_set, if_neg (fun hh => hjm hh.1.symm), if_neg hjm]

theorem lruUnlinkRelink_next_B {s : LRUCache K V} {nid t : Nat}
    (hnn : (lnodeAt s.store nid).next = none)
    (hnp : (lnodeAt s.store nid).prev = none)
    (htl : s.tail = some t)
    (hnidlt : nid < s.store.length) (htlt : t < s.store.length) (htnid : t ≠ nid) :
    ∀ j, j < s.store.length →
      (lnodeAt (lruUnlinkRelink s nid) j).next =
        if j = nid then none
        else if j = t then some nid
        else (lnodeAt s.store j).next := by
  intro j hj
  rw [lruUnlinkRelink]
  simp only [hnp, hnn, htl]
  by_cases hjn : j = nid
  · subst hjn
    rw [lnodeAt_set, if_pos ⟨rfl, by simpa using hnidlt⟩, if_pos rfl]
  · rw [lnodeAt_set, if_neg (fun hh => hjn hh.1.symm), if_neg hjn]
    by_cases hjt : j = t
    · subst hjt
      rw [lnodeAt_set, if_pos ⟨rfl, by simpa using htlt⟩, if_pos rfl]
    · rw [lnodeAt_set, if_neg (fun hh => hjt hh.1.symm), if_neg hjt]

theorem lruUnlinkRelink_prev_B {s : LRUCache K V} {nid t : Nat}
    (hnn : (lnodeAt s.store nid).next = none)
    (hnp : (lnodeAt s.store nid).prev = none)
    (htl : s.tail = some t)
    (hnidlt : nid < s.store.length) (htlt : t < s.store.length) (htnid : t ≠ nid) :
    ∀ j, j < s.store.length →
      (lnodeAt (lruUnlinkRelink s nid) j).prev =
        if j = nid then some t
        else (lnodeAt s.store j).prev := by
  intro j hj
  rw [lruUnlinkRelink]
  simp only [hnp, hnn, htl]
  by_cases hjn : j = nid
  · subst hjn
    rw [lnodeAt_set, if_pos ⟨rfl, by simpa using hnidlt⟩, if_pos rfl]
  · rw [lnodeAt_set, if_neg (fun hh => hjn hh.1.symm), if_neg hjn]
    rw [lnodeAt_setU_prev]

theorem lruUnlinkRelink_next_C {s : LRUCache K V} {nid : Nat}
    (hnn : (lnodeAt s.store nid).next = none)
    (hnp : (lnodeAt s.store nid).prev = none)
    (htl : s.tail = none)
    (hnidlt : nid < s.store.length) :
    ∀ j, j < s.store.length →
      (lnodeAt (lruUnlinkRelink s nid) j).next =
        if j = nid then none
        else (lnodeAt s.store j).next := by
  intro j hj
  rw [lruUnlinkRelink]
  simp only [hnp, hnn, htl]
  by_cases hjn : j = nid
  · subst hjn
    rw [lnodeAt_set, if_pos ⟨rfl, by simpa using hnidlt⟩, if_pos rfl]
  · rw [lnodeAt_set, if_neg (fun hh => hjn hh.1.symm), if_neg hjn]

theorem lruUnlinkRelink_prev_C {s : LRUCache K V} {nid : Nat}
    (hnn : (lnodeAt s.store nid).next = none)
    (hnp : (lnodeAt s.store nid).prev = none)
    (htl : s.tail = none)
    (hnidlt : nid < s.store.length) :
    ∀ j, j < s.store.length →
      (lnodeAt (lruUnlinkRelink s nid) j).prev =
        if j = nid then none
        else (lnodeAt s.store j).prev := by
  intro j hj
  rw [lruUnlinkRelink]
  simp only [hnp, hnn, htl]
  by_cases hjn : j = nid
  · subst hjn
    rw [lnodeAt_set, if_pos ⟨rfl, by simpa using hnidlt⟩, if_pos rfl]
  · rw [lnodeAt_set, if_neg (fun hh => hjn hh.1.symm), if_neg hjn]

theorem newLRU_WF {cap : Int} {s : LRUCache K V} (h : newLRU cap = some s) :
    LruWF s ∧ s.capacity = cap := by
  rw [newLRU] at h
  by_cases hc : cap ≤ 0
  · rw [if_pos hc] at h
    exact absurd h (by simp)
  · rw [if_neg hc] at h
    obtain rfl := Option.some.inj h
    refine ⟨⟨rfl, [], ?_⟩, rfl⟩
    refine { shape := ?_, cache_ids := ?_, ids_cache := ?_, nodup_keys := by simp,
             len_eq := rfl, size_le := ?_, cap_pos := by show (0 : Int) < cap; omega }
    · exact { chain_ids := rfl
              prev_ids := ⟨none, trivial, by intro q hq; simp at hq⟩
              nodup_ids := List.nodup_nil
              tail_last := by intro j hj; simp [endPtr] at hj
              tail_lt := by intro t ht; simp at ht }
    · intro p hp
      simp at hp
    · intro i hi
      simp at hi
    · show ((([] : List (K × Nat)).length : Int)) ≤ cap
      simp only [List.length_nil, Int.natCast_zero]
      omega

theorem lruEvict_inv {s : LRUCache K V} {i0 : Nat} {rest : List Nat}
    (hInv : LruInv s (i0 :: rest)) :
    ∃ s1, lruEvict s = some s1 ∧ LruInv s1 rest ∧
      s1.cache.length + 1 = s.cache.length ∧ s1.capacity = s.capacity ∧
      s1.stopped = s.stopped ∧ s1.store.length = s.store.length ∧ s1.tail = s.tail := by
  obtain ⟨hhead, hi0lt, hrest⟩ := hInv.shape.chain_ids
  obtain ⟨hk0, hkey0, hmem0⟩ := hInv.ids_cache i0 (List.mem_cons_self _ _)
  have hi0nin : i0 ∉ rest := by
    have := hInv.shape.nodup_ids
    rw [List.nodup_cons] at this
    exact this.1
  have hcachelen := length_mapDelete hInv.nodup_keys hmem0
  have hcache_prop : ∀ p ∈ mapDelete s.cache hk0,
      p.2 ∈ rest ∧ p.2 ≠ i0 ∧ (lnodeAt s.store p.2).key = some p.1 := by
    intro p hp
    obtain ⟨hp1, hp2⟩ := mem_mapDelete.mp hp
    obtain ⟨hin, hkey⟩ := hInv.cache_ids p hp1
    have hne : p.2 ≠ i0 := by
      intro hh
      rw [hh, hkey0] at hkey
      exact hp2 (Option.some.inj hkey).symm
    refine ⟨?_, hne, hkey⟩
    rcases List.mem_cons.mp hin with h1 | h1
    · exact absurd h1 hne
    · exact h1
  have hrest_prop : ∀ i ∈ rest, ∃ k, (lnodeAt s.store i).key = some k ∧
      (k, i) ∈ mapDelete s.cache hk0 := by
    intro i hi
    obtain ⟨kk, hkk, hmm⟩ := hInv.ids_cache i (List.mem_cons_of_mem _ hi)
    have hine : i ≠ i0 := fun hh => hi0nin (hh ▸ hi)
    have hkne : kk ≠ hk0 := by
      intro hh
      subst hh
      exact hine (mapGet_unique hInv.nodup_keys hmm hmem0)
    exact ⟨kk, hkk, mem_mapDelete.mpr ⟨hmm, hkne⟩⟩
  have hlen_cons := hInv.len_eq
  simp only [List.length_cons] at hlen_cons
  have hsize := hInv.size_le
  have hcast : ((mapDelete s.cache hk0).length : Int) + 1 = (s.cache.length : Int) := by
    exact_mod_cast congrArg (Nat.cast : Nat → Int) hcachelen
  cases rest with
  | nil =>
    have hnext : (lnodeAt s.store i0).next = none := hrest.symm
    refine ⟨{ s with cache := mapDelete s.cache hk0,
                     store := s.store.set i0 lruZero,
                     head := none },
            by simp only [lruEvict, hhead, hkey0, hnext], ?_, hcachelen, rfl, rfl, ?_, rfl⟩
    · refine { shape := ?_, cache_ids := ?_, ids_cache := ?_,
               nodup_keys := nodup_keys_mapDelete hk0 hInv.nodup_keys,
               len_eq := ?_, size_le := ?_, cap_pos := hInv.cap_pos }
      · refine { chain_ids := rfl
                 prev_ids := ⟨none, trivial, by intro q hq; simp at hq⟩
                 nodup_ids := List.nodup_nil
                 tail_last := by intro j hj; simp [endPtr] at hj
                 tail_lt := ?_ }
        intro t ht
        have := hInv.shape.tail_lt t ht
        simpa using this
      · intro p hp
        obtain ⟨h1, _, _⟩ := hcache_prop p hp
        simp at h1
      · intro i hi
        simp at hi
      · show (mapDelete s.cache hk0).length = ([] : List Nat).length
        simp only [List.length_nil]
        simp only [List.length_nil] at hlen_cons
        omega
      · show ((mapDelete s.cache hk0).length : Int) ≤ s.capacity
        omega
    · show (List.set _ _ _).length = s.store.length
      simp
  | cons n rest' =>
    have hnext : (lnodeAt s.store i0).next = some n := hrest.1
    have hnlt : n < s.store.length := hrest.2.1
    have hnodup_rest : (n :: rest').Nodup := hInv.shape.nodup_ids.of_cons
    have hnnin : n ∉ rest' := by
      rw [List.nodup_cons] at hnodup_rest
      exact hnodup_rest.1
    have hnne : n ≠ i0 := by
      intro hh
      exact hi0nin (hh ▸ List.mem_cons_self n rest')
    set st1 : List (LruListItem K V) := s.store.set i0 lruZero with hst1
    set stE : List (LruListItem K V) :=
      st1.set n { lnodeAt st1 n with prev := none } with hstE
    have hlenE : stE.length = s.store.length := by simp [hstE, hst1]
    have hE_frame : ∀ j, j ≠ i0 → j ≠ n →
        lnodeAt stE j = lnodeAt s.store j := by
      intro j hj1 hj2
      rw [hstE, lnodeAt_set, if_neg (fun hh => hj2 hh.1.symm),
          hst1, lnodeAt_set, if_neg (fun hh => hj1 hh.1.symm)]
    have hE_n_next : (lnodeAt stE n).next = (lnodeAt s.store n).next := by
      rw [hstE]
      dsimp only
      rw [lnodeAt_setU_next, hst1, lnodeAt_set, if_neg (fun hh => hnne hh.1.symm)]
    have hE_n_key : (lnodeAt stE n).key = (lnodeAt s.store n).key := by
      rw [hstE]
      dsimp only
      rw [lnodeAt_setU_key, hst1, lnodeAt_set, if_neg (fun hh => hnne hh.1.symm)]
    have hE_n_prev : (lnodeAt stE n).prev = none := by
      rw [hstE, lnodeAt_set, if_pos ⟨rfl, by simpa [hst1] using hnlt⟩]
    have hE_keyj : ∀ j, j ≠ i0 → (lnodeAt stE j).key = (lnodeAt s.store j).key := by
      intro j hj1
      by_cases hj2 : j = n
      · rw [hj2]
        exact hE_n_key
      · rw [hE_frame j hj1 hj2]
    refine ⟨{ s with cache := mapDelete s.cache hk0,
                     store := stE,
                     head := some n },
            by simp only [lruEvict, hhead, hkey0, hnext], ?_, hcachelen,
            rfl, rfl, hlenE, rfl⟩
    refine { shape := ?_, cache_ids := ?_, ids_cache := ?_,
             nodup_keys := nodup_keys_mapDelete hk0 hInv.nodup_keys,
             len_eq := ?_, size_le := ?_, cap_pos := hInv.cap_pos }
    · refine { chain_ids := ?_, prev_ids := ?_, nodup_ids := hnodup_rest,
               tail_last := ?_, tail_lt := ?_ }
      · show chainUpto (fun j => (lnodeAt stE j).next) stE.length (some n) (n :: rest') none
        rw [hlenE]
        have hagree : ∀ j ∈ n :: rest',
            (lnodeAt stE j).next = (lnodeAt s.store j).next := by
          intro j hjr
          by_cases hj2 : j = n
          · rw [hj2]
            exact hE_n_next
          · rw [hE_frame j (fun hh => hi0nin (hh ▸ hjr)) hj2]
        refine chainUpto_frame hagree le_rfl ?_
        rw [← hnext]
        exact hrest
      · obtain ⟨hp, hprev, hhpsafe⟩ := hInv.shape.prev_ids
        obtain ⟨hprev0, hpn, hprev2⟩ := hprev
        refine ⟨none, ⟨hE_n_prev, ?_⟩, by intro q hq; simp at hq⟩
        refine prevFrom_frame ?_ hprev2
        intro j hj
        have hji0 : j ≠ i0 := fun hh => hi0nin (hh ▸ List.mem_cons_of_mem n hj)
        have hjn : j ≠ n := fun hh => hnnin (hh ▸ hj)
        show (lnodeAt stE j).prev = (lnodeAt s.store j).prev
        rw [hE_frame j hji0 hjn]
      · intro j hj
        apply hInv.shape.tail_last
        show endPtr none (i0 :: n :: rest') = some j
        rw [endPtr_cons, endPtr_indep (by simp : (n :: rest' : List Nat) ≠ [])]
        exact hj
      · intro t ht
        rw [hlenE]
        exact hInv.shape.tail_lt t ht
    · intro p hp
      obtain ⟨h1, h2, h3⟩ := hcache_prop p hp
      exact ⟨h1, (hE_keyj p.2 h2).trans h3⟩
    · intro i hi
      obtain ⟨kk, hkk, hmm⟩ := hrest_prop i hi
      have hine : i ≠ i0 := fun hh => hi0nin (hh ▸ hi)
      exact ⟨kk, (hE_keyj i hine).trans hkk, hmm⟩
    · show (mapDelete s.cache hk0).length = (n :: rest').length
      simp only [List.length_cons] at hlen_cons ⊢
      omega
    · show ((mapDelete s.cache hk0).length : Int) ≤ s.capacity
      omega

theorem lruMoveToTail_shape_mem {s : LRUCache K V} {ids : List Nat} {nid : Nat}
    (hShape : LruShape s ids) (hmem : nid ∈ ids) :
    ∃ ids', LruShape (lruMoveToTail s nid) ids' ∧
      (∀ j, j ∈ ids' ↔ j ∈ ids) ∧ ids'.length = ids.length ∧
      (lruMoveToTail s nid).store.length = s.store.length ∧
      (lruMoveToTail s nid).cache = s.cache ∧
      (lruMoveToTail s nid).capacity = s.capacity ∧
      (lruMoveToTail s nid).stopped = s.stopped ∧
      (∀ j, (lnodeAt (lruMoveToTail s nid).store j).key = (lnodeAt s.store j).key ∧
            (lnodeAt (lruMoveToTail s nid).store j).value = (lnodeAt s.store j).value) := by
  by_cases htail : s.tail = some nid
  · have heq : lruMoveToTail s nid = s := by rw [lruMoveToTail, if_pos htail]
    rw [heq]
    exact ⟨ids, hShape, fun j => Iff.rfl, rfl, rfl, rfl, rfl, rfl, fun j => ⟨rfl, rfl⟩⟩
  · rw [lruMoveToTail_spec htail]
    obtain ⟨pre, post, hdecomp⟩ := List.append_of_mem hmem
    subst hdecomp
    have hnd := hShape.nodup_ids
    have hbound := chainUpto_bound hShape.chain_ids
    have hnidlt : nid < s.store.length := hbound nid hmem
    have hnid_notpre : nid ∉ pre := by
      have h := hnd
      rw [List.nodup_append] at h
      exact fun hh => h.2.2 hh (List.mem_cons_self _ _)
    have hnid_notpost : nid ∉ post := by
      have h := hnd
      rw [List.nodup_append] at h
      have h2 := h.2.1
      rw [List.nodup_cons] at h2
      exact h2.1
    have hdisj : List.Disjoint pre (nid :: post) := by
      have h := hnd
      rw [List.nodup_append] at h
      exact h.2.2
    have hnodup_pre : pre.Nodup := by
      have h := hnd
      rw [List.nodup_append] at h
      exact h.1
    have hnodup_post : post.Nodup := by
      have h := hnd
      rw [List.nodup_append] at h
      have h2 := h.2.1
      rw [List.nodup_cons] at h2
      exact h2.2
    have hpost_ne : post ≠ [] := by
      intro hh
      subst hh
      exact htail (hShape.tail_last nid (by rw [endPtr_concat]))
    obtain ⟨n1, post', hpost⟩ := List.exists_cons_of_ne_nil hpost_ne
    subst hpost
    obtain ⟨post₀, tl, hpost₀⟩ := (n1 :: post').eq_nil_or_concat'.resolve_left (by simp)
    have htl_tail : s.tail = some tl := by
      apply hShape.tail_last
      show endPtr none (pre ++ nid :: n1 :: post') = some tl
      rw [endPtr_append, endPtr_cons, hpost₀, endPtr_concat]
    have htl_mem : tl ∈ n1 :: post' := by rw [hpost₀]; simp
    have htllt : tl < s.store.length :=
      hbound tl (List.mem_append.mpr (Or.inr (List.mem_cons_of_mem _ htl_mem)))
    have htlnid : tl ≠ nid := fun hh => hnid_notpost (hh ▸ htl_mem)
    obtain ⟨mid, hpre_ch, hmid_ch⟩ := chainUpto_append.mp hShape.chain_ids
    obtain ⟨hmid_eq, hnidlt2, hpost_ch⟩ := hmid_ch
    obtain ⟨hnn, hn1lt, hpost_ch'⟩ := hpost_ch
    have hnn' : (lnodeAt s.store nid).next = some n1 := hnn
    obtain ⟨hp, hprev, hhpsafe⟩ := hShape.prev_ids
    rw [prevFrom_append] at hprev
    obtain ⟨hprev_pre, hprev_mid⟩ := hprev
    obtain ⟨hnp_eq, hn1p, hprev_post'⟩ := hprev_mid
    have hnp_eq' : (lnodeAt s.store nid).prev = endPtr hp pre := hnp_eq
    have hnp_shape : ((lnodeAt s.store nid).prev = hp ∧ pre = []) ∨
        (∃ p, (lnodeAt s.store nid).prev = some p ∧ p ∈ pre) := by
      cases pre with
      | nil => exact Or.inl ⟨hnp_eq', rfl⟩
      | cons a pre'' =>
        obtain ⟨p, hp1, hp2⟩ := endPtr_cons_some (some a) a pre''
        refine Or.inr ⟨p, ?_, hp2⟩
        rw [hnp_eq']
        rw [endPtr_cons]
        rw [endPtr_cons] at hp1
        exact hp1
    have hnp_not : ∀ j, j ∈ nid :: n1 :: post' → (lnodeAt s.store nid).prev ≠ some j := by
      intro j hj hcon
      rcases hnp_shape with ⟨h1, _⟩ | ⟨p, h1, h2⟩
      · rw [h1] at hcon
        obtain ⟨hq1, _⟩ := hhpsafe j hcon
        exact hq1 (List.mem_append.mpr (Or.inr hj))
      · rw [h1] at hcon
        obtain rfl := Option.some.inj hcon
        exact hdisj h2 hj
    have hnextF := lruUnlinkRelink_next_A hnn' htl_tail hnidlt htllt htlnid
    have hprevF := lruUnlinkRelink_prev_A hnn' htl_tail hnidlt htllt htlnid
    have hlenF : (lruUnlinkRelink s nid).length = s.store.length :=
      lruUnlinkRelink_length s nid
    have hnodup_mid : (n1 :: post').Nodup := hnodup_post
    have hkv := lruUnlinkRelink_keyval s nid
    refine ⟨pre ++ ((n1 :: post') ++ [nid]), ?_, ?_, ?_, hlenF, rfl, rfl, rfl, hkv⟩
    · -- the new shape
      have hchain1 : chainUpto (fun j => (lnodeAt (lruUnlinkRelink s nid) j).next)
          s.store.length (lruMoveHead s nid) pre (some n1) := by
        cases hpre0 : pre with
        | nil =>
          have hhd : s.head = some nid := by
            rw [hpre0] at hpre_ch
            exact hmid_eq ▸ hpre_ch.symm
          show some n1 = lruMoveHead s nid
          rw [lruMoveHead, if_pos hhd, hnn']
        | cons a pre'' =>
          have hhd : s.head = some a := by
            rw [hpre0] at hpre_ch
            exact hpre_ch.1
          have hanid : a ≠ nid := fun hh =>
            hnid_notpre (hpre0 ▸ (hh ▸ List.mem_cons_self a pre''))
          have hhead' : lruMoveHead s nid = s.head := by
            rw [lruMoveHead, if_neg (by rw [hhd]; exact fun hh => hanid (Option.some.inj hh)),
                hhd]
          rw [hhead', ← hpre0]
          obtain ⟨pre₁, lastp, hpre₁⟩ := pre.eq_nil_or_concat'.resolve_left (by rw [hpre0]; simp)
          have hnp_lastp : (lnodeAt s.store nid).prev = some lastp := by
            rw [hnp_eq', hpre₁, endPtr_concat]
          have hlastp_mem : lastp ∈ pre := by rw [hpre₁]; simp
          rw [hpre₁]
          rw [hpre₁] at hpre_ch
          obtain ⟨mid₁, hpre₁ch, hlaststep⟩ := chainUpto_append.mp hpre_ch
          obtain ⟨hmid₁eq, hlastlt, hlastnext⟩ := hlaststep
          have hlastnext' : (lnodeAt s.store lastp).next = some nid := by
            have := hlastnext
            rw [hmid_eq] at this
            exact this.symm
          apply chainUpto_append.mpr
          refine ⟨some lastp, ?_, ?_⟩
          · -- untouched prefix
            refine chainUpto_frame ?_ le_rfl (hmid₁eq ▸ hpre₁ch)
            intro j hj
            have hjpre : j ∈ pre := by rw [hpre₁]; exact List.mem_append.mpr (Or.inl hj)
            have hjlt : j < s.store.length :=
              hbound j (List.mem_append.mpr (Or.inl hjpre))
            have hjnid : j ≠ nid := fun hh => hnid_notpre (hh ▸ hjpre)
            have hjtl : j ≠ tl := fun hh =>
              hdisj hjpre (hh ▸ List.mem_cons_of_mem _ htl_mem)
            have hjlastp : j ≠ lastp := by
              intro hh
              have h := hnodup_pre
              rw [hpre₁, List.nodup_append] at h
              exact h.2.2 hj (by simp [hh])
            rw [hnextF j hjlt, if_neg hjnid, if_neg hjtl,
                if_neg (by rw [hnp_lastp]; exact fun hh => hjlastp (Option.some.inj hh).symm)]
            rfl
          · refine ⟨rfl, hlastlt, ?_⟩
            show some n1 = (lnodeAt (lruUnlinkRelink s nid) lastp).next
            have hlastnid : lastp ≠ nid := fun hh => hnid_notpre (hh ▸ hlastp_mem)
            have hlasttl : lastp ≠ tl := fun hh =>
              hdisj hlastp_mem (hh ▸ List.mem_cons_of_mem _ htl_mem)
            rw [hnextF lastp hlastlt, if_neg hlastnid, if_neg hlasttl,
                if_pos hnp_lastp]
      have hpostC : chainUpto (lruNxt s) s.store.length
          (some n1) (n1 :: post') none := ⟨rfl, hn1lt, hpost_ch'⟩
      have hchain2 : chainUpto (fun j => (lnodeAt (lruUnlinkRelink s nid) j).next)
          s.store.length (some n1) ((n1 :: post') ++ [nid]) none := by
        rw [hpost₀]
        rw [hpost₀] at hpostC
        obtain ⟨mid₂, hpost₀ch, htlstep⟩ := chainUpto_append.mp hpostC
        obtain ⟨hmid₂eq, htllt2, _⟩ := htlstep
        rw [List.append_assoc]
        apply chainUpto_append.mpr
        refine ⟨some tl, ?_, ?_⟩
        · refine chainUpto_frame ?_ le_rfl (hmid₂eq ▸ hpost₀ch)
          intro j hj
          have hjmid : j ∈ n1 :: post' := by rw [hpost₀]; exact List.mem_append.mpr (Or.inl hj)
          have hjlt : j < s.store.length :=
            hbound j (List.mem_append.mpr (Or.inr (List.mem_cons_of_mem _ hjmid)))
          have hjnid : j ≠ nid := fun hh => hnid_notpost (hh ▸ hjmid)
          have hjtl : j ≠ tl := by
            intro hh
            have h := hnodup_mid
            rw [hpost₀, List.nodup_append] at h
            exact h.2.2 hj (by simp [hh])
          rw [hnextF j hjlt, if_neg hjnid, if_neg hjtl,
              if_neg (hnp_not j (List.mem_cons_of_mem _ hjmid))]
          rfl
        · refine ⟨rfl, htllt, ?_, hnidlt, ?_⟩
          · show (lnodeAt (lruUnlinkRelink s nid) tl).next = some nid
            rw [hnextF tl htllt, if_neg htlnid, if_pos rfl]
          · show (none : Option Nat) = (lnodeAt (lruUnlinkRelink s nid) nid).next
            rw [hnextF nid hnidlt, if_pos rfl]
      refine { chain_ids := ?_, prev_ids := ?_, nodup_ids := ?_, tail_last := ?_,
               tail_lt := ?_ }
      · show chainUpto (fun j => (lnodeAt (lruUnlinkRelink s nid) j).next)
          (lruUnlinkRelink s nid).length (lruMoveHead s nid)
          (pre ++ ((n1 :: post') ++ [nid])) none
        rw [hlenF]
        exact chainUpto_append.mpr ⟨some n1, hchain1, hchain2⟩
      · refine ⟨hp, ?_, ?_⟩
        · apply prevFrom_append.mpr
          constructor
          · refine prevFrom_frame ?_ hprev_pre
            intro j hj
            have hjlt : j < s.store.length := hbound j (List.mem_append.mpr (Or.inl hj))
            have hjnid : j ≠ nid := fun hh => hnid_notpre (hh ▸ hj)
            have hjn1 : j ≠ n1 := by
              intro hh
              refine hdisj hj ?_
              rw [hh]
              exact List.mem_cons_of_mem _ (List.mem_cons_self _ _)
            show (lnodeAt (lruUnlinkRelink s nid) j).prev = (lnodeAt s.store j).prev
            rw [hprevF j hjlt, if_neg hjnid, if_neg hjn1]
          · apply prevFrom_append.mpr
            constructor
            · refine ⟨?_, ?_⟩
              · show (lnodeAt (lruUnlinkRelink s nid) n1).prev = endPtr hp pre
                rw [hprevF n1 hn1lt,
                    if_neg (show ¬ (n1 = nid) by
                      intro hh
                      refine hnid_notpost ?_
                      rw [← hh]
                      exact List.mem_cons_self n1 post'),
                    if_pos rfl, hnp_eq']
              · refine prevFrom_frame ?_ hprev_post'
                intro j hj
                have hjmid : j ∈ n1 :: post' := List.mem_cons_of_mem _ hj
                have hjlt : j < s.store.length :=
                  hbound j (List.mem_append.mpr (Or.inr (List.mem_cons_of_mem _ hjmid)))
                have hjnid : j ≠ nid := fun hh => hnid_notpost (hh ▸ hjmid)
                have hjn1 : j ≠ n1 := by
                  intro hh
                  have h := hnodup_mid
                  rw [List.nodup_cons] at h
                  exact h.1 (hh ▸ hj)
                show (lnodeAt (lruUnlinkRelink s nid) j).prev = (lnodeAt s.store j).prev
                rw [hprevF j hjlt, if_neg hjnid, if_neg hjn1]
            · refine ⟨?_, trivial⟩
              show (lnodeAt (lruUnlinkRelink s nid) nid).prev =
                endPtr (endPtr hp pre) (n1 :: post')
              rw [hprevF nid hnidlt, if_pos rfl, hpost₀, endPtr_concat]
        · intro q hq
          obtain ⟨hq1, hq2⟩ := hhpsafe q hq
          refine ⟨?_, by rw [hlenF]; exact hq2⟩
          intro hh
          apply hq1
          rcases List.mem_append.mp hh with h1 | h1
          · exact List.mem_append.mpr (Or.inl h1)
          · rcases List.mem_append.mp h1 with h2 | h2
            · exact List.mem_append.mpr (Or.inr (List.mem_cons_of_mem _ h2))
            · obtain rfl : q = nid := by simpa using h2
              exact List.mem_append.mpr (Or.inr (List.mem_cons_self _ _))
      · have h1 : (pre ++ (n1 :: post')).Nodup :=
          ((List.sublist_cons_self nid (n1 :: post')).append_left pre).nodup hnd
        rw [← List.append_assoc, List.nodup_append]
        refine ⟨h1, by simp, ?_⟩
        intro a ha hb
        simp at hb
        subst hb
        rcases List.mem_append.mp ha with h2 | h2
        · exact hnid_notpre h2
        · exact hnid_notpost h2
      · intro j hj
        rw [← List.append_assoc, endPtr_concat] at hj
        obtain rfl := Option.some.inj hj
        rfl
      · intro t ht
        obtain rfl := Option.some.inj ht
        rw [hlenF]
        exact hnidlt
    · intro j
      simp only [List.mem_append, List.mem_cons]
      tauto
    · simp only [List.length_append, List.length_cons, List.length_nil]

/-- moveToTail on a freshly appended node (prev and next nil, not on the
chain, not the tail): the node becomes the new last element of the chain.
The prev-witness `hp` of the original shape is taken as an explicit
hypothesis so that its bound can exclude the fresh index. -/
theorem lruMoveToTail_shape_fresh {s : LRUCache K V} {ids : List Nat} {nid : Nat}
    {hp : Option Nat}
    (hchain : chain (lruNxt s) s.store.length s.head ids)
    (hprev : prevFrom (lruPrv s) hp ids)
    (hhp : ∀ q, hp = some q → q ∉ ids ∧ q < s.store.length ∧ q ≠ nid)
    (hnodup : ids.Nodup)
    (htail_last : ∀ j, endPtr none ids = some j → s.tail = some j)
    (htail_lt : ∀ t, s.tail = some t → t < s.store.length)
    (hnn : (lnodeAt s.store nid).next = none)
    (hnp : (lnodeAt s.store nid).prev = none)
    (hnidlt : nid < s.store.length)
    (hnotmem : nid ∉ ids)
    (htne : s.tail ≠ some nid) :
    LruShape (lruMoveToTail s nid) (ids ++ [nid]) ∧
      (lruMoveToTail s nid).store.length = s.store.length ∧
      (lruMoveToTail s nid).cache = s.cache ∧
      (lruMoveToTail s nid).capacity = s.capacity ∧
      (lruMoveToTail s nid).stopped = s.stopped ∧
      (∀ j, (lnodeAt (lruMoveToTail s nid).store j).key = (lnodeAt s.store j).key ∧
            (lnodeAt (lruMoveToTail s nid).store j).value = (lnodeAt s.store j).value) := by
  rw [lruMoveToTail_spec htne]
  have hlenF : (lruUnlinkRelink s nid).length = s.store.length :=
    lruUnlinkRelink_length s nid
  have hnid_next : (lnodeAt (lruUnlinkRelink s nid) nid).next = none := by
    cases htl : s.tail with
    | none => rw [lruUnlinkRelink_next_C hnn hnp htl hnidlt nid hnidlt, if_pos rfl]
    | some t =>
      have htnid : t ≠ nid := fun hh => htne (hh ▸ htl)
      rw [lruUnlinkRelink_next_B hnn hnp htl hnidlt (htail_lt t htl) htnid nid hnidlt,
          if_pos rfl]
  have hnid_prev : (lnodeAt (lruUnlinkRelink s nid) nid).prev = s.tail := by
    cases htl : s.tail with
    | none => rw [lruUnlinkRelink_prev_C hnn hnp htl hnidlt nid hnidlt, if_pos rfl]
    | some t =>
      have htnid : t ≠ nid := fun hh => htne (hh ▸ htl)
      rw [lruUnlinkRelink_prev_B hnn hnp htl hnidlt (htail_lt t htl) htnid nid hnidlt,
          if_pos rfl]
  have hprev_frame : ∀ j, j < s.store.length → j ≠ nid →
      (lnodeAt (lruUnlinkRelink s nid) j).prev = (lnodeAt s.store j).prev := by
    intro j hj hjn
    cases htl : s.tail with
    | none => rw [lruUnlinkRelink_prev_C hnn hnp htl hnidlt j hj, if_neg hjn]
    | some t =>
      have htnid : t ≠ nid := fun hh => htne (hh ▸ htl)
      rw [lruUnlinkRelink_prev_B hnn hnp htl hnidlt (htail_lt t htl) htnid j hj,
          if_neg hjn]
  have hnext_frame : ∀ j, j < s.store.length → j ≠ nid → s.tail ≠ some j →
      (lnodeAt (lruUnlinkRelink s nid) j).next = (lnodeAt s.store j).next := by
    intro j hj hjn hjt
    cases htl : s.tail with
    | none => rw [lruUnlinkRelink_next_C hnn hnp htl hnidlt j hj, if_neg hjn]
    | some t =>
      have htnid : t ≠ nid := fun hh => htne (hh ▸ htl)
      have hjt2 : j ≠ t := by
        intro hh
        refine hjt ?_
        rw [htl, hh]
      rw [lruUnlinkRelink_next_B hnn hnp htl hnidlt (htail_lt t htl) htnid j hj,
          if_neg hjn, if_neg hjt2]
  have htail_next : ∀ t, s.tail = some t →
      (lnodeAt (lruUnlinkRelink s nid) t).next = some nid := by
    intro t htl
    have htnid : t ≠ nid := fun hh => htne (hh ▸ htl)
    rw [lruUnlinkRelink_next_B hnn hnp htl hnidlt (htail_lt t htl) htnid t (htail_lt t htl),
        if_neg htnid, if_pos rfl]
  rcases List.eq_nil_or_concat' ids with rfl | ⟨post₀, t, rfl⟩
  · have hhead : s.head = none := (chainUpto_nil.mp hchain).symm
    have hmh : lruMoveHead s nid = some nid := by
      simp [lruMoveHead, hhead]
    refine ⟨?_, hlenF, rfl, rfl, rfl, fun j => lruUnlinkRelink_keyval s nid j⟩
    rw [List.nil_append]
    refine { chain_ids := ?_, prev_ids := ?_,
             nodup_ids := List.nodup_singleton nid,
             tail_last := ?_, tail_lt := ?_ }
    · refine ⟨hmh, ?_, ?_⟩
      · show nid < (lruUnlinkRelink s nid).length
        rw [hlenF]
        exact hnidlt
      · show (none : Option Nat) = (lnodeAt (lruUnlinkRelink s nid) nid).next
        rw [hnid_next]
    · refine ⟨s.tail, ⟨?_, trivial⟩, ?_⟩
      · show (lnodeAt (lruUnlinkRelink s nid) nid).prev = s.tail
        exact hnid_prev
      · intro q hq
        refine ⟨?_, ?_⟩
        · intro hqmem
          have hqn : q = nid := by simpa using hqmem
          exact htne (hqn ▸ hq)
        · show q < (lruUnlinkRelink s nid).length
          rw [hlenF]
          exact htail_lt q hq
    · intro j hj
      obtain rfl := Option.some.inj hj
      rfl
    · intro t2 ht2
      obtain rfl := Option.some.inj ht2
      show nid < (lruUnlinkRelink s nid).length
      rw [hlenF]
      exact hnidlt
  · have htlt : s.tail = some t := htail_last t (endPtr_concat none post₀ t)
    have htlt_lt : t < s.store.length := htail_lt t htlt
    have htnid : t ≠ nid := by
      intro hh
      refine htne ?_
      rw [htlt, hh]
    have hbound : ∀ j ∈ post₀ ++ [t], j < s.store.length := chainUpto_bound hchain
    have htnotin : t ∉ post₀ := by
      have h := hnodup
      rw [List.nodup_append] at h
      exact fun hh => h.2.2 hh (by simp)
    obtain ⟨a, l, hc⟩ : ∃ a l, post₀ ++ [t] = a :: l := by
      cases post₀ with
      | nil => exact ⟨t, [], rfl⟩
      | cons p r => exact ⟨p, r ++ [t], by simp⟩
    have hchainc : chainUpto (lruNxt s) s.store.length s.head (a :: l) none := by
      rw [← hc]
      exact hchain
    have hheadeq : s.head = some a := hchainc.1
    have hane : a ≠ nid := by
      intro hh
      refine hnotmem ?_
      rw [← hh, hc]
      exact List.mem_cons_self _ _
    have hmh : lruMoveHead s nid = s.head := by
      simp [lruMoveHead, hheadeq, hane]
    obtain ⟨mid, hpre_ch, hlast_ch⟩ := chainUpto_append.mp hchain
    obtain ⟨hmid_eq, htlt3, hnone_eq⟩ := hlast_ch
    refine ⟨?_, hlenF, rfl, rfl, rfl, fun j => lruUnlinkRelink_keyval s nid j⟩
    refine { chain_ids := ?_, prev_ids := ?_, nodup_ids := ?_,
             tail_last := ?_, tail_lt := ?_ }
    · show chainUpto (fun j => (lnodeAt (lruUnlinkRelink s nid) j).next)
        (lruUnlinkRelink s nid).length (lruMoveHead s nid) ((post₀ ++ [t]) ++ [nid]) none
      rw [hmh, hlenF]
      refine chainUpto_append.mpr ⟨some nid, ?_, ?_⟩
      · refine chainUpto_append.mpr ⟨some t, ?_, ?_⟩
        · have hpre_ch2 : chainUpto (lruNxt s) s.store.length s.head post₀ (some t) := by
            rw [← hmid_eq]
            exact hpre_ch
          refine chainUpto_frame ?_ le_rfl hpre_ch2
          intro j hj
          have hjlt : j < s.store.length :=
            hbound j (List.mem_append.mpr (Or.inl hj))
          have hjnid : j ≠ nid := by
            intro hh
            exact hnotmem (hh ▸ List.mem_append.mpr (Or.inl hj))
          have hjtl : s.tail ≠ some j := by
            intro hh
            rw [htlt] at hh
            exact htnotin ((Option.some.inj hh) ▸ hj)
          exact hnext_frame j hjlt hjnid hjtl
        · refine ⟨rfl, htlt_lt, ?_⟩
          show (some nid : Option Nat) = (lnodeAt (lruUnlinkRelink s nid) t).next
          rw [htail_next t htlt]
      · refine ⟨rfl, hnidlt, ?_⟩
        show (none : Option Nat) = (lnodeAt (lruUnlinkRelink s nid) nid).next
        rw [hnid_next]
    · refine ⟨hp, ?_, ?_⟩
      · apply prevFrom_append.mpr
        refine ⟨?_, ?_⟩
        · refine prevFrom_frame ?_ hprev
          intro j hj
          have hjlt : j < s.store.length := hbound j hj
          have hjnid : j ≠ nid := fun hh => hnotmem (hh ▸ hj)
          exact hprev_frame j hjlt hjnid
        · rw [endPtr_concat]
          refine ⟨?_, trivial⟩
          show (lnodeAt (lruUnlinkRelink s nid) nid).prev = some t
          rw [hnid_prev, htlt]
      · intro q hq
        obtain ⟨hq1, hq2, hq3⟩ := hhp q hq
        refine ⟨?_, ?_⟩
        · intro hmem
          rcases List.mem_append.mp hmem with h1 | h1
          · exact hq1 h1
          · exact hq3 (by simpa using h1)
        · show q < (lruUnlinkRelink s nid).length
          rw [hlenF]
          exact hq2
    · refine List.nodup_append.mpr ⟨hnodup, by simp, ?_⟩
      intro x hx hx2
      have hxn : x = nid := by simpa using hx2
      exact hnotmem (hxn ▸ hx)
    · intro j hj
      rw [endPtr_concat] at hj
      obtain rfl := Option.some.inj hj
      rfl
    · intro t2 ht2
      obtain rfl := Option.some.inj ht2
      show nid < (lruUnlinkRelink s nid).length
      rw [hlenF]
      exact hnidlt


theorem lruSet_WF {s : LRUCache K V} {k : K} {v : V} (h : LruWF s) :
    ∃ s', lruSet s k v = some s' ∧ LruWF s' ∧ s'.capacity = s.capacity := by
  obtain ⟨hstop, ids, hInv⟩ := h
  have phase1 : ∃ s1 ids1,
      (if (s.cache.length : Int) ≥ s.capacity then lruEvict s else some s) = some s1 ∧
      LruInv s1 ids1 ∧ (s1.cache.length : Int) < s1.capacity ∧
      s1.stopped = s.stopped ∧ s1.capacity = s.capacity := by
    by_cases hcap : (s.cache.length : Int) ≥ s.capacity
    · have hle := hInv.len_eq
      have hcp := hInv.cap_pos
      have hsz := hInv.size_le
      have hids : ids ≠ [] := by
        intro hh
        rw [hh] at hle
        simp at hle
        rw [hle] at hcap
        simp at hcap
        omega
      obtain ⟨i0, rest, hcons⟩ := List.exists_cons_of_ne_nil hids
      subst hcons
      obtain ⟨s1, hevict, hinv1, hlen1, hcapeq, hstopeq, _, _⟩ := lruEvict_inv hInv
      rw [if_pos hcap]
      refine ⟨s1, rest, hevict, hinv1, ?_, hstopeq, hcapeq⟩
      have hcast : (s1.cache.length : Int) + 1 = (s.cache.length : Int) := by
        exact_mod_cast congrArg (Nat.cast : Nat → Int) hlen1
      rw [hcapeq]
      omega
    · rw [if_neg hcap]
      exact ⟨s, ids, rfl, hInv, by omega, rfl, rfl⟩
  obtain ⟨s1, ids1, hcond, hInv1, hlt, hstop1, hcap1⟩ := phase1
  have hstop1' : s1.stopped = false := hstop1.trans hstop
  rw [lruSet, if_neg (by rw [hstop]; simp)]
  rw [hcond, Option.some_bind]
  cases hget : mapGet s1.cache k with
  | some i =>
    -- Overwrite in place, then promote the node to the tail.
    simp only [hget]
    have hmemk : (k, i) ∈ s1.cache := mapGet_mem hget
    obtain ⟨hiin, hikey⟩ := hInv1.cache_ids (k, i) hmemk
    set s3 : LRUCache K V :=
      { s1 with store := s1.store.set i { lnodeAt s1.store i with value := v } } with hs3
    have hlen3 : s3.store.length = s1.store.length := by
      show (s1.store.set i _).length = s1.store.length
      simp
    have hpt : ∀ j, (lnodeAt s3.store j).next = (lnodeAt s1.store j).next ∧
        (lnodeAt s3.store j).prev = (lnodeAt s1.store j).prev ∧
        (lnodeAt s3.store j).key = (lnodeAt s1.store j).key := by
      intro j
      show (lnodeAt (s1.store.set i _) j).next = _ ∧
        (lnodeAt (s1.store.set i _) j).prev = _ ∧
        (lnodeAt (s1.store.set i _) j).key = _
      rw [lnodeAt_set]
      by_cases hj : i = j ∧ i < s1.store.length
      · rw [if_pos hj, hj.1]
        exact ⟨rfl, rfl, rfl⟩
      · rw [if_neg hj]
        exact ⟨rfl, rfl, rfl⟩
    have hShape3 : LruShape s3 ids1 := by
      obtain ⟨hp1, hprev1, hsafe1⟩ := hInv1.shape.prev_ids
      refine { chain_ids := ?_, prev_ids := ⟨hp1, ?_, ?_⟩,
               nodup_ids := hInv1.shape.nodup_ids,
               tail_last := hInv1.shape.tail_last, tail_lt := ?_ }
      · show chainUpto (lruNxt s3) s3.store.length s3.head ids1 none
        rw [hlen3]
        exact chainUpto_frame (fun j _ => (hpt j).1) le_rfl hInv1.shape.chain_ids
      · exact prevFrom_frame (fun j _ => (hpt j).2.1) hprev1
      · intro q hq
        obtain ⟨hq1, hq2⟩ := hsafe1 q hq
        refine ⟨hq1, ?_⟩
        rw [hlen3]
        exact hq2
      · intro t ht
        rw [hlen3]
        exact hInv1.shape.tail_lt t ht
    obtain ⟨ids', hShape', hmem', hlen', hlenS, hcache', hcap', hstop', hkv'⟩ :=
      lruMoveToTail_shape_mem hShape3 hiin
    refine ⟨lruMoveToTail s3 i, rfl, ⟨?_, ids', ?_⟩, ?_⟩
    · rw [hstop']
      exact hstop1'
    · refine { shape := hShape', cache_ids := ?_, ids_cache := ?_, nodup_keys := ?_,
               len_eq := ?_, size_le := ?_, cap_pos := ?_ }
      · intro p hp
        rw [hcache'] at hp
        have hp2 : p ∈ s1.cache := hp
        obtain ⟨h1, h2⟩ := hInv1.cache_ids p hp2
        refine ⟨(hmem' p.2).mpr h1, ?_⟩
        rw [(hkv' p.2).1, (hpt p.2).2.2]
        exact h2
      · intro j hj
        have hj1 : j ∈ ids1 := (hmem' j).mp hj
        obtain ⟨kk, h1, h2⟩ := hInv1.ids_cache j hj1
        refine ⟨kk, ?_, ?_⟩
        · rw [(hkv' j).1, (hpt j).2.2]
          exact h1
        · rw [hcache']
          exact h2
      · rw [hcache']
        exact hInv1.nodup_keys
      · rw [hcache', hlen']
        exact hInv1.len_eq
      · rw [hcache', hcap']
        exact le_of_lt hlt
      · rw [hcap']
        exact hInv1.cap_pos
    · rw [hcap']
      exact hcap1
  | none =>
    -- Brand-new key: append a fresh node, set its value, link it at the tail.
    simp only [hget]
    have hbound : ∀ j ∈ ids1, j < s1.store.length :=
      chainUpto_bound hInv1.shape.chain_ids
    have hknotin : k ∉ s1.cache.map Prod.fst := by
      intro hh
      obtain ⟨p, hp1, hp2⟩ := List.mem_map.mp hh
      obtain ⟨k2, i2⟩ := p
      obtain rfl : k2 = k := hp2
      rw [mapGet_of_mem hInv1.nodup_keys hp1] at hget
      exact absurd hget (by simp)
    set i : Nat := s1.store.length with hi
    have hinotin : i ∉ ids1 := fun hh => absurd (hbound i hh) (by omega)
    set newNode : LruListItem K V := ⟨none, none, some k, default⟩ with hnew
    set s2 : LRUCache K V :=
      { s1 with store := s1.store ++ [newNode], cache := mapInsert s1.cache k i } with hs2
    set s3 : LRUCache K V :=
      { s2 with store := s2.store.set i { lnodeAt s2.store i with value := v } } with hs3
    have hlen3 : s3.store.length = s1.store.length + 1 := by
      show ((s1.store ++ [newNode]).set i _).length = s1.store.length + 1
      simp
    have hF_i : lnodeAt s3.store i = ⟨none, none, some k, v⟩ := by
      have h1 : lnodeAt s2.store i = newNode := lnodeAt_append_len s1.store newNode
      show lnodeAt (s2.store.set i _) i = _
      rw [lnodeAt_set,
          if_pos ⟨rfl, by show i < (s1.store ++ [newNode]).length; simp⟩, h1]
    have hF_old : ∀ j, j < s1.store.length →
        lnodeAt s3.store j = lnodeAt s1.store j := by
      intro j hj
      have hji : i ≠ j := by omega
      show lnodeAt (s2.store.set i _) j = _
      rw [lnodeAt_set, if_neg (fun hh => hji hh.1)]
      exact lnodeAt_append_lt s1.store [newNode] j hj
    obtain ⟨hp1, hprev1, hsafe1⟩ := hInv1.shape.prev_ids
    have hchain3 : chain (lruNxt s3) s3.store.length s3.head ids1 := by
      show chainUpto (lruNxt s3) s3.store.length s3.head ids1 none
      rw [hlen3]
      refine chainUpto_frame ?_ (by omega) hInv1.shape.chain_ids
      intro j hj
      show (lnodeAt s3.store j).next = (lnodeAt s1.store j).next
      rw [hF_old j (hbound j hj)]
    have hprev3 : prevFrom (lruPrv s3) hp1 ids1 := by
      refine prevFrom_frame ?_ hprev1
      intro j hj
      show (lnodeAt s3.store j).prev = (lnodeAt s1.store j).prev
      rw [hF_old j (hbound j hj)]
    have hhp3 : ∀ q, hp1 = some q → q ∉ ids1 ∧ q < s3.store.length ∧ q ≠ i := by
      intro q hq
      obtain ⟨hq1, hq2⟩ := hsafe1 q hq
      refine ⟨hq1, by rw [hlen3]; omega, by omega⟩
    have htail_last3 : ∀ j, endPtr none ids1 = some j → s3.tail = some j :=
      hInv1.shape.tail_last
    have htail_lt3 : ∀ t, s3.tail = some t → t < s3.store.length := by
      intro t ht
      rw [hlen3]
      have := hInv1.shape.tail_lt t ht
      omega
    have hnn3 : (lnodeAt s3.store i).next = none := by rw [hF_i]
    have hnp3 : (lnodeAt s3.store i).prev = none := by rw [hF_i]
    have hilt3 : i < s3.store.length := by rw [hlen3]; omega
    have htne3 : s3.tail ≠ some i := by
      intro hh
      have := hInv1.shape.tail_lt i hh
      omega
    obtain ⟨hShape', hlenS, hcache', hcap', hstop', hkv'⟩ :=
      lruMoveToTail_shape_fresh hchain3 hprev3 hhp3 hInv1.shape.nodup_ids
        htail_last3 htail_lt3 hnn3 hnp3 hilt3 hinotin htne3
    refine ⟨lruMoveToTail s3 i, rfl, ⟨?_, ids1 ++ [i], ?_⟩, ?_⟩
    · rw [hstop']
      exact hstop1'
    · refine { shape := hShape', cache_ids := ?_, ids_cache := ?_, nodup_keys := ?_,
               len_eq := ?_, size_le := ?_, cap_pos := ?_ }
      · intro p hp
        rw [hcache'] at hp
        have hp2 : p ∈ mapInsert s1.cache k i := hp
        rcases mem_mapInsert_elim hInv1.nodup_keys hp2 with ⟨h1, h2⟩ | ⟨h1, h2⟩
        · refine ⟨by simp [h2], ?_⟩
          rw [(hkv' p.2).1, h2, hF_i, h1]
        · obtain ⟨h3, h4⟩ := hInv1.cache_ids p h1
          refine ⟨by simp [h3], ?_⟩
          rw [(hkv' p.2).1, hF_old p.2 (hbound p.2 h3)]
          exact h4
      · intro j hj
        rcases List.mem_append.mp hj with h1 | h1
        · obtain ⟨kk, h2, h3⟩ := hInv1.ids_cache j h1
          have hkkne : kk ≠ k := by
            intro hh
            exact hknotin (hh ▸ List.mem_map.mpr ⟨(kk, j), h3, rfl⟩)
          refine ⟨kk, ?_, ?_⟩
          · rw [(hkv' j).1, hF_old j (hbound j h1)]
            exact h2
          · rw [hcache']
            exact mem_mapInsert_of_mem h3 hkkne
        · obtain rfl : j = i := by simpa using h1
          refine ⟨k, ?_, ?_⟩
          · rw [(hkv' i).1, hF_i]
          · rw [hcache']
            exact mem_mapInsert_self s1.cache k i
      · rw [hcache']
        exact nodup_keys_mapInsert k i hInv1.nodup_keys
      · rw [hcache']
        show (mapInsert s1.cache k i).length = (ids1 ++ [i]).length
        rw [length_mapInsert_of_get_none i hget]
        simp [hInv1.len_eq]
      · rw [hcache', hcap']
        show ((mapInsert s1.cache k i).length : Int) ≤ s3.capacity
        rw [length_mapInsert_of_get_none i hget]
        have hcast : ((s1.cache.length + 1 : Nat) : Int) = (s1.cache.length : Int) + 1 := by
          push_cast
          ring
        rw [hcast]
        show (s1.cache.length : Int) + 1 ≤ s1.capacity
        omega
      · rw [hcap']
        exact hInv1.cap_pos
    · rw [hcap']
      exact hcap1

theorem lruApply_WF {s : LRUCache K V} {ops : List (K × V)} (h : LruWF s) :
    ∃ s', lruApply s ops = some s' ∧ LruWF s' ∧ s'.capacity = s.capacity := by
  induction ops generalizing s with
  | nil => exact ⟨s, rfl, h, rfl⟩
  | cons op rest ih =>
    obtain ⟨k, v⟩ := op
    obtain ⟨s1, h1, h2, h3⟩ := @lruSet_WF K V _ _ _ s k v h
    obtain ⟨s', h4, h5, h6⟩ := ih h2
    refine ⟨s', ?_, h5, h6.trans h3⟩
    show (lruSet s k v).bind (fun s2 => lruApply s2 rest) = some s'
    rw [h1, Option.some_bind]
    exact h4

theorem runLRU_capacity {cap : Int} {ops : List (K × V)} {s : LRUCache K V}
    (h : runLRU cap ops = some s) : (s.cache.length : Int) ≤ cap := by
  rw [runLRU] at h
  cases hnew : (newLRU cap : Option (LRUCache K V)) with
  | none =>
    rw [hnew] at h
    simp at h
  | some s0 =>
    rw [hnew, Option.some_bind] at h
    obtain ⟨hwf, hcap⟩ := newLRU_WF hnew
    obtain ⟨s', h1, h2, h3⟩ := @lruApply_WF K V _ _ _ s0 ops hwf
    rw [h1] at h
    obtain rfl := Option.some.inj h
    obtain ⟨_, ids, hInv⟩ := h2
    rw [← hcap, ← h3]
    exact hInv.size_le

end LruWFSection

/-! ## Frame lemmas used by the claim theorems -/

section FrameLemmas

variable {K V E : Type} [DecidableEq K] [DecidableEq V] [Inhabited V]

theorem tnodeAt_set (store : List (TtlListItem K V)) (i j : Nat) (n : TtlListItem K V) :
    tnodeAt (store.set i n) j =
      if i = j ∧ i < store.length then n else tnodeAt store j := by
  by_cases h1 : i = j
  · subst h1
    by_cases h2 : i < store.length
    · rw [if_pos ⟨rfl, h2⟩]
      exact getD_set_self store i n ttlZero h2
    · rw [List.set_eq_of_length_le (by omega), if_neg (fun hh => h2 hh.2)]
  · rw [if_neg (fun hh => h1 hh.1)]
    exact getD_set_ne store i j n ttlZero (fun hh => h1 hh.symm)

theorem tnodeAt_append_lt (store l : List (TtlListItem K V)) (j : Nat)
    (h : j < store.length) : tnodeAt (store ++ l) j = tnodeAt store j :=
  getD_append_lt store l j ttlZero h

theorem tnodeAt_append_len (store : List (TtlListItem K V)) (n : TtlListItem K V) :
    tnodeAt (store ++ [n]) store.length = n :=
  getD_append_len store n ttlZero

/-- Fields of the state after a successful FIFO eviction, without assuming
the full invariant: the flags are untouched, the store keeps its length and
the key map only loses entries. -/
theorem fifoEvict_weak {s s1 : FIFOCache K V} (h : fifoEvict s = some s1) :
    s1.stopped = s.stopped ∧ s1.capacity = s.capacity ∧
    s1.store.length = s.store.length ∧ ∀ p ∈ s1.cache, p ∈ s.cache := by
  rw [fifoEvict] at h
  cases hh : s.head with
  | none =>
    rw [hh] at h
    exact absurd h (by simp)
  | some hd =>
    cases hk : (fnodeAt s.store hd).key with
    | none =>
      simp only [hh, hk] at h
      exact absurd h (by simp)
    | some hkey =>
      simp only [hh, hk] at h
      obtain rfl := Option.some.inj h
      refine ⟨rfl, rfl, by simp, ?_⟩
      intro p hp
      exact (mem_mapDelete.mp hp).1

theorem lifoEvict_weak {s s1 : LIFOCache K V} (h : lifoEvict s = some s1) :
    s1.stopped = s.stopped ∧ s1.capacity = s.capacity ∧
    s1.store.length = s.store.length ∧ ∀ p ∈ s1.cache, p ∈ s.cache := by
  rw [lifoEvict] at h
  cases hh : s.head with
  | none =>
    rw [hh] at h
    exact absurd h (by simp)
  | some hd =>
    cases hk : (gnodeAt s.store hd).key with
    | none =>
      simp only [hh, hk] at h
      exact absurd h (by simp)
    | some hkey =>
      simp only [hh, hk] at h
      obtain rfl := Option.some.inj h
      refine ⟨rfl, rfl, by simp, ?_⟩
      intro p hp
      exact (mem_mapDelete.mp hp).1

theorem lruEvict_weak {s s1 : LRUCache K V} (h : lruEvict s = some s1) :
    s1.stopped = s.stopped ∧ s1.capacity = s.capacity ∧
    s1.store.length = s.store.length ∧ ∀ p ∈ s1.cache, p ∈ s.cache := by
  rw [lruEvict] at h
  cases hh : s.head with
  | none =>
    rw [hh] at h
    exact absurd h (by simp)
  | some hd =>
    cases hk : (lnodeAt s.store hd).key with
    | none =>
      simp only [hh, hk] at h
      exact absurd h (by simp)
    | some hkey =>
      cases hn : (lnodeAt s.store hd).next with
      | none =>
        simp only [hh, hk, hn] at h
        obtain rfl := Option.some.inj h
        refine ⟨rfl, rfl, by simp, ?_⟩
        intro p hp
        exact (mem_mapDelete.mp hp).1
      | some nx =>
        simp only [hh, hk, hn] at h
        obtain rfl := Option.some.inj h
        refine ⟨rfl, rfl, by simp, ?_⟩
        intro p hp
        exact (mem_mapDelete.mp hp).1

/-- moveToTail never touches the key map, the capacity, the stopped flag,
the arena size, or any node's key and value. -/
theorem lruMoveToTail_frame (s : LRUCache K V) (nid : Nat) :
    (lruMoveToTail s nid).cache = s.cache ∧
    (lruMoveToTail s nid).capacity = s.capacity ∧
    (lruMoveToTail s nid).stopped = s.stopped ∧
    (lruMoveToTail s nid).store.length = s.store.length ∧
    (∀ j, (lnodeAt (lruMoveToTail s nid).store j).key = (lnodeAt s.store j).key ∧
          (lnodeAt (lruMoveToTail s nid).store j).value = (lnodeAt s.store j).value) := by
  by_cases htail : s.tail = some nid
  · rw [lruMoveToTail, if_pos htail]
    exact ⟨rfl, rfl, rfl, rfl, fun j => ⟨rfl, rfl⟩⟩
  · rw [lruMoveToTail_spec htail]
    exact ⟨rfl, rfl, rfl, lruUnlinkRelink_length s nid,
           fun j => lruUnlinkRelink_keyval s nid j⟩

theorem fifoGet_found {s : FIFOCache K V} {k : K} {v : V} (i : Nat)
    (hstop : s.stopped = false) (hget : mapGet s.cache k = some i)
    (hval : (fnodeAt s.store i).value = v) :
    fifoGet s k = some (some v) := by
  rw [fifoGet, fifoGetS, if_neg (by rw [hstop]; simp)]
  simp [hget, hval]

theorem lifoGet_found {s : LIFOCache K V} {k : K} {v : V} (i : Nat)
    (hstop : s.stopped = false) (hget : mapGet s.cache k = some i)
    (hval : (gnodeAt s.store i).value = v) :
    lifoGet s k = some (some v) := by
  rw [lifoGet, lifoGetS, if_neg (by rw [hstop]; simp)]
  simp [hget, hval]

theorem randomGet_found {s : RandomCache K V} {k : K} {v : V}
    (hstop : s.stopped = false) (hget : mapGet s.cache k = some v) :
    randomGet s k = some (some v) := by
  rw [randomGet, randomGetS, if_neg (by rw [hstop]; simp)]
  simp [hget]

theorem lruGet_found {s : LRUCache K V} {k : K} {v : V} (i : Nat)
    (hstop : s.stopped = false) (hget : mapGet s.cache k = some i)
    (hval : (lnodeAt s.store i).value = v) :
    lruGet s k = some (some v) := by
  rw [lruGet, lruGetS, if_neg (by rw [hstop]; simp)]
  simp only [hget]
  have hmv : (lnodeAt (lruMoveToTail s i).store i).value = v :=
    (((lruMoveToTail_frame s i).2.2.2.2 i).2).trans hval
  simp [hmv]

theorem ttlGet_found {s : TTLCache K V} {k : K} {now : Int} {v : V} (i : Nat) (e : Int)
    (hstop : s.stopped = false) (hget : mapGet s.cache k = some i)
    (hexp : (tnodeAt s.store i).expiresAt = some e) (hnlt : ¬ e < now)
    (hval : (tnodeAt s.store i).value = v) :
    ttlGet s k now = some (some v) := by
  rw [ttlGet, ttlGetS, if_neg (by rw [hstop]; simp)]
  simp [hget, hexp, if_neg hnlt, hval]

end FrameLemmas

/-! ## The claims -/

section Claims

variable {K V E : Type} [DecidableEq K] [DecidableEq V] [Inhabited V]

/-- Claim C1 (corrected): in fifo.go and lifo.go the capacity check runs
before the key-existence check, so it applies to every Set, not only to
brand-new keys.  Strictly below capacity an overwriting Set changes only the
node's value (key map, pointers, head and tail untouched), but at capacity
even an overwriting Set first evicts the current head entry, as the two
concrete runs show: a FIFO of capacity 2 holding keys 1 and 2 loses key 1
when key 2 is overwritten, and a LIFO of capacity 2 holding keys 1 and 2
loses key 2 (its head) when key 1 is overwritten. -/
theorem C1_overwrite_set :
    (∀ (s : FIFOCache K V) (k : K) (v : V) (i : Nat),
      s.stopped = false → (s.cache.length : Int) < s.capacity →
      mapGet s.cache k = some i →
      fifoSet s k v =
        some { s with store := s.store.set i { fnodeAt s.store i with value := v } }) ∧
    (∀ (s : LIFOCache K V) (k : K) (v : V) (i : Nat),
      s.stopped = false → (s.cache.length : Int) < s.capacity →
      mapGet s.cache k = some i →
      lifoSet s k v =
        some { s with store := s.store.set i { gnodeAt s.store i with value := v } }) ∧
    ((runFIFO 2 [(1, 10), (2, 20), (2, 30)] : Option (FIFOCache Nat Nat)).bind
        (fun s => fifoGet s 1) = some none) ∧
    ((runLIFO 2 [(1, 10), (2, 20), (1, 99)] : Option (LIFOCache Nat Nat)).bind
        (fun s => lifoGet s 2) = some none) := by
  refine ⟨?_, ?_, by decide, by decide⟩
  · intro s k v i hstop hcap hget
    rw [fifoSet, if_neg (by rw [hstop]; simp), if_neg (not_le.mpr hcap),
        Option.some_bind]
    simp only [hget]
  · intro s k v i hstop hcap hget
    rw [lifoSet, if_neg (by rw [hstop]; simp), if_neg (not_le.mpr hcap),
        Option.some_bind]
    simp only [hget]

/-- Witness for C1 at a concrete input: a FIFO of capacity 2 holding only
key 1 is strictly below capacity, so overwriting key 1 with 99 changes only
that node's value. -/
theorem C1_overwrite_set_witness :
    fifoSet (⟨[⟨none, some 1, 2⟩], [(1, 0)], some 0, some 0, 2, false⟩ :
        FIFOCache Nat Nat) 1 99 =
      some ⟨[⟨none, some 1, 99⟩], [(1, 0)], some 0, some 0, 2, false⟩ := by
  have h := (@C1_overwrite_set Nat Nat _ _ _).1
    ⟨[⟨none, some 1, 2⟩], [(1, 0)], some 0, some 0, 2, false⟩ 1 99 0
    (by decide) (by decide) (by decide)
  rw [h]
  rfl

/-- Counterexample to C1 as stated: a FIFO cache of capacity 2 holds keys 1
and 2 (both retrievable), it is not stopped, and key 2 is already present;
yet Set(2, 30) evicts the entry for key 1, although the claim says an
overwriting Set never evicts regardless of capacity. -/
theorem C1_overwrite_set_counterexample :
    ((runFIFO 2 [(1, 10), (2, 20)] : Option (FIFOCache Nat Nat)).bind
        (fun s => fifoGet s 1) = some (some 10)) ∧
    ((runFIFO 2 [(1, 10), (2, 20)] : Option (FIFOCache Nat Nat)).bind
        (fun s => fifoGet s 2) = some (some 20)) ∧
    ((runFIFO 2 [(1, 10), (2, 20), (2, 30)] : Option (FIFOCache Nat Nat)).bind
        (fun s => fifoGet s 1) = some none) :=
  ⟨by decide, by decide, by decide⟩

/-- Claim C2 (code bug, list-ordered TTL variant): ttl.go's set reuses the
node already linked in the list and unconditionally appends it at the tail
again, without detaching it from its old position.  After Set(1)@0,
Set(2)@1, Set(1)@2 on a TTL-10 cache the index holds two keys, but the order
list walked from the head visits node 1, node 2, node 1, node 2, ... and the
expiry sequence along it is [12, 11, 12, 11]: not non-decreasing, violating
exactly the ordering assumption the sweeper's early-exit relies on. -/
theorem C2_ttl_set_reappend_breaks_order :
    ((runTTL 10 [(1, 101, 0), (2, 102, 1), (1, 103, 2)] :
        Option (TTLCache Nat Nat)).map (fun s => s.cache.length) = some 2) ∧
    ((runTTL 10 [(1, 101, 0), (2, 102, 1), (1, 103, 2)] :
        Option (TTLCache Nat Nat)).map
        (fun s => (expiriesFrom s.store s.head 4).filterMap id)
      = some [12, 11, 12, 11]) ∧
    ¬ List.Chain' (fun a b : Int => a ≤ b) [12, 11, 12, 11] := by
  refine ⟨by decide, by decide, ?_⟩
  rw [List.chain'_cons]
  intro h
  have h1 : (12 : Int) ≤ 11 := h.1
  omega

/-- Claim C3: a TTL get at an instant strictly after the entry's expiry
reports not-found and returns the state unchanged, even though the entry is
still structurally present (the key map still holds it). -/
theorem C3_ttl_expired_get {s : TTLCache K V} {k : K} {i : Nat} {e now : Int}
    (hstop : s.stopped = false) (hget : mapGet s.cache k = some i)
    (hexp : (tnodeAt s.store i).expiresAt = some e) (hlt : e < now) :
    ttlGetS s k now = some (none, s) := by
  rw [ttlGetS, if_neg (by rw [hstop]; simp)]
  simp only [hget, hexp]
  rw [if_pos hlt]

/-- Witness for C3: a one-entry TTL cache whose entry expired at 10,
queried at 11. -/
theorem C3_ttl_expired_get_witness :
    ttlGetS (⟨[⟨none, some 1, 5, some 10⟩], [(1, 0)], some 0, some 0, 10, false⟩ :
        TTLCache Nat Nat) 1 11 =
      some (none, ⟨[⟨none, some 1, 5, some 10⟩], [(1, 0)], some 0, some 0, 10, false⟩) :=
  @C3_ttl_expired_get Nat Nat _ _ _
    ⟨[⟨none, some 1, 5, some 10⟩], [(1, 0)], some 0, some 0, 10, false⟩ 1 0 10 11
    (by decide) (by decide) (by decide) (by decide)

/-- Claim C4: a FIFO, LIFO, LRU or Random cache built with capacity N holds
at most N entries in its key map after any finite sequence of Sets (and
hence after every prefix of such a sequence). -/
theorem C4_capacity_bound {cap : Int} {ops : List (K × V)} :
    (∀ s : FIFOCache K V, runFIFO cap ops = some s → (s.cache.length : Int) ≤ cap) ∧
    (∀ s : LIFOCache K V, runLIFO cap ops = some s → (s.cache.length : Int) ≤ cap) ∧
    (∀ s : LRUCache K V, runLRU cap ops = some s → (s.cache.length : Int) ≤ cap) ∧
    (∀ s : RandomCache K V, runRandom cap ops = some s → (s.cache.length : Int) ≤ cap) :=
  ⟨fun _ h => runFIFO_capacity h, fun _ h => runLIFO_capacity h,
   fun _ h => runLRU_capacity h, fun _ h => runRandom_capacity h⟩

/-- Witness for C4 at a concrete input: one Set on a fresh FIFO of
capacity 1 yields the expected one-entry state, whose map length is within
the capacity. -/
theorem C4_capacity_bound_witness :
    runFIFO 1 [((1 : Nat), (2 : Nat))] =
      some (⟨[⟨none, some 1, 2⟩], [(1, 0)], some 0, some 0, 1, false⟩ :
        FIFOCache Nat Nat) ∧
    (((⟨[⟨none, some 1, 2⟩], [(1, 0)], some 0, some 0, 1, false⟩ :
        FIFOCache Nat Nat).cache.length : Int)) ≤ 1 :=
  ⟨by decide, (@C4_capacity_bound Nat Nat _ _ _ 1 [(1, 2)]).1 _ (by decide)⟩

/-- Claim C5: on an LRU cache of capacity 3, after Set(1), Set(2), Set(3),
a Get(1) (which hits and promotes key 1), then Set(4), the evicted key is 2
(the least recently used), not 1: keys 1, 3 and 4 are still retrievable
with their values. -/
theorem C5_lru_eviction_order :
    ((runLRU 3 [(1, 11), (2, 12), (3, 13)] : Option (LRUCache Nat Nat)).bind
        (fun s => (lruGetS s 1).map Prod.fst) = some (some 11)) ∧
    (((runLRU 3 [(1, 11), (2, 12), (3, 13)] : Option (LRUCache Nat Nat)).bind
        (fun s => (lruGetS s 1).bind (fun r => lruSet r.2 4 14))).bind
        (fun s => lruGet s 2) = some none) ∧
    (((runLRU 3 [(1, 11), (2, 12), (3, 13)] : Option (LRUCache Nat Nat)).bind
        (fun s => (lruGetS s 1).bind (fun r => lruSet r.2 4 14))).bind
        (fun s => lruGet s 1) = some (some 11)) ∧
    (((runLRU 3 [(1, 11), (2, 12), (3, 13)] : Option (LRUCache Nat Nat)).bind
        (fun s => (lruGetS s 1).bind (fun r => lruSet r.2 4 14))).bind
        (fun s => lruGet s 3) = some (some 13)) ∧
    (((runLRU 3 [(1, 11), (2, 12), (3, 13)] : Option (LRUCache Nat Nat)).bind
        (fun s => (lruGetS s 1).bind (fun r => lruSet r.2 4 14))).bind
        (fun s => lruGet s 4) = some (some 14)) := by
  exact ⟨by decide, by decide, by decide, by decide, by decide⟩

/-- Claim C6: on a LIFO cache of capacity 2, after Set(1), Set(2), a third
Set(3) evicts key 2 (the most recently inserted entry before 3); keys 1 and
3 remain retrievable. -/
theorem C6_lifo_eviction_order :
    ((runLIFO 2 [(1, 10), (2, 20), (3, 30)] : Option (LIFOCache Nat Nat)).bind
        (fun s => lifoGet s 2) = some none) ∧
    ((runLIFO 2 [(1, 10), (2, 20), (3, 30)] : Option (LIFOCache Nat Nat)).bind
        (fun s => lifoGet s 1) = some (some 10)) ∧
    ((runLIFO 2 [(1, 10), (2, 20), (3, 30)] : Option (LIFOCache Nat Nat)).bind
        (fun s => lifoGet s 3) = some (some 30)) := by
  exact ⟨by decide, by decide, by decide⟩

/-- Claim C7: for every policy, Fetch on an uncached key with a compute
function that fails returns that error and leaves the state exactly as it
was (no entry stored, nothing else touched). -/
theorem C7_fetch_error_unmodified :
    (∀ (s : FIFOCache K V) (k : K) (e : E), s.stopped = false →
      mapGet s.cache k = none →
      fifoFetch s k (Except.error e) = some (Except.error e, s)) ∧
    (∀ (s : LIFOCache K V) (k : K) (e : E), s.stopped = false →
      mapGet s.cache k = none →
      lifoFetch s k (Except.error e) = some (Except.error e, s)) ∧
    (∀ (s : LRUCache K V) (k : K) (e : E), s.stopped = false →
      mapGet s.cache k = none →
      lruFetch s k (Except.error e) = some (Except.error e, s)) ∧
    (∀ (s : RandomCache K V) (k : K) (e : E), s.stopped = false →
      mapGet s.cache k = none →
      randomFetch s k (Except.error e) = some (Except.error e, s)) ∧
    (∀ (s : TTLCache K V) (k : K) (e : E) (now : Int), s.stopped = false →
      mapGet s.cache k = none →
      ttlFetch s k (Except.error e) now = some (Except.error e, s)) := by
  refine ⟨?_, ?_, ?_, ?_, ?_⟩
  · intro s k e hstop hget
    rw [fifoFetch, if_neg (by rw [hstop]; simp),
        fifoGetS, if_neg (by rw [hstop]; simp)]
    simp only [hget, Option.some_bind]
  · intro s k e hstop hget
    rw [lifoFetch, if_neg (by rw [hstop]; simp),
        lifoGetS, if_neg (by rw [hstop]; simp)]
    simp only [hget, Option.some_bind]
  · intro s k e hstop hget
    rw [lruFetch, if_neg (by rw [hstop]; simp),
        lruGetS, if_neg (by rw [hstop]; simp)]
    simp only [hget, Option.some_bind]
  · intro s k e hstop hget
    rw [randomFetch, if_neg (by rw [hstop]; simp),
        randomGetS, if_neg (by rw [hstop]; simp)]
    simp only [hget, Option.some_bind]
  · intro s k e now hstop hget
    rw [ttlFetch, if_neg (by rw [hstop]; simp),
        ttlGetS, if_neg (by rw [hstop]; simp)]
    simp only [hget, Option.some_bind]

/-- Witness for C7: failing Fetch on a missing key of fresh caches of each
policy returns the error and the unchanged state. -/
theorem C7_fetch_error_unmodified_witness :
    fifoFetch (⟨[], [], none, none, 1, false⟩ : FIFOCache Nat Nat) 1
        (Except.error (0 : Nat)) =
      some (Except.error 0, ⟨[], [], none, none, 1, false⟩) ∧
    lifoFetch (⟨[], [], none, 1, false⟩ : LIFOCache Nat Nat) 1
        (Except.error (0 : Nat)) =
      some (Except.error 0, ⟨[], [], none, 1, false⟩) ∧
    lruFetch (⟨[], [], none, none, 1, false⟩ : LRUCache Nat Nat) 1
        (Except.error (0 : Nat)) =
      some (Except.error 0, ⟨[], [], none, none, 1, false⟩) ∧
    randomFetch (⟨[], 1, false⟩ : RandomCache Nat Nat) 1
        (Except.error (0 : Nat)) =
      some (Except.error 0, ⟨[], 1, false⟩) ∧
    ttlFetch (⟨[], [], none, none, 10, false⟩ : TTLCache Nat Nat) 1
        (Except.error (0 : Nat)) 0 =
      some (Except.error 0, ⟨[], [], none, none, 10, false⟩) :=
  ⟨(@C7_fetch_error_unmodified Nat Nat Nat _ _ _).1 _ 1 0 (by decide) (by decide),
   (@C7_fetch_error_unmodified Nat Nat Nat _ _ _).2.1 _ 1 0 (by decide) (by decide),
   (@C7_fetch_error_unmodified Nat Nat Nat _ _ _).2.2.1 _ 1 0 (by decide) (by decide),
   (@C7_fetch_error_unmodified Nat Nat Nat _ _ _).2.2.2.1 _ 1 0 (by decide) (by decide),
   (@C7_fetch_error_unmodified Nat Nat Nat _ _ _).2.2.2.2 _ 1 0 0 (by decide) (by decide)⟩

/-- Claim C8: for every policy, the first Stop empties the key map and nils
the order-structure pointers, any later Get or Set fails fatally (modelled
as `none`, the panic), and a second Stop is a no-op. -/
theorem C8_stop_semantics :
    (∀ s : FIFOCache K V, s.stopped = false →
      (fifoStop s).stopped = true ∧ (fifoStop s).cache = [] ∧
      (fifoStop s).head = none ∧ (fifoStop s).tail = none ∧
      (∀ k, fifoGetS (fifoStop s) k = none) ∧
      (∀ k v, fifoSet (fifoStop s) k v = none) ∧
      fifoStop (fifoStop s) = fifoStop s) ∧
    (∀ s : LIFOCache K V, s.stopped = false →
      (lifoStop s).stopped = true ∧ (lifoStop s).cache = [] ∧
      (lifoStop s).head = none ∧
      (∀ k, lifoGetS (lifoStop s) k = none) ∧
      (∀ k v, lifoSet (lifoStop s) k v = none) ∧
      lifoStop (lifoStop s) = lifoStop s) ∧
    (∀ s : LRUCache K V, s.stopped = false →
      (lruStop s).stopped = true ∧ (lruStop s).cache = [] ∧
      (lruStop s).head = none ∧ (lruStop s).tail = none ∧
      (∀ k, lruGetS (lruStop s) k = none) ∧
      (∀ k v, lruSet (lruStop s) k v = none) ∧
      lruStop (lruStop s) = lruStop s) ∧
    (∀ s : RandomCache K V, s.stopped = false →
      (randomStop s).stopped = true ∧ (randomStop s).cache = [] ∧
      (∀ k, randomGetS (randomStop s) k = none) ∧
      (∀ k v, randomSet (randomStop s) k v = none) ∧
      randomStop (randomStop s) = randomStop s) ∧
    (∀ s : TTLCache K V, s.stopped = false →
      (ttlStop s).stopped = true ∧ (ttlStop s).cache = [] ∧
      (ttlStop s).head = none ∧ (ttlStop s).tail = none ∧
      (∀ k now, ttlGetS (ttlStop s) k now = none) ∧
      (∀ k v now, ttlSet (ttlStop s) k v now = none) ∧
      ttlStop (ttlStop s) = ttlStop s) := by
  refine ⟨?_, ?_, ?_, ?_, ?_⟩
  · intro s hstop
    have hST : fifoStop s = { s with stopped := true, cache := [], store := fifoStopWalk s.store s.head (s.store.length + 1), head := none, tail := none } := by
      rw [fifoStop, if_neg (by rw [hstop]; simp)]
    rw [hST]
    refine ⟨rfl, rfl, rfl, rfl, ?_, ?_, ?_⟩
    · intro k
      rw [fifoGetS, if_pos rfl]
    · intro k v
      rw [fifoSet, if_pos rfl]
    · rw [fifoStop, if_pos rfl]
  · intro s hstop
    have hST : lifoStop s = { s with stopped := true, cache := [], store := lifoStopWalk s.store s.head (s.store.length + 1), head := none } := by
      rw [lifoStop, if_neg (by rw [hstop]; simp)]
    rw [hST]
    refine ⟨rfl, rfl, rfl, ?_, ?_, ?_⟩
    · intro k
      rw [lifoGetS, if_pos rfl]
    · intro k v
      rw [lifoSet, if_pos rfl]
    · rw [lifoStop, if_pos rfl]
  · intro s hstop
    have hST : lruStop s = { s with stopped := true, cache := [], store := lruStopWalk s.store s.head (s.store.length + 1), head := none, tail := none } := by
      rw [lruStop, if_neg (by rw [hstop]; simp)]
    rw [hST]
    refine ⟨rfl, rfl, rfl, rfl, ?_, ?_, ?_⟩
    · intro k
      rw [lruGetS, if_pos rfl]
    · intro k v
      rw [lruSet, if_pos rfl]
    · rw [lruStop, if_pos rfl]
  · intro s hstop
    have hST : randomStop s = { s with stopped := true, cache := [] } := by
      rw [randomStop, if_neg (by rw [hstop]; simp)]
    rw [hST]
    refine ⟨rfl, rfl, ?_, ?_, ?_⟩
    · intro k
      rw [randomGetS, if_pos rfl]
    · intro k v
      rw [randomSet, if_pos rfl]
    · rw [randomStop, if_pos rfl]
  · intro s hstop
    have hST : ttlStop s = { s with stopped := true, cache := [], store := ttlStopWalk s.store s.head (s.store.length + 1), head := none, tail := none } := by
      rw [ttlStop, if_neg (by rw [hstop]; simp)]
    rw [hST]
    refine ⟨rfl, rfl, rfl, rfl, ?_, ?_, ?_⟩
    · intro k now
      rw [ttlGetS, if_pos rfl]
    · intro k v now
      rw [ttlSet, if_pos rfl]
    · rw [ttlStop, if_pos rfl]

/-- Witness for C8: stopping a fresh one-capacity cache of each policy
empties it and makes a later Get fail fatally. -/
theorem C8_stop_semantics_witness :
    ((fifoStop (⟨[], [], none, none, 1, false⟩ : FIFOCache Nat Nat)).cache = [] ∧
      fifoGetS (fifoStop (⟨[], [], none, none, 1, false⟩ : FIFOCache Nat Nat)) 1 = none) ∧
    ((randomStop (⟨[], 1, false⟩ : RandomCache Nat Nat)).cache = [] ∧
      randomGetS (randomStop (⟨[], 1, false⟩ : RandomCache Nat Nat)) 1 = none) :=
  ⟨⟨((@C8_stop_semantics Nat Nat _ _ _).1 _ (by decide)).2.1,
    ((@C8_stop_semantics Nat Nat _ _ _).1 _ (by decide)).2.2.2.2.1 1⟩,
   ⟨((@C8_stop_semantics Nat Nat _ _ _).2.2.2.1 _ (by decide)).2.1,
    ((@C8_stop_semantics Nat Nat _ _ _).2.2.2.1 _ (by decide)).2.2.1 1⟩⟩

/-- Claim C10: for FIFO, LIFO, Random and TTL the internal get never
modifies the cache: whenever it returns (no panic), the state it hands back
is the receiver itself, on hits, misses and expired entries alike. -/
theorem C10_get_pure :
    (∀ (s : FIFOCache K V) (k : K), s.stopped = false →
      (fifoGetS s k).map Prod.snd = some s) ∧
    (∀ (s : LIFOCache K V) (k : K), s.stopped = false →
      (lifoGetS s k).map Prod.snd = some s) ∧
    (∀ (s : RandomCache K V) (k : K), s.stopped = false →
      (randomGetS s k).map Prod.snd = some s) ∧
    (∀ (s : TTLCache K V) (k : K) (now : Int) (r : Option V × TTLCache K V),
      ttlGetS s k now = some r → r.2 = s) := by
  refine ⟨?_, ?_, ?_, ?_⟩
  · intro s k hstop
    rw [fifoGetS, if_neg (by rw [hstop]; simp)]
    cases hget : mapGet s.cache k <;> simp
  · intro s k hstop
    rw [lifoGetS, if_neg (by rw [hstop]; simp)]
    cases hget : mapGet s.cache k <;> simp
  · intro s k hstop
    rw [randomGetS, if_neg (by rw [hstop]; simp)]
    simp
  · intro s k now r h
    rw [ttlGetS] at h
    by_cases hstop : s.stopped = true
    · rw [if_pos hstop] at h
      exact absurd h (by simp)
    · rw [if_neg hstop] at h
      cases hget : mapGet s.cache k with
      | none =>
        simp only [hget] at h
        obtain rfl := Option.some.inj h
        rfl
      | some i =>
        simp only [hget] at h
        cases hexp : (tnodeAt s.store i).expiresAt with
        | none =>
          simp only [hexp] at h
          exact absurd h (by simp)
        | some e =>
          simp only [hexp] at h
          by_cases hlt : e < now
          · rw [if_pos hlt] at h
            obtain rfl := Option.some.inj h
            rfl
          · rw [if_neg hlt] at h
            obtain rfl := Option.some.inj h
            rfl

/-- Witness for C10: a miss on a fresh FIFO and a hit plus an expired hit
on a one-entry TTL cache all return the receiver state unchanged. -/
theorem C10_get_pure_witness :
    ((fifoGetS (⟨[], [], none, none, 1, false⟩ : FIFOCache Nat Nat) 1).map Prod.snd =
      some ⟨[], [], none, none, 1, false⟩) ∧
    ((some 5, (⟨[⟨none, some 1, 5, some 10⟩], [(1, 0)], some 0, some 0, 10, false⟩ :
        TTLCache Nat Nat)) :
      Option Nat × TTLCache Nat Nat).2 =
      ⟨[⟨none, some 1, 5, some 10⟩], [(1, 0)], some 0, some 0, 10, false⟩ :=
  ⟨(@C10_get_pure Nat Nat _ _ _).1 _ 1 (by decide),
   (@C10_get_pure Nat Nat _ _ _).2.2.2 _ 1 3 _ (by decide)⟩

/-- Claim C9: on a non-stopped cache whose stored node indices are valid,
a successful Set(k, v) immediately followed by Get(k) returns v, for every
policy; for TTL this holds whenever the Get happens strictly less than ttl
after the Set. -/
theorem C9_set_then_get :
    (∀ (s s' : FIFOCache K V) (k : K) (v : V), s.stopped = false → fifoIdsValid s →
      fifoSet s k v = some s' → fifoGet s' k = some (some v)) ∧
    (∀ (s s' : LIFOCache K V) (k : K) (v : V), s.stopped = false → lifoIdsValid s →
      lifoSet s k v = some s' → lifoGet s' k = some (some v)) ∧
    (∀ (s s' : LRUCache K V) (k : K) (v : V), s.stopped = false → lruIdsValid s →
      lruSet s k v = some s' → lruGet s' k = some (some v)) ∧
    (∀ (s s' : RandomCache K V) (k : K) (v : V), s.stopped = false →
      randomSet s k v = some s' → randomGet s' k = some (some v)) ∧
    (∀ (s s' : TTLCache K V) (k : K) (v : V) (now now2 : Int), s.stopped = false →
      ttlIdsValid s → now2 < now + s.ttl →
      ttlSet s k v now = some s' → ttlGet s' k now2 = some (some v)) := by
  refine ⟨?_, ?_, ?_, ?_, ?_⟩
  · -- FIFO
    intro s s' k v hstop hvalid hset
    rw [fifoSet, if_neg (by rw [hstop]; simp)] at hset
    cases hcond : (if (s.cache.length : Int) ≥ s.capacity then fifoEvict s else some s) with
    | none =>
      rw [hcond] at hset
      exact absurd hset (by simp)
    | some s1 =>
      rw [hcond, Option.some_bind] at hset
      have hs1 : s1.stopped = s.stopped ∧ s1.capacity = s.capacity ∧
          s1.store.length = s.store.length ∧ ∀ p ∈ s1.cache, p ∈ s.cache := by
        by_cases hcap : (s.cache.length : Int) ≥ s.capacity
        · rw [if_pos hcap] at hcond
          exact fifoEvict_weak hcond
        · rw [if_neg hcap] at hcond
          obtain rfl := Option.some.inj hcond
          exact ⟨rfl, rfl, rfl, fun p hp => hp⟩
      obtain ⟨hstop1, hcap1, hlen1, hsub1⟩ := hs1
      have hstop1' : s1.stopped = false := hstop1.trans hstop
      cases hget : mapGet s1.cache k with
      | some i =>
        simp only [hget] at hset
        obtain rfl := Option.some.inj hset
        have hilt : i < s1.store.length := by
          rw [hlen1]
          exact hvalid (k, i) (hsub1 (k, i) (mapGet_mem hget))
        exact fifoGet_found i hstop1' hget
          (by dsimp only; rw [fnodeAt_set, if_pos ⟨rfl, hilt⟩])
      | none =>
        simp only [hget] at hset
        cases htl : s1.tail with
        | some t =>
          simp only [htl] at hset
          by_cases hhd : s1.head = none
          · rw [if_pos hhd] at hset
            obtain rfl := Option.some.inj hset
            exact fifoGet_found s1.store.length hstop1' (mapGet_mapInsert_self _ _ _)
              (by dsimp only; rw [fnodeAt_set, if_pos ⟨rfl, by simp⟩])
          · rw [if_neg hhd] at hset
            obtain rfl := Option.some.inj hset
            exact fifoGet_found s1.store.length hstop1' (mapGet_mapInsert_self _ _ _)
              (by dsimp only; rw [fnodeAt_set, if_pos ⟨rfl, by simp⟩])
        | none =>
          simp only [htl] at hset
          by_cases hhd : s1.head = none
          · rw [if_pos hhd] at hset
            obtain rfl := Option.some.inj hset
            exact fifoGet_found s1.store.length hstop1' (mapGet_mapInsert_self _ _ _)
              (by dsimp only; rw [fnodeAt_set, if_pos ⟨rfl, by simp⟩])
          · rw [if_neg hhd] at hset
            obtain rfl := Option.some.inj hset
            exact fifoGet_found s1.store.length hstop1' (mapGet_mapInsert_self _ _ _)
              (by dsimp only; rw [fnodeAt_set, if_pos ⟨rfl, by simp⟩])
  · -- LIFO
    intro s s' k v hstop hvalid hset
    rw [lifoSet, if_neg (by rw [hstop]; simp)] at hset
    cases hcond : (if (s.cache.length : Int) ≥ s.capacity then lifoEvict s else some s) with
    | none =>
      rw [hcond] at hset
      exact absurd hset (by simp)
    | some s1 =>
      rw [hcond, Option.some_bind] at hset
      have hs1 : s1.stopped = s.stopped ∧ s1.capacity = s.capacity ∧
          s1.store.length = s.store.length ∧ ∀ p ∈ s1.cache, p ∈ s.cache := by
        by_cases hcap : (s.cache.length : Int) ≥ s.capacity
        · rw [if_pos hcap] at hcond
          exact lifoEvict_weak hcond
        · rw [if_neg hcap] at hcond
          obtain rfl := Option.some.inj hcond
          exact ⟨rfl, rfl, rfl, fun p hp => hp⟩
      obtain ⟨hstop1, hcap1, hlen1, hsub1⟩ := hs1
      have hstop1' : s1.stopped = false := hstop1.trans hstop
      cases hget : mapGet s1.cache k with
      | some i =>
        simp only [hget] at hset
        obtain rfl := Option.some.inj hset
        have hilt : i < s1.store.length := by
          rw [hlen1]
          exact hvalid (k, i) (hsub1 (k, i) (mapGet_mem hget))
        exact lifoGet_found i hstop1' hget
          (by dsimp only; rw [gnodeAt_set, if_pos ⟨rfl, hilt⟩])
      | none =>
        simp only [hget] at hset
        obtain rfl := Option.some.inj hset
        exact lifoGet_found s1.store.length hstop1' (mapGet_mapInsert_self _ _ _)
          (by dsimp only; rw [gnodeAt_set, if_pos ⟨rfl, by simp⟩])
  · -- LRU
    intro s s' k v hstop hvalid hset
    rw [lruSet, if_neg (by rw [hstop]; simp)] at hset
    cases hcond : (if (s.cache.length : Int) ≥ s.capacity then lruEvict s else some s) with
    | none =>
      rw [hcond] at hset
      exact absurd hset (by simp)
    | some s1 =>
      rw [hcond, Option.some_bind] at hset
      have hs1 : s1.stopped = s.stopped ∧ s1.capacity = s.capacity ∧
          s1.store.length = s.store.length ∧ ∀ p ∈ s1.cache, p ∈ s.cache := by
        by_cases hcap : (s.cache.length : Int) ≥ s.capacity
        · rw [if_pos hcap] at hcond
          exact lruEvict_weak hcond
        · rw [if_neg hcap] at hcond
          obtain rfl := Option.some.inj hcond
          exact ⟨rfl, rfl, rfl, fun p hp => hp⟩
      obtain ⟨hstop1, hcap1, hlen1, hsub1⟩ := hs1
      have hstop1' : s1.stopped = false := hstop1.trans hstop
      cases hget : mapGet s1.cache k with
      | some i =>
        simp only [hget] at hset
        obtain rfl := Option.some.inj hset
        have hilt : i < s1.store.length := by
          rw [hlen1]
          exact hvalid (k, i) (hsub1 (k, i) (mapGet_mem hget))
        exact lruGet_found i
          (by rw [(lruMoveToTail_frame _ _).2.2.1]; exact hstop1')
          (by rw [(lruMoveToTail_frame _ _).1]; exact hget)
          (by rw [((lruMoveToTail_frame _ _).2.2.2.2 i).2]
              dsimp only
              rw [lnodeAt_set, if_pos ⟨rfl, hilt⟩])
      | none =>
        simp only [hget] at hset
        obtain rfl := Option.some.inj hset
        exact lruGet_found s1.store.length
          (by rw [(lruMoveToTail_frame _ _).2.2.1]; exact hstop1')
          (by rw [(lruMoveToTail_frame _ _).1]; exact mapGet_mapInsert_self _ _ _)
          (by rw [((lruMoveToTail_frame _ _).2.2.2.2 s1.store.length).2]
              dsimp only
              rw [lnodeAt_set, if_pos ⟨rfl, by simp⟩])
  · -- Random
    intro s s' k v hstop hset
    rw [randomSet, if_neg (by rw [hstop]; simp)] at hset
    by_cases hcap : (s.cache.length : Int) ≥ s.capacity
    · rw [if_pos hcap] at hset
      cases hc : s.cache with
      | nil =>
        rw [hc] at hset
        obtain rfl := Option.some.inj hset
        exact randomGet_found hstop (mapGet_mapInsert_self _ _ _)
      | cons p rest =>
        obtain ⟨k0, v0⟩ := p
        rw [hc] at hset
        obtain rfl := Option.some.inj hset
        exact randomGet_found hstop (mapGet_mapInsert_self _ _ _)
    · rw [if_neg hcap] at hset
      obtain rfl := Option.some.inj hset
      exact randomGet_found hstop (mapGet_mapInsert_self _ _ _)
  · -- TTL
    intro s s' k v now now2 hstop hvalid hlt hset
    rw [ttlSet, if_neg (by rw [hstop]; simp)] at hset
    cases hget : mapGet s.cache k with
    | some i =>
      simp only [hget] at hset
      have hilt : i < s.store.length := hvalid (k, i) (mapGet_mem hget)
      by_cases hhd : s.head = none
      · rw [if_pos hhd] at hset
        cases htl : s.tail with
        | some t =>
          simp only [htl] at hset
          obtain rfl := Option.some.inj hset
          by_cases hti : t = i
          · subst hti
            exact ttlGet_found t (now + s.ttl) hstop hget
              (by dsimp only
                  rw [tnodeAt_set, if_pos ⟨rfl, by simp [hilt]⟩,
                      tnodeAt_set, if_pos ⟨rfl, hilt⟩])
              (by omega)
              (by dsimp only
                  rw [tnodeAt_set, if_pos ⟨rfl, by simp [hilt]⟩,
                      tnodeAt_set, if_pos ⟨rfl, hilt⟩])
          · exact ttlGet_found i (now + s.ttl) hstop hget
              (by dsimp only
                  rw [tnodeAt_set, if_neg (fun hh => hti hh.1),
                      tnodeAt_set, if_pos ⟨rfl, hilt⟩])
              (by omega)
              (by dsimp only
                  rw [tnodeAt_set, if_neg (fun hh => hti hh.1),
                      tnodeAt_set, if_pos ⟨rfl, hilt⟩])
        | none =>
          simp only [htl] at hset
          obtain rfl := Option.some.inj hset
          exact ttlGet_found i (now + s.ttl) hstop hget
            (by dsimp only; rw [tnodeAt_set, if_pos ⟨rfl, hilt⟩])
            (by omega)
            (by dsimp only; rw [tnodeAt_set, if_pos ⟨rfl, hilt⟩])
      · rw [if_neg hhd] at hset
        cases htl : s.tail with
        | some t =>
          simp only [htl] at hset
          obtain rfl := Option.some.inj hset
          by_cases hti : t = i
          · subst hti
            exact ttlGet_found t (now + s.ttl) hstop hget
              (by dsimp only
                  rw [tnodeAt_set, if_pos ⟨rfl, by simp [hilt]⟩,
                      tnodeAt_set, if_pos ⟨rfl, hilt⟩])
              (by omega)
              (by dsimp only
                  rw [tnodeAt_set, if_pos ⟨rfl, by simp [hilt]⟩,
                      tnodeAt_set, if_pos ⟨rfl, hilt⟩])
          · exact ttlGet_found i (now + s.ttl) hstop hget
              (by dsimp only
                  rw [tnodeAt_set, if_neg (fun hh => hti hh.1),
                      tnodeAt_set, if_pos ⟨rfl, hilt⟩])
              (by omega)
              (by dsimp only
                  rw [tnodeAt_set, if_neg (fun hh => hti hh.1),
                      tnodeAt_set, if_pos ⟨rfl, hilt⟩])
        | none =>
          simp only [htl] at hset
          obtain rfl := Option.some.inj hset
          exact ttlGet_found i (now + s.ttl) hstop hget
            (by dsimp only; rw [tnodeAt_set, if_pos ⟨rfl, hilt⟩])
            (by omega)
            (by dsimp only; rw [tnodeAt_set, if_pos ⟨rfl, hilt⟩])
    | none =>
      simp only [hget] at hset
      by_cases hhd : s.head = none
      · rw [if_pos hhd] at hset
        cases htl : s.tail with
        | some t =>
          simp only [htl] at hset
          obtain rfl := Option.some.inj hset
          by_cases hti : t = s.store.length
          · subst hti
            exact ttlGet_found s.store.length (now + s.ttl) hstop
              (mapGet_mapInsert_self _ _ _)
              (by dsimp only
                  rw [tnodeAt_set, if_pos ⟨rfl, by simp⟩,
                      tnodeAt_set, if_pos ⟨rfl, by simp⟩, tnodeAt_append_len])
              (by omega)
              (by dsimp only
                  rw [tnodeAt_set, if_pos ⟨rfl, by simp⟩,
                      tnodeAt_set, if_pos ⟨rfl, by simp⟩, tnodeAt_append_len])
          · exact ttlGet_found s.store.length (now + s.ttl) hstop
              (mapGet_mapInsert_self _ _ _)
              (by dsimp only
                  rw [tnodeAt_set, if_neg (fun hh => hti hh.1),
                      tnodeAt_set, if_pos ⟨rfl, by simp⟩, tnodeAt_append_len])
              (by omega)
              (by dsimp only
                  rw [tnodeAt_set, if_neg (fun hh => hti hh.1),
                      tnodeAt_set, if_pos ⟨rfl, by simp⟩, tnodeAt_append_len])
        | none =>
          simp only [htl] at hset
          obtain rfl := Option.some.inj hset
          exact ttlGet_found s.store.length (now + s.ttl) hstop
            (mapGet_mapInsert_self _ _ _)
            (by dsimp only
                rw [tnodeAt_set, if_pos ⟨rfl, by simp⟩, tnodeAt_append_len])
            (by omega)
            (by dsimp only
                rw [tnodeAt_set, if_pos ⟨rfl, by simp⟩, tnodeAt_append_len])
      · rw [if_neg hhd] at hset
        cases htl : s.tail with
        | some t =>
          simp only [htl] at hset
          obtain rfl := Option.some.inj hset
          by_cases hti : t = s.store.length
          · subst hti
            exact ttlGet_found s.store.length (now + s.ttl) hstop
              (mapGet_mapInsert_self _ _ _)
              (by dsimp only
                  rw [tnodeAt_set, if_pos ⟨rfl, by simp⟩,
                      tnodeAt_set, if_pos ⟨rfl, by simp⟩, tnodeAt_append_len])
              (by omega)
              (by dsimp only
                  rw [tnodeAt_set, if_pos ⟨rfl, by simp⟩,
                      tnodeAt_set, if_pos ⟨rfl, by simp⟩, tnodeAt_append_len])
          · exact ttlGet_found s.store.length (now + s.ttl) hstop
              (mapGet_mapInsert_self _ _ _)
              (by dsimp only
                  rw [tnodeAt_set, if_neg (fun hh => hti hh.1),
                      tnodeAt_set, if_pos ⟨rfl, by simp⟩, tnodeAt_append_len])
              (by omega)
              (by dsimp only
                  rw [tnodeAt_set, if_neg (fun hh => hti hh.1),
                      tnodeAt_set, if_pos ⟨rfl, by simp⟩, tnodeAt_append_len])
        | none =>
          simp only [htl] at hset
          obtain rfl := Option.some.inj hset
          exact ttlGet_found s.store.length (now + s.ttl) hstop
            (mapGet_mapInsert_self _ _ _)
            (by dsimp only
                rw [tnodeAt_set, if_pos ⟨rfl, by simp⟩, tnodeAt_append_len])
            (by omega)
            (by dsimp only
                rw [tnodeAt_set, if_pos ⟨rfl, by simp⟩, tnodeAt_append_len])

/-- Witness for C9 at a concrete input: Set(1, 7) on a fresh FIFO of
capacity 2, then Get(1), returns 7. -/
theorem C9_set_then_get_witness :
    fifoGet (⟨[⟨none, some 1, 7⟩], [(1, 0)], some 0, some 0, 2, false⟩ :
        FIFOCache Nat Nat) 1 = some (some 7) :=
  (@C9_set_then_get Nat Nat _ _ _).1 ⟨[], [], none, none, 2, false⟩ _ 1 7
    (by decide) (by intro p hp; simp at hp) (by decide)

end Claims

end GoCache
